import Mathlib

/-!
Alenka: the device block cache (`GPUCache`) and its loader.

A shallow embedding of `src/src/SignalProcessor/gpucache.cpp`, of the constructor,
the destructor and the worker loops of
`src/App/src/SignalProcessor/signalprocessor.cpp`, of the label parsing and pairing of
`src/src/SignalProcessor/bipolarmontage.cpp`, and of the view synchronisation of
`src/src/signalfilebrowserwindow.cpp`.

Modelling conventions

* `std::map<K, V>` is an association list with pairwise distinct keys
  (`mapFind`, `mapErase`, `mapAssign`).  The key order of the C++ container is
  observable only through iteration, which `getAny` never does itself.
* `std::set<int>` is a list of its members; `*indexSet.begin()` is the least member.
* `unsigned int` counters wrap modulo `2^32`.
* `cl_mem` and `cl_event` handles are natural numbers, `0` standing for `nullptr`.
* Undefined behaviour of the C++ code (dereferencing `begin()` of an empty set,
  `back()` of an empty vector, indexing a vector out of range) and a failed `assert`
  are the result `none`.
* `findCommon` (declared outside the available sources) and `std::sort` (whose
  treatment of equal keys the C++ standard leaves open) are parameters, collected
  in `Lib`; the theorems assume only their contracts (`Lib.Ok`).
-/

namespace Alenka

/-! ## Containers -/

/-- The value stored under key `k` (`m.find(k)`, `m.count(k)`, `m[k]` on a present key). -/
def mapFind {K V : Type} [DecidableEq K] : List (K × V) → K → Option V
  | [], _ => none
  | (k', v) :: rest, k => if k' = k then some v else mapFind rest k

/-- The map without key `k` (`m.erase(k)`). -/
def mapErase {K V : Type} [DecidableEq K] (m : List (K × V)) (k : K) : List (K × V) :=
  m.filter (fun p => decide (p.1 ≠ k))

/-- The map with `k` bound to `v`, replacing an earlier binding of `k` (`m[k] = v`). -/
def mapAssign {K V : Type} [DecidableEq K] (m : List (K × V)) (k : K) (v : V) : List (K × V) :=
  (k, v) :: mapErase m k

/-- The first element of a `std::set<int>` in iteration order (`*indexSet.begin()`):
the least member; `none` for the empty set. -/
def setBegin : List Int → Option Int
  | [] => none
  | x :: xs => some (xs.foldl min x)

/-- The width of `unsigned int`. -/
def UINT_RANGE : Nat := 2 ^ 32

/-! ## Library functions that are parameters -/

/-- The two functions `getAny` calls whose code is outside the available sources. -/
structure Lib where
  /-- The call `findCommon(indexMap, indexSet, &index, &cacheIndex)`:
  `some (index, cacheIndex)` when it returns true. -/
  findCommon : List (Int × Nat) → List Int → Option (Int × Nat)
  /-- The call `std::sort(first, last, comp)` on a vector of slot ids. -/
  sort : (Nat → Nat → Bool) → List Nat → List Nat

/-- The contracts assumed of the parameters: `findCommon` succeeds exactly when some
key of the map is in the candidate set and then returns that key with its slot;
`sort`, given the comparison of a key function, returns a permutation of its input in
non-decreasing key order. -/
structure Lib.Ok (L : Lib) : Prop where
  findCommon_some : ∀ m S k s, L.findCommon m S = some (k, s) → (k, s) ∈ m ∧ k ∈ S
  findCommon_none : ∀ m S, L.findCommon m S = none → ∀ k s, (k, s) ∈ m → k ∉ S
  sort_perm : ∀ (key : Nat → Nat) (l : List Nat),
    (L.sort (fun a b => decide (key a < key b)) l).Perm l
  sort_sorted : ∀ (key : Nat → Nat) (l : List Nat),
    (L.sort (fun a b => decide (key a < key b)) l).Pairwise (fun a b => key a ≤ key b)

/-- One implementation of `findCommon`: the first binding of the map whose key is a
member of the set. -/
def findCommonFirst (m : List (Int × Nat)) (S : List Int) : Option (Int × Nat) :=
  m.find? (fun p => decide (p.1 ∈ S))

/-- Insertion of `x` into a sorted list, behind the elements that are not greater. -/
def insertSorted (lt : Nat → Nat → Bool) (x : Nat) : List Nat → List Nat
  | [] => [x]
  | y :: ys => if lt y x then y :: insertSorted lt x ys else x :: y :: ys

/-- One implementation of `std::sort`: insertion sort with the comparison `lt`. -/
def insertionSortBy (lt : Nat → Nat → Bool) : List Nat → List Nat
  | [] => []
  | x :: xs => insertSorted lt x (insertionSortBy lt xs)

/-- The concrete instance of the parameters used to evaluate the model. -/
def stdLib : Lib := ⟨findCommonFirst, insertionSortBy⟩

/-! ## The cache -/

/-- An element of `GPUCache::queue`: `(index, cacheIndex, readyEvent, buffer)`. -/
structure Request where
  index : Int
  cacheIndex : Nat
  readyEvent : Nat
  buffer : Nat
  deriving DecidableEq, Repr

/-- A call of `clEnqueueCopyBufferRect` issued by `enqueuCopy`: copy slot `source` to
the buffer `destination` and signal `readyEvent` when it completes. -/
structure CopyCmd where
  source : Nat
  destination : Nat
  readyEvent : Nat
  deriving DecidableEq, Repr

/-- The members of `GPUCache` that `getAny` and `loaderThreadFunction` use.  `issued`
and `served` are history variables that are not members of the C++ class: the requests
ever passed to `queue.emplace` and the requests ever removed by `queue.pop`, oldest
first. -/
structure GPUCache where
  blockSize : Nat
  offset : Nat
  delay : Int
  channelCount : Nat
  capacity : Nat
  lastUsed : List Nat
  order : List Nat
  indexMap : List (Int × Nat)
  reverseIndexMap : List (Nat × Int)
  queue : List Request
  issued : List Request
  served : List Request
  deriving DecidableEq, Repr

/-- The state the constructor leaves behind once `capacity` is known (lines 33-40):
`capacity` slots, each with `lastUsed` 0, `order` = 0, 1, ..., capacity-1, nothing
bound, nothing queued.  The constructor throws when `capacity == 0`. -/
def GPUCache.create (blockSize offset : Nat) (delay : Int) (channelCount capacity : Nat) :
    Except String GPUCache :=
  if capacity = 0 then
    .error "Not enough memory for the gpu cache."
  else
    .ok { blockSize := blockSize, offset := offset, delay := delay,
          channelCount := channelCount, capacity := capacity,
          lastUsed := List.replicate capacity 0,
          order := List.range capacity,
          indexMap := [], reverseIndexMap := [],
          queue := [], issued := [], served := [] }

/-- The method `GPUCache::enqueuCopy`: a copy is enqueued unless `destination` is
`nullptr`. -/
def enqueuCopy (source destination readyEvent : Nat) : Option CopyCmd :=
  if destination ≠ 0 then some ⟨source, destination, readyEvent⟩ else none

/-- What a call of `getAny` yields: the returned block index, the local variable
`cacheIndex` (the slot used), whether the `findCommon` branch was taken, the copy
enqueued by that branch, and the cache afterwards. -/
structure GetAnyResult where
  index : Int
  cacheIndex : Nat
  hit : Bool
  copy : Option CopyCmd
  cache : GPUCache
  deriving DecidableEq, Repr

/-- Lines 106-116 of `getAny`: every `lastUsed` entry is incremented, the entry of the
slot used is reset to 0 and `order` is sorted by `lastUsed`. -/
def touch (L : Lib) (c : GPUCache) (cacheIndex : Nat) : Option GPUCache :=
  if cacheIndex < c.lastUsed.length then
    let lastUsed := (c.lastUsed.map (fun e => (e + 1) % UINT_RANGE)).set cacheIndex 0
    some { c with
      lastUsed := lastUsed
      order := L.sort (fun a b => decide (lastUsed.getD a 0 < lastUsed.getD b 0)) c.order }
  else
    none

/-- Lines 89-103 of `getAny`: the block bound to slot `cacheIndex`, if any, is unbound,
`index` is bound to the slot in both maps and the load request is put at the end of
the loader queue. -/
def rebind (c : GPUCache) (index : Int) (cacheIndex readyEvent buffer : Nat) : GPUCache :=
  let indexMap1 :=
    match mapFind c.reverseIndexMap cacheIndex with
    | some old => mapErase c.indexMap old
    | none => c.indexMap
  let request : Request := ⟨index, cacheIndex, readyEvent, buffer⟩
  { c with
    indexMap := mapAssign indexMap1 index cacheIndex
    reverseIndexMap := mapAssign c.reverseIndexMap cacheIndex index
    queue := c.queue ++ [request]
    issued := c.issued ++ [request] }

/-- The method `GPUCache::getAny(indexSet, buffer, readyEvent)`: the `findCommon`
branch (lines 80-83), otherwise the rebinding of `order.back()` to `*indexSet.begin()`
(lines 84-104), then the update of `lastUsed` and `order`.  A failure of
`assert(indexMap.size() == reverseIndexMap.size())` is the result `none`. -/
def getAny (L : Lib) (c : GPUCache) (indexSet : List Int) (buffer readyEvent : Nat) :
    Option GetAnyResult :=
  match L.findCommon c.indexMap indexSet with
  | some (index, cacheIndex) =>
    (touch L c cacheIndex).map fun c' =>
      { index := index, cacheIndex := cacheIndex, hit := true,
        copy := enqueuCopy cacheIndex buffer readyEvent, cache := c' }
  | none =>
    match setBegin indexSet, c.order.getLast? with
    | some index, some cacheIndex =>
      let c1 := rebind c index cacheIndex readyEvent buffer
      if c1.indexMap.length = c1.reverseIndexMap.length then
        (touch L c1 cacheIndex).map fun c' =>
          { index := index, cacheIndex := cacheIndex, hit := false, copy := none, cache := c' }
      else
        none
    | _, _ => none

/-- Modelled from the spec: `DataFile::blockIndexToSampleRange(index, blockSize)` and
`SignalProcessor::getBlockBoundaries(index)` are declared in headers outside the
available sources; block `index` is the inclusive sample range
`(index*blockSize, (index+1)*blockSize - 1)`. -/
def blockIndexToSampleRange (index : Int) (blockSize : Nat) : Int × Int :=
  (index * blockSize, (index + 1) * blockSize - 1)

/-- What one iteration of the loader loop with a non-empty queue does: the request
taken, the arguments `from` and `to` of `file->readData`, and the final `enqueuCopy`. -/
structure LoadResult where
  request : Request
  readFrom : Int
  readTo : Int
  copy : Option CopyCmd
  deriving DecidableEq, Repr

/-- One iteration of the `while` loop of `GPUCache::loaderThreadFunction` (lines 136-197):
`none` when the queue is empty (the thread waits), otherwise the front request is
popped, its sample range is read and the block is copied to the request's buffer. -/
def loaderThreadFunction (c : GPUCache) : Option (LoadResult × GPUCache) :=
  match c.queue with
  | [] => none
  | r :: rest =>
    let fromTo := blockIndexToSampleRange r.index c.blockSize
    some ({ request := r,
            readFrom := fromTo.1 - c.offset + c.delay,
            readTo := fromTo.2 + c.delay,
            copy := enqueuCopy r.cacheIndex r.buffer r.readyEvent },
          { c with queue := rest, served := c.served ++ [r] })

/-- The arguments `from` and `to` of `dataFile->readData` in
`SignalProcessor::dataFileCacheFiller` (lines 241-243). -/
def dataFileCacheFillerRange (blockSize offset : Nat) (delay : Int) (blockIndex : Int) :
    Int × Int :=
  let fromTo := blockIndexToSampleRange blockIndex blockSize
  (fromTo.1 - offset + delay, fromTo.2 + delay)

/-- The states of a cache: those the constructor produces, closed under calls of
`getAny` with a non-empty candidate set and under iterations of the loader thread. -/
inductive Reachable (L : Lib) : GPUCache → Prop
  | create {blockSize offset channelCount capacity : Nat} {delay : Int} {c : GPUCache} :
      GPUCache.create blockSize offset delay channelCount capacity = .ok c → Reachable L c
  | getAny {c : GPUCache} {indexSet : List Int} {buffer readyEvent : Nat} {r : GetAnyResult} :
      Reachable L c → indexSet ≠ [] → getAny L c indexSet buffer readyEvent = some r →
      Reachable L r.cache
  | load {c c' : GPUCache} {l : LoadResult} :
      Reachable L c → loaderThreadFunction c = some (l, c') → Reachable L c'

/-- What holds of every state of a cache: there is at least one slot, `lastUsed` has
one entry per slot, `order` lists every slot once in non-decreasing `lastUsed` order,
the two maps have distinct keys and are inverse to each other, bound slots exist, the
queue holds the requests issued and not yet served, the latest request issued for a
bound slot is the one for the block bound to it, and requests are issued for bound
slots only. -/
structure Inv (c : GPUCache) : Prop where
  capacity_pos : 0 < c.capacity
  lastUsed_length : c.lastUsed.length = c.capacity
  order_perm : c.order.Perm (List.range c.capacity)
  order_sorted : c.order.Pairwise (fun a b => c.lastUsed.getD a 0 ≤ c.lastUsed.getD b 0)
  index_nodup : (c.indexMap.map Prod.fst).Nodup
  reverse_nodup : (c.reverseIndexMap.map Prod.fst).Nodup
  inverse : ∀ k s, (k, s) ∈ c.indexMap ↔ (s, k) ∈ c.reverseIndexMap
  slot_lt : ∀ k s, (k, s) ∈ c.indexMap → s < c.capacity
  history : c.issued = c.served ++ c.queue
  requested : ∀ k s, (k, s) ∈ c.indexMap → ∃ pre r post, c.issued = pre ++ r :: post ∧
    r.index = k ∧ r.cacheIndex = s ∧ ∀ q ∈ post, q.cacheIndex ≠ s
  issued_bound : ∀ r ∈ c.issued, ∃ k, (r.cacheIndex, k) ∈ c.reverseIndexMap

/-! ## Concrete states -/

/-- A cache of two slots as the constructor leaves it. -/
def demo0 : GPUCache :=
  { blockSize := 256, offset := 64, delay := 31, channelCount := 4, capacity := 2,
    lastUsed := [0, 0], order := [0, 1], indexMap := [], reverseIndexMap := [],
    queue := [], issued := [], served := [] }

/-- The cache `demo0` after `getAny({5, 6, 7}, 1, 1)`. -/
def demo1 : GPUCache :=
  { demo0 with
    lastUsed := [1, 0], order := [1, 0], indexMap := [(5, 1)], reverseIndexMap := [(1, 5)],
    queue := [⟨5, 1, 1, 1⟩], issued := [⟨5, 1, 1, 1⟩] }

/-- The cache `demo1` after `getAny({6}, 2, 2)`. -/
def demo2 : GPUCache :=
  { demo0 with
    lastUsed := [0, 1], order := [0, 1], indexMap := [(6, 0), (5, 1)],
    reverseIndexMap := [(0, 6), (1, 5)],
    queue := [⟨5, 1, 1, 1⟩, ⟨6, 0, 2, 2⟩], issued := [⟨5, 1, 1, 1⟩, ⟨6, 0, 2, 2⟩] }

/-- A cache of one slot as the constructor leaves it. -/
def solo0 : GPUCache :=
  { blockSize := 256, offset := 64, delay := 31, channelCount := 4, capacity := 1,
    lastUsed := [0], order := [0], indexMap := [], reverseIndexMap := [],
    queue := [], issued := [], served := [] }

/-- The cache `solo0` after `getAny({1}, 1, 1)`. -/
def solo1 : GPUCache :=
  { solo0 with
    indexMap := [(1, 0)], reverseIndexMap := [(0, 1)],
    queue := [⟨1, 0, 1, 1⟩], issued := [⟨1, 0, 1, 1⟩] }

/-- The cache `solo1` after `getAny({2}, 2, 2)`. -/
def solo2 : GPUCache :=
  { solo0 with
    indexMap := [(2, 0)], reverseIndexMap := [(0, 2)],
    queue := [⟨1, 0, 1, 1⟩, ⟨2, 0, 2, 2⟩], issued := [⟨1, 0, 1, 1⟩, ⟨2, 0, 2, 2⟩] }

/-- The cache `solo2` after `getAny({1}, 3, 3)`. -/
def solo3 : GPUCache :=
  { solo0 with
    indexMap := [(1, 0)], reverseIndexMap := [(0, 1)],
    queue := [⟨1, 0, 1, 1⟩, ⟨2, 0, 2, 2⟩, ⟨1, 0, 3, 3⟩],
    issued := [⟨1, 0, 1, 1⟩, ⟨2, 0, 2, 2⟩, ⟨1, 0, 3, 3⟩] }

/-- The two-slot cache `demo1` (block 5 bound to slot 1, slot 0 never used) with the
`lastUsed` entry of slot 0 at `n`: the state after `n - 1` further calls
`getAny({5}, 7, 7)`, all of them hits. -/
def aged (n : Nat) : GPUCache :=
  { demo1 with lastUsed := [n, 0] }

/-- The cache `solo0` after `getAny({-3}, 1, 1)`. -/
def soloNeg : GPUCache :=
  { solo0 with
    indexMap := [(-3, 0)], reverseIndexMap := [(0, -3)],
    queue := [⟨-3, 0, 1, 1⟩], issued := [⟨-3, 0, 1, 1⟩] }

/-! ## Block sizes and the constructor of `SignalProcessor` -/

/-- Reduction to the range of `unsigned int`. -/
def wrap32 (n : Nat) : Nat := n % UINT_RANGE

/-- Subtraction of `unsigned int` values. -/
def sub32 (a b : Nat) : Nat := wrap32 (a + UINT_RANGE - wrap32 b)

/-- The value of `(blockSize + offset)*file->getChannelCount()` in `unsigned int`
arithmetic (line 131 of gpucache.cpp, line 20 of signalprocessor.cpp). -/
def hostBlockLength (blockSize offset channelCount : Nat) : Nat :=
  wrap32 (wrap32 (blockSize + offset) * channelCount)

/-- The length of `tmpBuffer` in `loaderThreadFunction` (lines 131-133):
`int size = (blockSize + offset)*file->getChannelCount(); vector<float> tmpBuffer(size)`.
A product that does not fit `int` gives a negative `size`, for which the constructor of
the vector throws: the result is `none`. -/
def tmpBufferLength (c : GPUCache) : Option Nat :=
  let size := hostBlockLength c.blockSize c.offset c.channelCount
  if size < 2 ^ 31 then some size else none

/-- What `SignalProcessor` and the loader use of a `DataFile`: the sampling frequency
(as the integer it is converted to), the channel count, the number of samples recorded
and the sample values by channel and sample index (integers stand for the floating
point values, which are only copied). -/
structure DataFile where
  samplingFrequency : Nat
  channelCount : Nat
  samplesRecorded : Nat
  data : Nat → Nat → Int

/-- The entries of `PROGRAM_OPTIONS` the constructor reads as `unsigned int`. -/
structure ProgramOptions where
  blockSize : Nat
  processorQueues : Nat
  deriving DecidableEq, Repr

/-- Modelled from the spec: the members of `SignalProcessor` are declared in
signalprocessor.h, outside the available sources; the integer members are taken to be
`unsigned int`, like `memory` and the option `blockSize`.  A buffer pool is the list of
the sizes of its buffers: `dataFileCache` in floats, `gpuCache` and
`processorCacheCLBuffers` in bytes; the other pools of the processing tier are counted. -/
structure SignalProcessor where
  M : Nat
  offset : Nat
  delay : Nat
  padding : Nat
  blockSize : Nat
  dataFileGpuCacheBlockSize : Nat
  processorCacheBlockSizeCL : Nat
  dataFileCache : List Nat
  gpuCache : List Nat
  processorCacheQueues : Nat
  processorCacheCLBuffers : List Nat
  processorCacheGLBuffers : Nat
  processorCacheVertexArrays : Nat
  deriving DecidableEq, Repr

/-- The message of the exception of line 27. -/
def sizeError : String :=
  "SignalProcessor requires both the filter length and block length to be multiples of 4"

/-- The constructor `SignalProcessor::SignalProcessor(file, memory, bufferRatio)`
(lines 11-110).  The result is `some (.ok object)` when the constructor returns,
`some (.error message)` when it leaves with a `runtime_error` that the caller can catch,
and `none` when it does neither: for undefined behaviour (the division by
`dataFileGpuCacheBlockSize == 0`) and when the process is terminated.  The latter is the
case of `gpuCacheBlockCount == 0`: the `runtime_error` of line 61 is thrown after
`dataFileCacheFillerThread` was started in line 54, so the unwinding destroys a joinable
`std::thread`, which calls `std::terminate`.  The constructors of `OpenCLContext` and
`PriorityCacheLogic` and the OpenCL and OpenGL calls are outside the available sources
and are taken to succeed. -/
def SignalProcessor.construct (file : DataFile) (memory : Nat)
    (options : ProgramOptions) : Option (Except String SignalProcessor) :=
  let M := wrap32 file.samplingFrequency
  let offset := M
  let delay := sub32 (M / 2) 1
  let padding := 4
  let blockSize := sub32 options.blockSize offset
  let dataFileGpuCacheBlockSize := hostBlockLength blockSize offset file.channelCount
  let processorCacheBlockSizeCL :=
    wrap32 (wrap32 (wrap32 (blockSize + offset) + padding) * file.channelCount)
  if M % 4 ≠ 0 ∨ wrap32 (blockSize + offset) % 4 ≠ 0 then
    some (.error sizeError)
  else if dataFileGpuCacheBlockSize = 0 then
    none
  else
    let dataFileCacheBlockCount := wrap32 (2 * memory) / dataFileGpuCacheBlockSize / 4
    if dataFileCacheBlockCount = 0 then
      some (.error "Not enough available memory for the dataFileCache")
    else
      let gpuCacheBlockCount := wrap32 memory / dataFileGpuCacheBlockSize / 4
      if gpuCacheBlockCount = 0 then
        none
      else
        let processorCacheSize := wrap32 options.processorQueues
        some (.ok
          { M := M, offset := offset, delay := delay, padding := padding,
            blockSize := blockSize,
            dataFileGpuCacheBlockSize := dataFileGpuCacheBlockSize,
            processorCacheBlockSizeCL := processorCacheBlockSizeCL,
            dataFileCache := List.replicate dataFileCacheBlockCount dataFileGpuCacheBlockSize,
            gpuCache := List.replicate gpuCacheBlockCount (dataFileGpuCacheBlockSize * 4),
            processorCacheQueues := processorCacheSize,
            processorCacheCLBuffers :=
              List.replicate processorCacheSize (processorCacheBlockSizeCL * 4),
            processorCacheGLBuffers := processorCacheSize,
            processorCacheVertexArrays := processorCacheSize })

/-- The value of sample `sample` of channel `channel`: the recorded value inside the
recording, 0 outside. -/
def sampleAt (file : DataFile) (channel : Nat) (sample : Int) : Int :=
  if 0 ≤ sample ∧ sample < file.samplesRecorded then file.data channel sample.toNat else 0

/-- Modelled from the spec: `DataFile::readData(data, firstSample, lastSample)` is
implemented outside the available sources (only its callers and the test
`outOfBounds` are present).  Following the spec, it fills a flat per-channel buffer,
zero-padding out-of-range samples: the result holds one row of
`lastSample - firstSample + 1` values for each channel, row after row, as the test
indexes it.  A range with `lastSample < firstSample` is rejected with
`invalid_argument`, as the test `exceptions` expects. -/
def readData (file : DataFile) (firstSample lastSample : Int) : Except String (List Int) :=
  if lastSample < firstSample then
    .error "invalid_argument"
  else
    let rowLen := (lastSample - firstSample + 1).toNat
    .ok ((List.range (rowLen * file.channelCount)).map fun p =>
      sampleAt file (p / rowLen) (firstSample + (p % rowLen : Nat)))

/-! ## The constructor of `GPUCache` and the strides of its transfers -/

/-- The value of `bytesPerBlock` (line 16):
`(blockSize + offset + 4)*file->getChannelCount()*sizeof(float)`, stored in an
`unsigned int`. -/
def bytesPerBlock (blockSize offset channelCount : Nat) : Nat :=
  wrap32 (wrap32 (wrap32 (wrap32 (blockSize + offset) + 4) * channelCount) * 4)

/-- Modelled from the spec: the member `capacity` is declared in gpucache.h, outside
the available sources; it is taken to be `unsigned int`, the type of the counter of the
loop of lines 33-40.  This is the constructor `GPUCache::GPUCache` (lines 11-49):
`capacity = availableMemory/bytesPerBlock` is a division of 64-bit signed integers
whose quotient is stored in `capacity`; the result is `none` for the division by
`bytesPerBlock == 0`.  The OpenCL calls are taken to succeed. -/
def GPUCache.construct (blockSize offset : Nat) (delay : Int) (availableMemory : Int)
    (file : DataFile) : Option (Except String GPUCache) :=
  let bytes := bytesPerBlock blockSize offset file.channelCount
  if bytes = 0 then
    none
  else
    let capacity := (Int.tdiv availableMemory bytes % (UINT_RANGE : Int)).toNat
    some (GPUCache.create blockSize offset delay file.channelCount capacity)

/-- The arguments `region[0]`, `region[1]` and the two row pitches of a call of
`clEnqueueWriteBufferRect` or `clEnqueueCopyBufferRect`; all origins and slice pitches
of the calls are 0.  `cachePitch` is the row pitch in the buffer of the cache
(`buffer_row_pitch` of the write into `tmpMemBuffer`, `src_row_pitch` of the copy out
of a slot); `otherPitch` is the row pitch on the other side (`host_row_pitch`,
`dst_row_pitch`), where 0 stands for rows without gaps. -/
structure RectTransfer where
  rowBytes : Nat
  rows : Nat
  cachePitch : Nat
  otherPitch : Nat
  deriving DecidableEq, Repr

/-- The value of `size_t rowLen = (blockSize + offset)*sizeof(float)` (lines 173, 217);
the product of an `unsigned int` and 4 does not overflow a 64-bit `size_t`. -/
def rowLen (c : GPUCache) : Nat :=
  wrap32 (c.blockSize + c.offset) * 4

/-- The transfer of lines 172-176 of `loaderThreadFunction`. -/
def loaderWriteRect (c : GPUCache) : RectTransfer :=
  { rowBytes := rowLen c, rows := c.channelCount, cachePitch := rowLen c + 4 * 4,
    otherPitch := 0 }

/-- The transfer of lines 216-220 of `enqueuCopy`. -/
def enqueuCopyRect (c : GPUCache) : RectTransfer :=
  { rowBytes := rowLen c, rows := c.channelCount, cachePitch := rowLen c + 4 * 4,
    otherPitch := 0 }

/-! ## The destructor and the worker loops of `SignalProcessor` -/

/-- The three tiers; their mutexes are `dataFileCacheMutex` (host), `gpuCacheMutex`
(device) and `processorCacheMutex` (processing). -/
inductive Tier
  | host
  | device
  | processing
  deriving DecidableEq, Repr

/-- The steps of the destructor, in the granularity of its statements. -/
inductive TeardownStep
  | stopThreads
  | notifyAll
  | joinThreads
  | deleteContext
  | deleteLogic (tier : Tier)
  | releaseQueue (tier : Tier)
  | releaseBuffer (tier : Tier)
  | deleteGLBuffers
  | deleteVertexArrays
  deriving DecidableEq, Repr

/-- The destructor `SignalProcessor::~SignalProcessor` (lines 112-165) as the sequence
of its steps: the threads are stopped and joined (lines 115-126), the context and the
three logic objects are deleted (131-135), the command queues are released (137-144),
then the buffers of `dataFileCache` (146-149), of `gpuCache` (151-155) and of
`processorCacheCLBuffers` (157-161), and the OpenGL buffers and vertex arrays
(163-164). -/
def SignalProcessor.destroy (sp : SignalProcessor) : List TeardownStep :=
  [.stopThreads, .notifyAll, .notifyAll, .joinThreads,
    .deleteContext, .deleteLogic .host, .deleteLogic .device, .deleteLogic .processing,
    .releaseQueue .device]
  ++ List.replicate sp.processorCacheQueues (.releaseQueue .processing)
  ++ sp.dataFileCache.map (fun _ => .releaseBuffer .host)
  ++ sp.gpuCache.map (fun _ => .releaseBuffer .device)
  ++ sp.processorCacheCLBuffers.map (fun _ => .releaseBuffer .processing)
  ++ [.deleteGLBuffers, .deleteVertexArrays]

/-- The tier whose buffers a step of the destructor releases. -/
def releasedTier : TeardownStep → Option Tier
  | .releaseBuffer tier => some tier
  | .deleteGLBuffers => some .processing
  | _ => none

/-- The operations of the worker loops other than locking. -/
inductive Op
  | fill (tier : Tier)
  | read (tier : Tier)
  | readAny
  | release (tier : Tier)
  | notify
  | getBlockBoundaries
  | readData
  | prepareBlocks
  | createUserEvent
  | setEventCallback
  | enqueueWriteBuffer
  | enqueueBarrier
  | releaseEvent
  deriving DecidableEq, Repr

/-- A step of a thread: locking or unlocking the mutex of a tier, waiting on a
condition variable with the mutex of a tier (the mutex is released while the thread
waits and held again when `wait` returns), or another operation. -/
inductive Step
  | lock (mutex : Tier)
  | unlock (mutex : Tier)
  | wait (mutex : Tier)
  | op (o : Op)
  deriving DecidableEq, Repr

/-- One iteration of the loop of `dataFileCacheFiller` (lines 234-252); `notEmpty` is
the result of `fill`. -/
def dataFileCacheFillerIteration (notEmpty : Bool) : List Step :=
  .op (.fill .host) ::
    (if notEmpty then
      [.op .getBlockBoundaries, .op .readData, .op (.release .host), .op .notify]
    else
      [.wait .host])

/-- The worker `SignalProcessor::dataFileCacheFiller` (lines 228-254).  The list gives
the result of `fill` in the successive iterations of the loop, up to the iteration
after which `stop` is set; the `unique_lock` of line 230 is released when the function
returns. -/
def dataFileCacheFiller (fills : List Bool) : List Step :=
  [.lock .host] ++ fills.flatMap dataFileCacheFillerIteration ++ [.unlock .host]

/-- One iteration of the loop of `gpuCacheFiller` (lines 262-300): `none` when `fill`
returns false, `some n` when it returns true and `read` of the host tier fails `n`
times before it succeeds. -/
def gpuCacheFillerIteration : Option Nat → List Step
  | none => [.op (.fill .device), .wait .device]
  | some n =>
    [.op (.fill .device), .unlock .device, .lock .host]
    ++ (List.replicate n [.op (.read .host), .wait .host]).flatten
    ++ [.op (.read .host), .unlock .host, .lock .device,
        .op .createUserEvent, .op .setEventCallback, .op .enqueueWriteBuffer]

/-- The worker `SignalProcessor::gpuCacheFiller` (lines 256-302), for the given
outcomes of its iterations. -/
def gpuCacheFiller (iterations : List (Option Nat)) : List Step :=
  [.lock .device] ++ iterations.flatMap gpuCacheFillerIteration ++ [.unlock .device]

/-- One iteration of the fill loop of `getAnyBlock` (lines 179-208), in which `read` of
the device tier fails `n` times before it succeeds. -/
def getAnyBlockFill (n : Nat) : List Step :=
  [.op (.fill .processing), .unlock .processing, .lock .device]
  ++ (List.replicate n [.op (.read .device), .wait .device]).flatten
  ++ [.op (.read .device), .unlock .device, .lock .processing,
      .op .createUserEvent, .op .setEventCallback, .op .enqueueBarrier]

/-- The method `SignalProcessor::getAnyBlock` (lines 167-224).  The list gives, for each
iteration of the fill loop, how often `read` of the device tier fails before it
succeeds; `waits` is the number of failing `readAny` calls of the get loop.
`prepareBlocks` is outside the available sources and appears as one operation. -/
def getAnyBlock (fills : List Nat) (waits : Nat) : List Step :=
  [.lock .processing, .op .prepareBlocks]
  ++ fills.flatMap getAnyBlockFill
  ++ [.op (.fill .processing)]
  ++ (List.replicate waits [.op .readAny, .wait .processing]).flatten
  ++ [.op .readAny, .op .getBlockBoundaries, .unlock .processing]

/-- The first four components of a `cacheCallbackData` tuple: the two mutexes and the
tiers of the two logic objects. -/
structure CacheCallbackData where
  mutex0 : Tier
  mutex1 : Tier
  logic2 : Tier
  logic3 : Tier
  deriving DecidableEq, Repr

/-- The tuple built in `gpuCacheFiller` (line 289). -/
def gpuCacheFillerData : CacheCallbackData :=
  ⟨.device, .host, .host, .device⟩

/-- The tuple built in `getAnyBlock` (line 202). -/
def getAnyBlockData : CacheCallbackData :=
  ⟨.processing, .device, .processing, .device⟩

/-- The callback `SignalProcessor::cacheCallback` (lines 304-323): the two
`lock_guard`s of lines 310-311 are released in reverse order on return. -/
def cacheCallback (data : CacheCallbackData) : List Step :=
  [.lock data.mutex0, .lock data.mutex1,
    .op (.release data.logic2), .op (.release data.logic3), .op .notify, .op .releaseEvent,
    .unlock data.mutex1, .unlock data.mutex0]

/-- The mutexes held after a step, given those held before it. -/
def heldAfter (held : List Tier) : Step → List Tier
  | .lock m => m :: held
  | .unlock m => held.erase m
  | .wait _ => held
  | .op _ => held

/-- The pairs `(outer, inner)` of a run: the mutex `inner` is acquired (by `lock`, or
again at the end of a `wait`) while `outer` is held. -/
def nestedLocks : List Tier → List Step → List (Tier × Tier)
  | _, [] => []
  | held, .lock m :: rest => held.map (fun h => (h, m)) ++ nestedLocks (m :: held) rest
  | held, .unlock m :: rest => nestedLocks (held.erase m) rest
  | held, .wait m :: rest => (held.erase m).map (fun h => (h, m)) ++ nestedLocks held rest
  | held, .op _ :: rest => nestedLocks held rest

/-- The mutexes held at each call of `readData` of a run. -/
def heldAtReadData : List Tier → List Step → List (List Tier)
  | _, [] => []
  | held, .op .readData :: rest => held :: heldAtReadData held rest
  | held, step :: rest => heldAtReadData (heldAfter held step) rest

/-- The position of a tier in the order in which `cacheCallback` locks. -/
def lockRank : Tier → Nat
  | .processing => 0
  | .device => 1
  | .host => 2

/-! ## View synchronisation (signalfilebrowserwindow.cpp, lines 1618-1683)

The members of `SignalFileBrowserWindow` that `receiveSyncMessage` and `sendSyncMessage`
use.  The positions are `int` values; the quantities that the code computes in `double`
arithmetic from the file and from `OpenDataFile::infoTable` (the position carried by a
received message, the current position, the second argument of `max<int>`) are
arguments of the model, already converted to `int`.  Signed overflow is undefined
behaviour and is the result `none`. -/

/-- The least value of `int`. -/
def INT_MIN : Int := -2147483648

/-- The greatest value of `int`. -/
def INT_MAX : Int := 2147483647

/-- The constant `lastPositionReceivedDefault` (signalfilebrowserwindow.h, line 78). -/
def lastPositionReceivedDefault : Int := -1000000000

/-- The state of the window as far as synchronisation goes: `fileOpen` is
`fileResources->file` converted to `bool`, `synchronize` is `synchronize->isChecked()`
(the value of `shouldSynchronizeView()`), and `sent` lists the positions whose message
was handed to `syncServer->sendMessage` and `syncClient->sendMessage`, oldest first. -/
structure SyncWindow where
  fileOpen : Bool
  synchronize : Bool
  lastPositionReceived : Int
  sent : List Int
  deriving DecidableEq, Repr

/-- The method `SignalFileBrowserWindow::receiveSyncMessage` (lines 1618-1638) as far as
the member `lastPositionReceived` goes; `position` is the value of line 1626.  The call
`infoTable.setPosition` of line 1636 is outside the available sources; the invocations
of the slot `sendSyncMessage` that its signal causes are calls of `sendSyncMessage`. -/
def receiveSyncMessage (w : SyncWindow) (position : Int) : SyncWindow :=
  if w.fileOpen && w.synchronize then
    { w with lastPositionReceived := position }
  else
    w

/-- The method `SignalFileBrowserWindow::sendSyncMessage` (lines 1640-1683); `position` is
the value of line 1642 and `fraction` is the value of
`getSamplingFrequency() / 50 / ratio` converted to `int` (line 1650). -/
def sendSyncMessage (w : SyncWindow) (position fraction : Int) : Option SyncWindow :=
  if w.fileOpen && w.synchronize then
    let epsilon := max 3 fraction
    if w.lastPositionReceived - epsilon < INT_MIN then
      none
    else if position < w.lastPositionReceived - epsilon then
      some { w with sent := w.sent ++ [position],
                    lastPositionReceived := lastPositionReceivedDefault }
    else if INT_MAX < w.lastPositionReceived + epsilon then
      none
    else if position > w.lastPositionReceived + epsilon then
      some { w with sent := w.sent ++ [position],
                    lastPositionReceived := lastPositionReceivedDefault }
    else
      some { w with lastPositionReceived := lastPositionReceivedDefault }
  else
    some w

/-- A sequence of calls of `sendSyncMessage`, each with its `position` and `fraction`. -/
def sendSyncMessages : SyncWindow → List (Int × Int) → Option SyncWindow
  | w, [] => some w
  | w, (position, fraction) :: calls =>
    (sendSyncMessage w position fraction).bind (fun w1 => sendSyncMessages w1 calls)

/-- A window with a file open and synchronisation switched on that has sent nothing. -/
def syncIdle : SyncWindow :=
  { fileOpen := true, synchronize := true,
    lastPositionReceived := lastPositionReceivedDefault, sent := [] }

/-! ## Bipolar montages (bipolarmontage.cpp)

A `std::string` is the list of its characters; a track table is seen through the labels
of its rows, in row order.  The result `none` stands for undefined behaviour (an index
outside a vector, a failed `assert`, signed overflow), `Except.error` for a thrown
exception. -/

/-- The function `isdigit` in the "C" locale: true exactly for the characters `0` to `9`.
For a `char` of negative value, where the standard leaves `isdigit` undefined, the model
takes the result of the common implementations, which is false. -/
def isdigit (c : Char) : Bool :=
  decide (48 ≤ c.toNat ∧ c.toNat ≤ 57)

/-- The lambda `digit` of line 20, `[](char c) { return isdigit(c) == 0; }`: it is true
for the characters that are not digits. -/
def digit (c : Char) : Bool :=
  !isdigit c

/-- The decimal value of a run of digits. -/
def decimalValue (s : List Char) : Nat :=
  s.foldl (fun v c => 10 * v + (c.toNat - 48)) 0

/-- The function `std::stoi` on a non-empty run of decimal digits: the decimal value, or
the exception `std::out_of_range` when the value does not fit in `int`. -/
def stoi (s : List Char) : Except String Int :=
  if (decimalValue s : Int) ≤ INT_MAX then .ok (decimalValue s) else .error "stoi"

/-- The body of the loop of `parseLabels` (lines 18-34) for one label: the pair that is
pushed onto `prefixes` and `indexes`.  The string `prefix` of line 23 is `stem`; the
iterators `prefixEnd` and `indexEnd` are given by the rest of the label that starts at
them. -/
def parseLabel (label : List Char) : Except String (List Char × Int) :=
  let prefixEnd := label.dropWhile digit
  let stem := label.takeWhile digit
  let indexEnd := prefixEnd.dropWhile (fun c => !digit c)
  let index := prefixEnd.takeWhile (fun c => !digit c)
  if indexEnd ≠ [] ∨ stem = [] ∨ index = [] then
    .ok ([], -1)
  else
    (stoi index).map (fun value => (stem, value))

/-- The function `parseLabels` (lines 13-36); `source` lists the labels of the rows of the
source table, `prefixes` and `indexes` are the vectors on entry. -/
def parseLabels : List (List Char) → List (List Char) → List Int →
    Except String (List (List Char) × List Int)
  | [], prefixes, indexes => .ok (prefixes, indexes)
  | label :: source, prefixes, indexes =>
    match parseLabel label with
    | .error e => .error e
    | .ok (stem, value) => parseLabels source (prefixes ++ [stem]) (indexes ++ [value])

/-- The body of the loop of `BipolarMontage::matchPair` (lines 84-91) for position `j`,
with `stem = prefixes[i]`, `index = indexes[i]` and the current value of `minMatch`. -/
def matchStep (stem : List Char) (index : Int) (prefixes : List (List Char))
    (indexes : List Int) (minMatch : Int) (j : Nat) : Option Int :=
  match prefixes[j]? with
  | none => none
  | some pj =>
    if stem ≠ pj then
      some minMatch
    else
      match indexes[j]? with
      | none => none
      | some ij =>
        if index < ij then
          if minMatch = -1 then
            some (j : Int)
          else if minMatch < 0 then
            none
          else
            match indexes[minMatch.toNat]? with
            | none => none
            | some im => if ij < im then some (j : Int) else some minMatch
        else
          some minMatch

/-- The method `BipolarMontage::matchPair` (lines 79-94). -/
def BipolarMontage.matchPair (i : Int) (prefixes : List (List Char)) (indexes : List Int) :
    Option Int :=
  if i < 0 then
    none
  else
    match prefixes[i.toNat]?, indexes[i.toNat]? with
    | some stem, some index =>
      (List.range prefixes.length).foldl
        (fun minMatch j => minMatch.bind (fun m => matchStep stem index prefixes indexes m j))
        (some (-1))
    | _, _ => none

/-- The method `BipolarNeighboursMontage::matchPair` (lines 96-104).  The sum
`indexes[i] + 1` is evaluated only when `0 <= match`. -/
def BipolarNeighboursMontage.matchPair (i : Int) (prefixes : List (List Char))
    (indexes : List Int) : Option Int :=
  match BipolarMontage.matchPair i prefixes indexes with
  | none => none
  | some m =>
    if 0 ≤ m then
      match indexes[i.toNat]?, indexes[m.toNat]? with
      | some index, some im =>
        if INT_MAX < index + 1 then none
        else if index + 1 ≠ im then some (-1)
        else some m
      | _, _ => none
    else
      some m

/-- The function `std::to_string(int)`. -/
def to_string (value : Int) : List Char :=
  (toString value).toList

/-- One entry of the vectors `labels` and `codes` of `fillTrackTable`, with the row `i`,
the value of `match` and the strings `lA` and `lB` it was made from. -/
structure DerivedTrack where
  i : Nat
  matched : Int
  label : List Char
  lA : List Char
  lB : List Char
  code : List Char
  deriving DecidableEq, Repr

/-- The string pushed onto `codes` in line 63: `out = in("lA") - in("lB");`. -/
def trackCode (lA lB : List Char) : List Char :=
  "out = in(".toList ++ [Char.ofNat 34] ++ lA ++ [Char.ofNat 34] ++ ") - in(".toList ++
    [Char.ofNat 34] ++ lB ++ [Char.ofNat 34] ++ ");".toList

/-- The loop of lines 54-65 of `fillTrackTable` over the positions `rows`. -/
def fillLoop (matchPair : Int → List (List Char) → List Int → Option Int)
    (prefixes : List (List Char)) (indexes : List Int) : List Nat → Option (List DerivedTrack)
  | [] => some []
  | i :: rows =>
    match matchPair (i : Int) prefixes indexes with
    | none => none
    | some m =>
      if 0 ≤ m then
        match prefixes[i]?, indexes[i]?, indexes[m.toNat]? with
        | some stem, some index, some im =>
          (fillLoop matchPair prefixes indexes rows).map (fun tracks =>
            { i := i, matched := m,
              label := stem ++ to_string index ++ ['-'] ++ to_string im,
              lA := stem ++ to_string index,
              lB := stem ++ to_string im,
              code := trackCode (stem ++ to_string index) (stem ++ to_string im) } :: tracks)
        | _, _, _ => none
      else
        fillLoop matchPair prefixes indexes rows

/-- The method `BipolarMontage::fillTrackTable` (lines 40-77) up to the vectors `labels`
and `codes` (line 65); `matchPair` is the virtual method of the montage.  The rows that
the rest of the method inserts into the output table carry these labels and codes. -/
def fillTrackTable (matchPair : Int → List (List Char) → List Int → Option Int)
    (source : List (List Char)) : Option (Except String (List DerivedTrack)) :=
  match parseLabels source [] [] with
  | .error e => some (.error e)
  | .ok (prefixes, indexes) =>
    if prefixes.length ≠ indexes.length ∨ prefixes.length ≠ source.length then
      none
    else
      (fillLoop matchPair prefixes indexes (List.range prefixes.length)).map .ok

/-- The state of the loop of `BipolarMontage::matchPair` for row `i` after the positions
below `t`: `m` is -1 and no position below `t` has the prefix of row `i` and a greater
index, or `m` is the first position below `t` that carries the least such index. -/
def MatchInv (prefixes : List (List Char)) (indexes : List Int) (i t : Nat) (m : Int) : Prop :=
  (m = -1 ∧ ∀ j, j < t → prefixes.getD j [] = prefixes.getD i [] →
      ¬ indexes.getD i 0 < indexes.getD j 0) ∨
  (∃ k : Nat, m = k ∧ k < t ∧ prefixes.getD k [] = prefixes.getD i [] ∧
      indexes.getD i 0 < indexes.getD k 0 ∧
      ∀ j, j < t → prefixes.getD j [] = prefixes.getD i [] →
        indexes.getD i 0 < indexes.getD j 0 →
        indexes.getD k 0 ≤ indexes.getD j 0 ∧ (j < k → indexes.getD k 0 < indexes.getD j 0))

/-- A second implementation of `std::sort`, which is not stable: insertion sort of the
reversed input, so that elements the comparison does not tell apart come out in the
opposite order. -/
def reverseSortBy (lt : Nat → Nat → Bool) (l : List Nat) : List Nat :=
  insertionSortBy lt l.reverse

/-- The instance of the parameters with the second implementation of `std::sort`. -/
def tieLib : Lib := ⟨findCommonFirst, reverseSortBy⟩

/-- A data file of 4 channels sampled at 64 Hz with 1000 samples per channel; the value
of sample `i` of channel `j` is `1000*j + i + 1`. -/
def demoFile : DataFile :=
  { samplingFrequency := 64, channelCount := 4, samplesRecorded := 1000,
    data := fun j i => 1000 * j + i + 1 }

/-- A one-slot cache whose `blockSize` is the `unsigned int` value of `1024 - 2048`, as
the constructor leaves it. -/
def wide0 : GPUCache :=
  { solo0 with blockSize := 4294966272, offset := 2048, delay := 1023 }

/-- The cache `wide0` after `getAny({0}, 1, 1)`. -/
def wide1 : GPUCache :=
  { wide0 with
    indexMap := [(0, 0)], reverseIndexMap := [(0, 0)],
    queue := [⟨0, 0, 1, 1⟩], issued := [⟨0, 0, 1, 1⟩] }

/-- The cache `wide1` after one iteration of the loader. -/
def wide2 : GPUCache :=
  { wide1 with queue := [], served := [⟨0, 0, 1, 1⟩] }

/-- A data file of 4 channels sampled at 2048 Hz. -/
def fastFile : DataFile :=
  { demoFile with samplingFrequency := 2048 }

/-- A data file of 1024 channels. -/
def manyChannels : DataFile :=
  { demoFile with channelCount := 1024 }

/-- A one-slot cache with blocks of `2^20` samples for each of 1024 channels. -/
def big0 : GPUCache :=
  { solo0 with blockSize := 1048512, offset := 64, delay := 31, channelCount := 1024 }

/-- A data file of 128 channels sampled at 1024 Hz. -/
def wideFile : DataFile :=
  { demoFile with samplingFrequency := 1024, channelCount := 128 }

/-- The prefixes of the labels `Fp1`, `A1`, `12`, `A3`, `Fp3`, `A3`, `Fp2`. -/
def demoPrefixes : List (List Char) :=
  [['F', 'p'], ['A'], [], ['A'], ['F', 'p'], ['A'], ['F', 'p']]

/-- The indexes of the labels `Fp1`, `A1`, `12`, `A3`, `Fp3`, `A3`, `Fp2`. -/
def demoIndexes : List Int :=
  [1, 1, -1, 3, 3, 3, 2]

/-- The labels `Fp1`, `A1`, `12`, `A3`, `Fp3`, `A3`, `Fp2` of a source table. -/
def demoLabels : List (List Char) :=
  ["Fp1".toList, "A1".toList, "12".toList, "A3".toList, "Fp3".toList, "A3".toList,
    "Fp2".toList]

/-- The labels `A01`, `A02` of a source table. -/
def paddedLabels : List (List Char) :=
  ["A01".toList, "A02".toList]

/-- A cache of three slots as the constructor leaves it. -/
def tri0 : GPUCache :=
  { blockSize := 256, offset := 64, delay := 31, channelCount := 4, capacity := 3,
    lastUsed := [0, 0, 0], order := [0, 1, 2], indexMap := [], reverseIndexMap := [],
    queue := [], issued := [], served := [] }

/-- The cache `tri0` after `getAny({8}, 1, 1)`: block 8 is bound to slot 2. -/
def tri1 : GPUCache :=
  { tri0 with
    lastUsed := [1, 1, 0], order := [2, 0, 1], indexMap := [(8, 2)],
    reverseIndexMap := [(2, 8)], queue := [⟨8, 2, 1, 1⟩], issued := [⟨8, 2, 1, 1⟩] }

/-- The cache `tri1` after `getAny({9}, 2, 2)` and `n - 1` further calls
`getAny({9}, 3, 3)`, all of them hits: block 9 is bound to slot 1, block 8 to slot 2, and
slot 0 has never been bound. -/
def triAged (n : Nat) : GPUCache :=
  { tri0 with
    lastUsed := [n + 1, 0, n], order := [1, 2, 0], indexMap := [(9, 1), (8, 2)],
    reverseIndexMap := [(1, 9), (2, 8)],
    queue := [⟨8, 2, 1, 1⟩, ⟨9, 1, 2, 2⟩], issued := [⟨8, 2, 1, 1⟩, ⟨9, 1, 2, 2⟩] }

/-- The cache `triAged 4294967294` after one more `getAny({9}, 3, 3)`: the `lastUsed`
entry of slot 0 has wrapped to 0. -/
def triWrapped : GPUCache :=
  { triAged 0 with lastUsed := [0, 0, 4294967295], order := [1, 0, 2] }

/-- The cache `triWrapped` after `getAny({10}, 4, 4)`. -/
def triEvicted : GPUCache :=
  { tri0 with
    lastUsed := [1, 1, 0], order := [2, 1, 0], indexMap := [(10, 2), (9, 1)],
    reverseIndexMap := [(2, 10), (1, 9)],
    queue := [⟨8, 2, 1, 1⟩, ⟨9, 1, 2, 2⟩, ⟨10, 2, 4, 4⟩],
    issued := [⟨8, 2, 1, 1⟩, ⟨9, 1, 2, 2⟩, ⟨10, 2, 4, 4⟩] }

/-- The cache `aged 4294967295` after `getAny({5}, 7, 7)` with the sort of `tieLib`: both
`lastUsed` entries are 0 and slot 1, which holds block 5, is at the back of `order`. -/
def agedTie : GPUCache :=
  { demo1 with lastUsed := [0, 0], order := [0, 1] }

/-- The cache `agedTie` after `getAny({6}, 8, 8)`. -/
def agedTieEvicted : GPUCache :=
  { demo0 with
    lastUsed := [1, 0], order := [1, 0], indexMap := [(6, 1)], reverseIndexMap := [(1, 6)],
    queue := [⟨5, 1, 1, 1⟩, ⟨6, 1, 8, 8⟩], issued := [⟨5, 1, 1, 1⟩, ⟨6, 1, 8, 8⟩] }

/-- The states of a cache together with the number of calls of `getAny` made since the
constructor. -/
inductive ReachableIn (L : Lib) : Nat → GPUCache → Prop
  | create {blockSize offset channelCount capacity : Nat} {delay : Int} {c : GPUCache} :
      GPUCache.create blockSize offset delay channelCount capacity = .ok c →
      ReachableIn L 0 c
  | getAny {n : Nat} {c : GPUCache} {indexSet : List Int} {buffer readyEvent : Nat}
      {r : GetAnyResult} :
      ReachableIn L n c → indexSet ≠ [] → getAny L c indexSet buffer readyEvent = some r →
      ReachableIn L (n + 1) r.cache
  | load {n : Nat} {c c' : GPUCache} {l : LoadResult} :
      ReachableIn L n c → loaderThreadFunction c = some (l, c') → ReachableIn L n c'

/-- The states of a cache together with the slots that the calls of `getAny` made since
the constructor have returned, the latest call first. -/
inductive ReachableBy (L : Lib) : List Nat → GPUCache → Prop
  | create {blockSize offset channelCount capacity : Nat} {delay : Int} {c : GPUCache} :
      GPUCache.create blockSize offset delay channelCount capacity = .ok c →
      ReachableBy L [] c
  | getAny {t : List Nat} {c : GPUCache} {indexSet : List Int} {buffer readyEvent : Nat}
      {r : GetAnyResult} :
      ReachableBy L t c → indexSet ≠ [] → getAny L c indexSet buffer readyEvent = some r →
      ReachableBy L (r.cacheIndex :: t) r.cache
  | load {t : List Nat} {c c' : GPUCache} {l : LoadResult} :
      ReachableBy L t c → loaderThreadFunction c = some (l, c') → ReachableBy L t c'

/-- The number of calls of `getAny` made after the latest call that returned slot `s`,
for the calls `t` (the latest first); the number of all calls when no call returned `s`. -/
def callsSince (t : List Nat) (s : Nat) : Nat :=
  t.indexOf s

/-- The cache `tri1` after `getAny({9}, 2, 2)`, `getAny({10}, 3, 3)` and `n` further calls
`getAny({10}, 4, 4)`, all of them hits: block 8 is bound to slot 2, block 9 to slot 1 and
block 10 to slot 0, used in this order. -/
def lruAged (n : Nat) : GPUCache :=
  { tri0 with
    lastUsed := [0, n + 1, n + 2], order := [0, 1, 2],
    indexMap := [(10, 0), (9, 1), (8, 2)], reverseIndexMap := [(0, 10), (1, 9), (2, 8)],
    queue := [⟨8, 2, 1, 1⟩, ⟨9, 1, 2, 2⟩, ⟨10, 0, 3, 3⟩],
    issued := [⟨8, 2, 1, 1⟩, ⟨9, 1, 2, 2⟩, ⟨10, 0, 3, 3⟩] }

/-- The cache `lruAged 4294967293` after one more `getAny({10}, 4, 4)`: the `lastUsed`
entry of slot 2, which holds the block used first, has wrapped to 0. -/
def lruWrapped : GPUCache :=
  { lruAged 0 with lastUsed := [0, 4294967295, 0], order := [0, 2, 1] }

/-- The cache `lruWrapped` after `getAny({11}, 5, 5)`. -/
def lruEvicted : GPUCache :=
  { tri0 with
    lastUsed := [1, 0, 1], order := [1, 0, 2],
    indexMap := [(11, 1), (10, 0), (8, 2)], reverseIndexMap := [(1, 11), (0, 10), (2, 8)],
    queue := [⟨8, 2, 1, 1⟩, ⟨9, 1, 2, 2⟩, ⟨10, 0, 3, 3⟩, ⟨11, 1, 5, 5⟩],
    issued := [⟨8, 2, 1, 1⟩, ⟨9, 1, 2, 2⟩, ⟨10, 0, 3, 3⟩, ⟨11, 1, 5, 5⟩] }

theorem foldl_min_le (xs : List Int) (x : Int) : xs.foldl min x ≤ x := by
  induction xs generalizing x with
  | nil => simp
  | cons y ys ih => exact le_trans (ih (min x y)) (min_le_left x y)

theorem foldl_min_le_of_mem (xs : List Int) (x y : Int) (hy : y ∈ xs) : xs.foldl min x ≤ y := by
  induction xs generalizing x with
  | nil => simp at hy
  | cons z zs ih =>
    rcases List.mem_cons.1 hy with h | h
    · subst h
      exact le_trans (foldl_min_le zs (min x y)) (min_le_right x y)
    · exact ih (min x z) h

theorem foldl_min_mem (xs : List Int) (x : Int) : xs.foldl min x = x ∨ xs.foldl min x ∈ xs := by
  induction xs generalizing x with
  | nil => simp
  | cons z zs ih =>
    simp only [List.foldl_cons, List.mem_cons]
    rcases ih (min x z) with h | h
    · rcases min_choice x z with h2 | h2
      · left; rw [h, h2]
      · right; left; rw [h, h2]
    · right; right; exact h

theorem setBegin_isSome {S : List Int} (h : S ≠ []) : ∃ m, setBegin S = some m := by
  cases S with
  | nil => exact absurd rfl h
  | cons x xs => exact ⟨_, rfl⟩

theorem setBegin_mem {S : List Int} {m : Int} (h : setBegin S = some m) : m ∈ S := by
  cases S with
  | nil => simp [setBegin] at h
  | cons x xs =>
    simp only [setBegin, Option.some.injEq] at h
    subst h
    rcases foldl_min_mem xs x with h | h
    · rw [h]; exact List.mem_cons_self _ _
    · exact List.mem_cons_of_mem _ h

theorem setBegin_le {S : List Int} {m : Int} (h : setBegin S = some m) :
    ∀ x ∈ S, m ≤ x := by
  cases S with
  | nil => simp [setBegin] at h
  | cons x xs =>
    simp only [setBegin, Option.some.injEq] at h
    subst h
    intro y hy
    rcases List.mem_cons.1 hy with h | h
    · subst h; exact foldl_min_le xs y
    · exact foldl_min_le_of_mem xs x y h

theorem keys_functional {K V : Type} {m : List (K × V)} (hm : (m.map Prod.fst).Nodup)
    {k : K} {a b : V} (ha : (k, a) ∈ m) (hb : (k, b) ∈ m) : a = b := by
  have := List.inj_on_of_nodup_map hm ha hb rfl
  exact (Prod.mk.inj this).2

section MapFacts
variable {K V : Type} [DecidableEq K]

theorem mapFind_mem {m : List (K × V)} {k : K} {v : V} (h : mapFind m k = some v) :
    (k, v) ∈ m := by
  induction m with
  | nil => simp [mapFind] at h
  | cons p rest ih =>
    obtain ⟨k', v'⟩ := p
    simp only [mapFind] at h
    split at h
    · next hk => cases h; subst hk; exact List.mem_cons_self _ _
    · exact List.mem_cons_of_mem _ (ih h)

theorem mapFind_eq_none {m : List (K × V)} {k : K} (h : mapFind m k = none) :
    ∀ v, (k, v) ∉ m := by
  induction m with
  | nil => simp
  | cons p rest ih =>
    obtain ⟨k', v'⟩ := p
    simp only [mapFind] at h
    split at h
    · cases h
    · next hk =>
      intro v hv
      rcases List.mem_cons.1 hv with h2 | h2
      · cases h2; exact hk rfl
      · exact ih h v h2

theorem mapFind_of_mem {m : List (K × V)} (hm : (m.map Prod.fst).Nodup) {k : K} {v : V}
    (h : (k, v) ∈ m) : mapFind m k = some v := by
  cases hf : mapFind m k with
  | none => exact absurd h (mapFind_eq_none hf v)
  | some w => rw [keys_functional hm (mapFind_mem hf) h]

theorem mem_mapErase {m : List (K × V)} {k k' : K} {v : V} :
    (k', v) ∈ mapErase m k ↔ (k', v) ∈ m ∧ k' ≠ k := by
  simp [mapErase]

theorem mapErase_keys_nodup {m : List (K × V)} (hm : (m.map Prod.fst).Nodup) (k : K) :
    ((mapErase m k).map Prod.fst).Nodup :=
  hm.sublist ((List.filter_sublist m).map Prod.fst)

theorem mem_mapAssign {m : List (K × V)} {k k' : K} {v v' : V} :
    (k', v') ∈ mapAssign m k v ↔ (k' = k ∧ v' = v) ∨ ((k', v') ∈ m ∧ k' ≠ k) := by
  simp [mapAssign, mem_mapErase]

theorem mapAssign_keys_nodup {m : List (K × V)} (hm : (m.map Prod.fst).Nodup) (k : K) (v : V) :
    ((mapAssign m k v).map Prod.fst).Nodup := by
  simp only [mapAssign, List.map_cons, List.nodup_cons]
  refine ⟨?_, mapErase_keys_nodup hm k⟩
  intro h
  obtain ⟨⟨k', v'⟩, hp, hk⟩ := List.mem_map.1 h
  exact (mem_mapErase.1 hp).2 hk

end MapFacts

/-! ## The concrete library instance meets the contracts -/

theorem insertSorted_perm (lt : Nat → Nat → Bool) (x : Nat) (l : List Nat) :
    (insertSorted lt x l).Perm (x :: l) := by
  induction l with
  | nil => exact List.Perm.refl _
  | cons y ys ih =>
    simp only [insertSorted]
    split
    · exact ((List.Perm.cons y ih).trans (List.Perm.swap x y ys))
    · exact List.Perm.refl _

theorem insertionSortBy_perm (lt : Nat → Nat → Bool) (l : List Nat) :
    (insertionSortBy lt l).Perm l := by
  induction l with
  | nil => exact List.Perm.refl _
  | cons x xs ih =>
    exact (insertSorted_perm lt x _).trans (List.Perm.cons x ih)

theorem insertSorted_sorted (key : Nat → Nat) (x : Nat) (l : List Nat)
    (hl : l.Pairwise (fun a b => key a ≤ key b)) :
    (insertSorted (fun a b => decide (key a < key b)) x l).Pairwise
      (fun a b => key a ≤ key b) := by
  induction l with
  | nil => simp [insertSorted]
  | cons y ys ih =>
    simp only [insertSorted]
    rw [List.pairwise_cons] at hl
    split
    · next hlt =>
      have hyx : key y < key x := by simpa using hlt
      rw [List.pairwise_cons]
      refine ⟨?_, ih hl.2⟩
      intro z hz
      rcases List.mem_cons.1 ((insertSorted_perm _ x ys).subset hz) with h | h
      · subst h; exact le_of_lt hyx
      · exact hl.1 z h
    · next hlt =>
      have hxy : key x ≤ key y := by simpa using hlt
      rw [List.pairwise_cons]
      refine ⟨?_, List.pairwise_cons.2 hl⟩
      intro z hz
      rcases List.mem_cons.1 hz with h | h
      · subst h; exact hxy
      · exact le_trans hxy (hl.1 z h)

theorem insertionSortBy_sorted (key : Nat → Nat) (l : List Nat) :
    (insertionSortBy (fun a b => decide (key a < key b)) l).Pairwise
      (fun a b => key a ≤ key b) := by
  induction l with
  | nil => simp [insertionSortBy]
  | cons x xs ih => exact insertSorted_sorted key x _ ih

theorem stdLib_ok : stdLib.Ok where
  findCommon_some := by
    intro m S k s h
    have h1 := List.mem_of_find?_eq_some h
    have h2 := List.find?_some h
    exact ⟨h1, by simpa using h2⟩
  findCommon_none := by
    intro m S h k s hm hk
    have := List.find?_eq_none.1 h (k, s) hm
    simp at this
    exact this hk
  sort_perm := fun key l => insertionSortBy_perm _ l
  sort_sorted := fun key l => insertionSortBy_sorted key l

/-! ## The invariant of the cache -/

theorem inv_create {blockSize offset channelCount capacity : Nat} {delay : Int} {c : GPUCache}
    (h : GPUCache.create blockSize offset delay channelCount capacity = .ok c) : Inv c := by
  unfold GPUCache.create at h
  split at h
  · cases h
  · next hcap =>
    cases h
    exact
      { capacity_pos := Nat.pos_of_ne_zero hcap
        lastUsed_length := by simp
        order_perm := List.Perm.refl _
        order_sorted := by
          refine List.Pairwise.imp_of_mem ?_ (List.pairwise_lt_range capacity)
          intro a b ha hb _
          simp [List.getD_eq_getElem?_getD, List.getElem?_replicate]
          split <;> simp
        index_nodup := by simp
        reverse_nodup := by simp
        inverse := by simp
        slot_lt := by simp
        history := by simp
        requested := by simp
        issued_bound := by simp }

theorem getLast?_mem {l : List Nat} {v : Nat} (h : l.getLast? = some v) : v ∈ l :=
  List.mem_of_getLast?_eq_some h

theorem order_back_lt {c : GPUCache} (hc : Inv c) {v : Nat} (h : c.order.getLast? = some v) :
    v < c.capacity :=
  List.mem_range.1 (hc.order_perm.subset (getLast?_mem h))

theorem order_back_isSome {c : GPUCache} (hc : Inv c) : ∃ v, c.order.getLast? = some v := by
  have hmem : 0 ∈ c.order := hc.order_perm.symm.subset (List.mem_range.2 hc.capacity_pos)
  cases h : c.order.getLast? with
  | some v => exact ⟨v, rfl⟩
  | none =>
    rw [List.getLast?_eq_none_iff] at h
    rw [h] at hmem
    simp at hmem

theorem inv_touch {L : Lib} (hL : L.Ok) {c c' : GPUCache} {s : Nat} (hc : Inv c)
    (h : touch L c s = some c') : Inv c' := by
  unfold touch at h
  split at h
  · cases h
    exact
      { capacity_pos := hc.capacity_pos
        lastUsed_length := by simpa using hc.lastUsed_length
        order_perm := (hL.sort_perm _ _).trans hc.order_perm
        order_sorted := hL.sort_sorted _ _
        index_nodup := hc.index_nodup
        reverse_nodup := hc.reverse_nodup
        inverse := hc.inverse
        slot_lt := hc.slot_lt
        history := hc.history
        requested := hc.requested
        issued_bound := hc.issued_bound }
  · cases h

theorem mem_unbind {c : GPUCache} (hc : Inv c) (v : Nat) :
    ∀ k s, ((k, s) ∈ (match mapFind c.reverseIndexMap v with
      | some old => mapErase c.indexMap old
      | none => c.indexMap) ↔ (k, s) ∈ c.indexMap ∧ s ≠ v) := by
    intro k s
    split
    · next old hold =>
      have h1 : (v, old) ∈ c.reverseIndexMap := mapFind_mem hold
      have h2 : (old, v) ∈ c.indexMap := (hc.inverse old v).2 h1
      rw [mem_mapErase]
      constructor
      · rintro ⟨hk, hne⟩
        refine ⟨hk, ?_⟩
        rintro rfl
        exact hne (keys_functional hc.reverse_nodup ((hc.inverse k s).1 hk) h1)
      · rintro ⟨hk, hne⟩
        refine ⟨hk, ?_⟩
        rintro rfl
        exact hne (keys_functional hc.index_nodup hk h2)
    · next hnone =>
      constructor
      · intro hk
        refine ⟨hk, ?_⟩
        rintro rfl
        exact mapFind_eq_none hnone k ((hc.inverse k s).1 hk)
      · exact fun h => h.1

theorem inv_rebind {c : GPUCache} (hc : Inv c) {m : Int} {v : Nat} (ev buf : Nat)
    (hm : ∀ s, (m, s) ∉ c.indexMap) (hv : v < c.capacity) :
    Inv (rebind c m v ev buf) := by
  have hsub : ∀ k s, (k, s) ∈ (match mapFind c.reverseIndexMap v with
      | some old => mapErase c.indexMap old
      | none => c.indexMap) → (k, s) ∈ c.indexMap := by
    intro k s h
    split at h
    · exact (mem_mapErase.1 h).1
    · exact h
  have hkey := mem_unbind hc v
  exact
    { capacity_pos := hc.capacity_pos
      lastUsed_length := hc.lastUsed_length
      order_perm := hc.order_perm
      order_sorted := hc.order_sorted
      index_nodup := by
        refine mapAssign_keys_nodup ?_ m v
        split
        · exact mapErase_keys_nodup hc.index_nodup _
        · exact hc.index_nodup
      reverse_nodup := mapAssign_keys_nodup hc.reverse_nodup v m
      inverse := by
        intro k s
        show (k, s) ∈ mapAssign _ m v ↔ (s, k) ∈ mapAssign c.reverseIndexMap v m
        rw [mem_mapAssign, mem_mapAssign, hkey, hc.inverse k s]
        constructor
        · rintro (⟨rfl, rfl⟩ | ⟨⟨h1, h2⟩, _⟩)
          · exact Or.inl ⟨rfl, rfl⟩
          · exact Or.inr ⟨h1, h2⟩
        · rintro (⟨rfl, rfl⟩ | ⟨h1, h2⟩)
          · exact Or.inl ⟨rfl, rfl⟩
          · refine Or.inr ⟨⟨h1, h2⟩, ?_⟩
            rintro rfl
            exact hm s ((hc.inverse _ s).2 h1)
      slot_lt := by
        intro k s h
        rcases mem_mapAssign.1 h with ⟨_, rfl⟩ | ⟨h1, _⟩
        · exact hv
        · exact hc.slot_lt k s (hsub k s h1)
      history := by
        show c.issued ++ _ = c.served ++ (c.queue ++ _)
        rw [hc.history, List.append_assoc]
      requested := by
        intro k s h
        show ∃ pre r post, c.issued ++ [(⟨m, v, ev, buf⟩ : Request)] = pre ++ r :: post ∧ _
        rcases mem_mapAssign.1 h with ⟨rfl, rfl⟩ | ⟨h1, _⟩
        · exact ⟨c.issued, ⟨k, s, ev, buf⟩, [], rfl, rfl, rfl, by simp⟩
        · obtain ⟨pre, r, post, he, hk, hs, hpost⟩ := hc.requested k s ((hkey k s).1 h1).1
          refine ⟨pre, r, post ++ [⟨m, v, ev, buf⟩], by rw [he]; simp, hk, hs, ?_⟩
          intro q hq
          rcases List.mem_append.1 hq with h2 | h2
          · exact hpost q h2
          · rw [List.mem_singleton.1 h2]
            exact fun hv' => ((hkey k s).1 h1).2 hv'.symm
      issued_bound := by
        intro r hr
        show ∃ k, (r.cacheIndex, k) ∈ mapAssign c.reverseIndexMap v m
        have hr' : r ∈ c.issued ++ [(⟨m, v, ev, buf⟩ : Request)] := hr
        by_cases hrv : r.cacheIndex = v
        · exact ⟨m, mem_mapAssign.2 (Or.inl ⟨hrv, rfl⟩)⟩
        · rcases List.mem_append.1 hr' with h2 | h2
          · obtain ⟨k, hk⟩ := hc.issued_bound r h2
            exact ⟨k, mem_mapAssign.2 (Or.inr ⟨hk, hrv⟩)⟩
          · rw [List.mem_singleton.1 h2] at hrv
            exact absurd rfl hrv }

theorem inv_load {c c' : GPUCache} {l : LoadResult} (hc : Inv c)
    (h : loaderThreadFunction c = some (l, c')) : Inv c' := by
  unfold loaderThreadFunction at h
  split at h
  · cases h
  · next r rest hq =>
    cases h
    exact
      { capacity_pos := hc.capacity_pos
        lastUsed_length := hc.lastUsed_length
        order_perm := hc.order_perm
        order_sorted := hc.order_sorted
        index_nodup := hc.index_nodup
        reverse_nodup := hc.reverse_nodup
        inverse := hc.inverse
        slot_lt := hc.slot_lt
        history := by
          show c.issued = (c.served ++ [r]) ++ rest
          rw [hc.history, hq]; simp
        requested := hc.requested
        issued_bound := hc.issued_bound }

theorem mapFind_iff_mem {K V : Type} [DecidableEq K] {m : List (K × V)}
    (hm : (m.map Prod.fst).Nodup) (k : K) (v : V) : mapFind m k = some v ↔ (k, v) ∈ m :=
  ⟨mapFind_mem, mapFind_of_mem hm⟩

theorem swap_perm {c : GPUCache} (hc : Inv c) :
    (c.indexMap.map Prod.swap).Perm c.reverseIndexMap := by
  have h1 : (c.indexMap.map Prod.swap).Nodup :=
    (List.Nodup.of_map Prod.fst hc.index_nodup).map Prod.swap_injective
  have h2 : c.reverseIndexMap.Nodup := List.Nodup.of_map Prod.fst hc.reverse_nodup
  rw [List.perm_ext_iff_of_nodup h1 h2]
  rintro ⟨s, k⟩
  rw [← hc.inverse k s]
  constructor
  · intro h
    obtain ⟨⟨k', s'⟩, hp, he⟩ := List.mem_map.1 h
    cases he
    exact hp
  · intro h
    exact List.mem_map.2 ⟨(k, s), h, rfl⟩

theorem slots_perm {c : GPUCache} (hc : Inv c) :
    (c.indexMap.map Prod.snd).Perm (c.reverseIndexMap.map Prod.fst) := by
  have := (swap_perm hc).map Prod.fst
  simpa [List.map_map, Function.comp_def] using this

theorem blocks_perm {c : GPUCache} (hc : Inv c) :
    (c.indexMap.map Prod.fst).Perm (c.reverseIndexMap.map Prod.snd) := by
  have := (swap_perm hc).map Prod.snd
  simpa [List.map_map, Function.comp_def] using this

/-! ## The two branches of `getAny` -/

theorem touch_isSome (L : Lib) {c : GPUCache} {s : Nat} (h : s < c.lastUsed.length) :
    ∃ c', touch L c s = some c' := by
  unfold touch
  rw [if_pos h]
  exact ⟨_, rfl⟩

theorem touch_fields {L : Lib} {c c' : GPUCache} {s : Nat} (h : touch L c s = some c') :
    s < c.lastUsed.length ∧
    c'.lastUsed = (c.lastUsed.map (fun e => (e + 1) % UINT_RANGE)).set s 0 ∧
    c'.indexMap = c.indexMap ∧ c'.reverseIndexMap = c.reverseIndexMap ∧
    c'.queue = c.queue ∧ c'.issued = c.issued ∧ c'.served = c.served ∧
    c'.capacity = c.capacity := by
  unfold touch at h
  split at h
  · next hlt => cases h; exact ⟨hlt, rfl, rfl, rfl, rfl, rfl, rfl, rfl⟩
  · cases h

/-- A call of `getAny` that returns took one of the two branches of the source. -/
theorem getAny_cases {L : Lib} {c : GPUCache} {S : List Int} {buf ev : Nat} {r : GetAnyResult}
    (h : getAny L c S buf ev = some r) :
    (L.findCommon c.indexMap S = some (r.index, r.cacheIndex) ∧ r.hit = true ∧
      r.copy = enqueuCopy r.cacheIndex buf ev ∧ touch L c r.cacheIndex = some r.cache) ∨
    (L.findCommon c.indexMap S = none ∧ r.hit = false ∧ r.copy = none ∧
      setBegin S = some r.index ∧ c.order.getLast? = some r.cacheIndex ∧
      touch L (rebind c r.index r.cacheIndex ev buf) r.cacheIndex = some r.cache) := by
  unfold getAny at h
  split at h
  · next k s hf =>
    left
    cases ht : touch L c s with
    | none => simp [ht] at h
    | some c' =>
      simp only [ht, Option.map_some', Option.some.injEq] at h
      subst h
      exact ⟨hf, rfl, rfl, ht⟩
  · next hf =>
    right
    split at h
    · next m v hm hv =>
      simp only at h
      split at h
      · cases ht : touch L (rebind c m v ev buf) v with
        | none => simp [ht] at h
        | some c' =>
          simp only [ht, Option.map_some', Option.some.injEq] at h
          subst h
          exact ⟨hf, rfl, rfl, hm, hv, ht⟩
      · cases h
    · cases h

theorem rebind_lastUsed (c : GPUCache) (m : Int) (v ev buf : Nat) :
    (rebind c m v ev buf).lastUsed = c.lastUsed := rfl

/-- On the states that satisfy the invariant `getAny` returns for every non-empty
candidate set. -/
theorem getAny_isSome {L : Lib} (hL : L.Ok) {c : GPUCache} (hc : Inv c) {S : List Int}
    (hS : S ≠ []) (buf ev : Nat) : ∃ r, getAny L c S buf ev = some r := by
  unfold getAny
  split
  · next k s hf =>
    have hs : s < c.lastUsed.length := by
      rw [hc.lastUsed_length]
      exact hc.slot_lt k s (hL.findCommon_some _ _ _ _ hf).1
    obtain ⟨c', hc'⟩ := touch_isSome L hs
    exact ⟨_, by rw [hc']; rfl⟩
  · next hf =>
    obtain ⟨m, hm⟩ := setBegin_isSome hS
    obtain ⟨v, hv⟩ := order_back_isSome hc
    have hs : v < (rebind c m v ev buf).lastUsed.length := by
      rw [rebind_lastUsed, hc.lastUsed_length]
      exact order_back_lt hc hv
    obtain ⟨c', hc'⟩ := touch_isSome L hs
    have hinv := inv_rebind hc ev buf (fun s hs => hL.findCommon_none _ _ hf m s hs
      (setBegin_mem hm)) (order_back_lt hc hv)
    have hlen : (rebind c m v ev buf).indexMap.length =
        (rebind c m v ev buf).reverseIndexMap.length := by
      simpa using (swap_perm hinv).length_eq
    rw [hm, hv]
    exact ⟨_, by simp only [hc', if_pos hlen]; rfl⟩

theorem miss_unbound {L : Lib} (hL : L.Ok) {c : GPUCache} {S : List Int} {m : Int}
    (hf : L.findCommon c.indexMap S = none) (hm : setBegin S = some m) :
    ∀ s, (m, s) ∉ c.indexMap :=
  fun s hs => hL.findCommon_none _ _ hf m s hs (setBegin_mem hm)

theorem inv_getAny {L : Lib} (hL : L.Ok) {c : GPUCache} (hc : Inv c) {S : List Int}
    {buf ev : Nat} {r : GetAnyResult} (h : getAny L c S buf ev = some r) : Inv r.cache := by
  rcases getAny_cases h with ⟨_, _, _, ht⟩ | ⟨hf, _, _, hm, hv, ht⟩
  · exact inv_touch hL hc ht
  · exact inv_touch hL (inv_rebind hc ev buf (miss_unbound hL hf hm) (order_back_lt hc hv)) ht

theorem Reachable.inv {L : Lib} (hL : L.Ok) {c : GPUCache} (h : Reachable L c) : Inv c := by
  induction h with
  | create h => exact inv_create h
  | getAny _ _ h ih => exact inv_getAny hL ih h
  | load _ h ih => exact inv_load ih h

/-! ## Reachability of the concrete states -/

theorem reachable_demo0 : Reachable stdLib demo0 :=
  @Reachable.create stdLib 256 64 4 2 31 demo0 rfl

theorem getAny_demo0 :
    getAny stdLib demo0 [5, 6, 7] 1 1 = some ⟨5, 1, false, none, demo1⟩ := by decide

theorem reachable_demo1 : Reachable stdLib demo1 :=
  Reachable.getAny reachable_demo0 (by decide) getAny_demo0

theorem getAny_demo1 :
    getAny stdLib demo1 [6] 2 2 = some ⟨6, 0, false, none, demo2⟩ := by decide

theorem reachable_demo2 : Reachable stdLib demo2 :=
  Reachable.getAny reachable_demo1 (by decide) getAny_demo1

theorem reachable_solo0 : Reachable stdLib solo0 :=
  @Reachable.create stdLib 256 64 4 1 31 solo0 rfl

theorem getAny_solo0 :
    getAny stdLib solo0 [1] 1 1 = some ⟨1, 0, false, none, solo1⟩ := by decide

theorem reachable_solo1 : Reachable stdLib solo1 :=
  Reachable.getAny reachable_solo0 (by decide) getAny_solo0

theorem getAny_solo1 :
    getAny stdLib solo1 [2] 2 2 = some ⟨2, 0, false, none, solo2⟩ := by decide

theorem reachable_solo2 : Reachable stdLib solo2 :=
  Reachable.getAny reachable_solo1 (by decide) getAny_solo1

theorem getAny_solo2 :
    getAny stdLib solo2 [1] 3 3 = some ⟨1, 0, false, none, solo3⟩ := by decide

theorem getAny_soloNeg :
    getAny stdLib solo0 [-3] 1 1 = some ⟨-3, 0, false, none, soloNeg⟩ := by decide

theorem reachable_soloNeg : Reachable stdLib soloNeg :=
  Reachable.getAny reachable_solo0 (by decide) getAny_soloNeg

/-! ## The binding invariant (C1) -/

/-- C1: in every state reachable from a constructed cache by calls of `getAny` with
non-empty candidate sets (and by iterations of the loader), `indexMap` and
`reverseIndexMap` are inverse to each other, no block is bound to two slots and no slot
to two blocks, the two maps have the same size, every bound slot id is below
`capacity`, and at most `capacity` blocks are bound. -/
theorem binding_invariant (L : Lib) (hL : L.Ok) (c : GPUCache) (hc : Reachable L c) :
    (∀ k s, mapFind c.indexMap k = some s ↔ mapFind c.reverseIndexMap s = some k) ∧
    (c.indexMap.map Prod.fst).Nodup ∧ (c.indexMap.map Prod.snd).Nodup ∧
    (c.reverseIndexMap.map Prod.fst).Nodup ∧ (c.reverseIndexMap.map Prod.snd).Nodup ∧
    c.indexMap.length = c.reverseIndexMap.length ∧
    (∀ k s, mapFind c.indexMap k = some s → s < c.capacity) ∧
    c.indexMap.length ≤ c.capacity := by
  have hi := hc.inv hL
  have hslots : (c.indexMap.map Prod.snd).Nodup := (slots_perm hi).nodup_iff.2 hi.reverse_nodup
  refine ⟨?_, hi.index_nodup, hslots, hi.reverse_nodup,
    (blocks_perm hi).nodup_iff.1 hi.index_nodup, ?_, ?_, ?_⟩
  · intro k s
    rw [mapFind_iff_mem hi.index_nodup, mapFind_iff_mem hi.reverse_nodup]
    exact hi.inverse k s
  · simpa using (swap_perm hi).length_eq
  · intro k s h
    exact hi.slot_lt k s (mapFind_mem h)
  · have hsub : c.indexMap.map Prod.snd ⊆ List.range c.capacity := by
      intro s hs
      obtain ⟨⟨k, s'⟩, hp, he⟩ := List.mem_map.1 hs
      cases he
      exact List.mem_range.2 (hi.slot_lt k s' hp)
    simpa using (List.subperm_of_subset hslots hsub).length_le

theorem binding_invariant_witness :
    stdLib.Ok ∧ Reachable stdLib demo2 ∧
    (∀ k s, mapFind demo2.indexMap k = some s ↔ mapFind demo2.reverseIndexMap s = some k) ∧
    (demo2.indexMap.map Prod.fst).Nodup ∧ (demo2.indexMap.map Prod.snd).Nodup ∧
    (demo2.reverseIndexMap.map Prod.fst).Nodup ∧ (demo2.reverseIndexMap.map Prod.snd).Nodup ∧
    demo2.indexMap.length = demo2.reverseIndexMap.length ∧
    (∀ k s, mapFind demo2.indexMap k = some s → s < demo2.capacity) ∧
    demo2.indexMap.length ≤ demo2.capacity :=
  ⟨stdLib_ok, reachable_demo2, binding_invariant stdLib stdLib_ok demo2 reachable_demo2⟩

/-! ## Least-recently-used eviction (C2) -/

theorem sorted_le_back {key : Nat → Nat} {l : List Nat} {v : Nat}
    (hs : l.Pairwise (fun a b => key a ≤ key b)) (hv : l.getLast? = some v) :
    ∀ x ∈ l, key x ≤ key v := by
  obtain ⟨ys, rfl⟩ := List.getLast?_eq_some_iff.1 hv
  rw [List.pairwise_append] at hs
  intro x hx
  rcases List.mem_append.1 hx with h | h
  · exact hs.2.2 x h v (List.mem_singleton_self v)
  · rw [List.mem_singleton.1 h]

/-- In every reachable state, when `getAny` misses, the slot it rebinds is
`order.back()`, and no slot has a greater stored `lastUsed` entry than this slot. -/
theorem lru_eviction (L : Lib) (hL : L.Ok) (c : GPUCache) (hc : Reachable L c)
    (S : List Int) (buf ev : Nat) (r : GetAnyResult)
    (hr : getAny L c S buf ev = some r) (hmiss : r.hit = false) :
    c.order.getLast? = some r.cacheIndex ∧
    mapFind r.cache.reverseIndexMap r.cacheIndex = some r.index ∧
    r.cacheIndex < c.capacity ∧
    ∀ j, j < c.capacity → c.lastUsed.getD j 0 ≤ c.lastUsed.getD r.cacheIndex 0 := by
  have hi := hc.inv hL
  rcases getAny_cases hr with ⟨_, hhit, _, _⟩ | ⟨_, _, _, _, hv, ht⟩
  · rw [hhit] at hmiss; cases hmiss
  · refine ⟨hv, ?_, order_back_lt hi hv, ?_⟩
    · rw [(touch_fields ht).2.2.2.1]
      simp [rebind, mapAssign, mapFind]
    · intro j hj
      exact sorted_le_back hi.order_sorted hv j
        (hi.order_perm.symm.subset (List.mem_range.2 hj))

theorem lru_eviction_witness :
    stdLib.Ok ∧ Reachable stdLib demo1 ∧
    getAny stdLib demo1 [6] 2 2 = some ⟨6, 0, false, none, demo2⟩ ∧
    (⟨6, 0, false, none, demo2⟩ : GetAnyResult).hit = false ∧
    demo1.order.getLast? = some 0 ∧
    mapFind demo2.reverseIndexMap 0 = some 6 ∧
    0 < demo1.capacity ∧
    ∀ j, j < demo1.capacity → demo1.lastUsed.getD j 0 ≤ demo1.lastUsed.getD 0 0 :=
  ⟨stdLib_ok, reachable_demo1, getAny_demo1, rfl,
    lru_eviction stdLib stdLib_ok demo1 reachable_demo1 [6] 2 2 ⟨6, 0, false, none, demo2⟩
      getAny_demo1 rfl⟩

/-! ## Eviction and pending load requests (C3) -/

/-- C3, counterexample: in the one-slot cache `solo1`, reached by `getAny({1}, 1, 1)`
on a new cache, slot 0 is bound to block 1 and the load request for block 1 is still in
the loader queue; `getAny({2}, 2, 2)` misses and rebinds this slot. -/
theorem pending_slot_evicted :
    GPUCache.create 256 64 31 4 1 = .ok solo0 ∧
    getAny stdLib solo0 [1] 1 1 = some ⟨1, 0, false, none, solo1⟩ ∧
    mapFind solo1.reverseIndexMap 0 = some 1 ∧
    (⟨1, 0, 1, 1⟩ : Request) ∈ solo1.queue ∧
    getAny stdLib solo1 [2] 2 2 = some ⟨2, 0, false, none, solo2⟩ ∧
    mapFind solo2.reverseIndexMap 0 = some 2 ∧
    mapFind solo2.indexMap 1 = none :=
  ⟨rfl, by decide⟩

/-- C3, amended: a miss rebinds `order.back()` without looking at the loader queue.
The requests already queued, those for the rebound slot included, stay queued in
front of the new request.  Only a slot that is bound to no block is certain to have no
pending request: every queued request is for a slot that is bound. -/
theorem miss_ignores_pending (L : Lib) (hL : L.Ok) (c : GPUCache) (hc : Reachable L c)
    (S : List Int) (buf ev : Nat) (r : GetAnyResult)
    (hr : getAny L c S buf ev = some r) (hmiss : r.hit = false) :
    c.order.getLast? = some r.cacheIndex ∧
    r.cache.queue = c.queue ++ [⟨r.index, r.cacheIndex, ev, buf⟩] ∧
    (mapFind c.reverseIndexMap r.cacheIndex = none →
      ∀ q ∈ c.queue, q.cacheIndex ≠ r.cacheIndex) ∧
    (∀ q ∈ c.queue, ∃ k, mapFind c.reverseIndexMap q.cacheIndex = some k) := by
  have hi := hc.inv hL
  have hbound : ∀ q ∈ c.queue, ∃ k, mapFind c.reverseIndexMap q.cacheIndex = some k := by
    intro q hq
    have hq' : q ∈ c.issued := by
      rw [hi.history]; exact List.mem_append_right _ hq
    obtain ⟨k, hk⟩ := hi.issued_bound q hq'
    exact ⟨k, mapFind_of_mem hi.reverse_nodup hk⟩
  rcases getAny_cases hr with ⟨_, hhit, _, _⟩ | ⟨_, _, _, _, hv, ht⟩
  · rw [hhit] at hmiss; cases hmiss
  · refine ⟨hv, ?_, ?_, hbound⟩
    · rw [(touch_fields ht).2.2.2.2.1]; rfl
    · intro hnone q hq hqs
      obtain ⟨k, hk⟩ := hbound q hq
      rw [hqs, hnone] at hk
      cases hk

theorem miss_ignores_pending_witness :
    stdLib.Ok ∧ Reachable stdLib solo1 ∧
    getAny stdLib solo1 [2] 2 2 = some ⟨2, 0, false, none, solo2⟩ ∧
    (⟨2, 0, false, none, solo2⟩ : GetAnyResult).hit = false ∧
    solo1.order.getLast? = some 0 ∧
    solo2.queue = solo1.queue ++ [⟨2, 0, 2, 2⟩] ∧
    (mapFind solo1.reverseIndexMap 0 = none → ∀ q ∈ solo1.queue, q.cacheIndex ≠ 0) ∧
    (∀ q ∈ solo1.queue, ∃ k, mapFind solo1.reverseIndexMap q.cacheIndex = some k) :=
  ⟨stdLib_ok, reachable_solo1, getAny_solo1, rfl,
    miss_ignores_pending stdLib stdLib_ok solo1 reachable_solo1 [2] 2 2
      ⟨2, 0, false, none, solo2⟩ getAny_solo1 rfl⟩

/-! ## `getAny` followed by a request for the returned block (C4) -/

theorem getAny_bound {L : Lib} (hL : L.Ok) {c : GPUCache} {S : List Int} {buf ev : Nat}
    {r : GetAnyResult} (hr : getAny L c S buf ev = some r) :
    r.index ∈ S ∧ (r.index, r.cacheIndex) ∈ r.cache.indexMap := by
  rcases getAny_cases hr with ⟨hf, _, _, ht⟩ | ⟨_, _, _, hm, _, ht⟩
  · have := hL.findCommon_some _ _ _ _ hf
    rw [(touch_fields ht).2.2.1]
    exact ⟨this.2, this.1⟩
  · refine ⟨setBegin_mem hm, ?_⟩
    rw [(touch_fields ht).2.2.1]
    exact mem_mapAssign.2 (Or.inl ⟨rfl, rfl⟩)

theorem getAny_hit_of_bound {L : Lib} (hL : L.Ok) {c : GPUCache} (hc : Inv c) {i : Int}
    {s : Nat} (hb : (i, s) ∈ c.indexMap) {buf ev : Nat} {r : GetAnyResult}
    (hr : getAny L c [i] buf ev = some r) :
    r.index = i ∧ r.cacheIndex = s ∧ r.hit = true ∧ r.cache.queue = c.queue ∧
    r.cache.indexMap = c.indexMap := by
  rcases getAny_cases hr with ⟨hf, hhit, _, ht⟩ | ⟨hf, _, _, _, _, _⟩
  · have h := hL.findCommon_some _ _ _ _ hf
    have hi : r.index = i := List.mem_singleton.1 h.2
    rw [hi] at h
    exact ⟨hi, keys_functional hc.index_nodup h.1 hb, hhit, (touch_fields ht).2.2.2.2.1,
      (touch_fields ht).2.2.1⟩
  · exact absurd (List.mem_singleton_self i) (hL.findCommon_none _ _ hf i s hb)

/-- C4: for every reachable state and every non-empty candidate set `S`, `getAny(S)`
returns; the block index `i` it returns is a member of `S` and is bound to the slot `s`
it used; and a following `getAny({i})` returns as well, is a hit, returns `i` and uses
the same slot `s`. -/
theorem read_after_readAny (L : Lib) (hL : L.Ok) (c : GPUCache) (hc : Reachable L c)
    (S : List Int) (hS : S ≠ []) (buf ev buf' ev' : Nat) :
    ∃ r r', getAny L c S buf ev = some r ∧
      r.index ∈ S ∧ mapFind r.cache.indexMap r.index = some r.cacheIndex ∧
      getAny L r.cache [r.index] buf' ev' = some r' ∧
      r'.hit = true ∧ r'.index = r.index ∧ r'.cacheIndex = r.cacheIndex := by
  have hi := hc.inv hL
  obtain ⟨r, hr⟩ := getAny_isSome hL hi hS buf ev
  have hi' := inv_getAny hL hi hr
  obtain ⟨r', hr'⟩ := getAny_isSome hL hi' (List.cons_ne_nil r.index []) buf' ev'
  have hb := getAny_bound hL hr
  have hh := getAny_hit_of_bound hL hi' hb.2 hr'
  exact ⟨r, r', hr, hb.1, mapFind_of_mem hi'.index_nodup hb.2, hr', hh.2.2.1, hh.1, hh.2.1⟩

theorem read_after_readAny_witness :
    stdLib.Ok ∧ Reachable stdLib demo1 ∧ [6, 7] ≠ [] ∧
    ∃ r r', getAny stdLib demo1 [6, 7] 2 2 = some r ∧
      r.index ∈ [6, 7] ∧ mapFind r.cache.indexMap r.index = some r.cacheIndex ∧
      getAny stdLib r.cache [r.index] 3 3 = some r' ∧
      r'.hit = true ∧ r'.index = r.index ∧ r'.cacheIndex = r.cacheIndex :=
  ⟨stdLib_ok, reachable_demo1, by decide,
    read_after_readAny stdLib stdLib_ok demo1 reachable_demo1 [6, 7] (by decide) 2 2 3 3⟩

/-! ## Repeated requests (C5) -/

/-- C5, counterexample: on a new one-slot cache the calls `getAny({1})`, `getAny({2})`,
`getAny({1})` are three misses; the loader has dequeued nothing, and the queue holds
two load requests for block 1. -/
theorem duplicate_request_queued :
    GPUCache.create 256 64 31 4 1 = .ok solo0 ∧
    getAny stdLib solo0 [1] 1 1 = some ⟨1, 0, false, none, solo1⟩ ∧
    getAny stdLib solo1 [2] 2 2 = some ⟨2, 0, false, none, solo2⟩ ∧
    getAny stdLib solo2 [1] 3 3 = some ⟨1, 0, false, none, solo3⟩ ∧
    solo3.served = [] ∧
    solo3.queue = [⟨1, 0, 1, 1⟩, ⟨2, 0, 2, 2⟩, ⟨1, 0, 3, 3⟩] ∧
    (solo3.queue.filter (fun q => decide (q.index = 1))).length = 2 :=
  ⟨rfl, by decide⟩

/-- C5, amended: `getAny` puts a request in the loader queue only when none of the
candidates is bound, and the block it returns is bound afterwards.  So requesting the
returned block index again right away is a hit that leaves the queue as it is: the two
calls together add at most one request, the one for the returned block. -/
theorem repeated_request_one_fill (L : Lib) (hL : L.Ok) (c : GPUCache) (hc : Reachable L c)
    (S : List Int) (hS : S ≠ []) (buf ev buf' ev' : Nat) :
    ∃ r r', getAny L c S buf ev = some r ∧
      getAny L r.cache [r.index] buf' ev' = some r' ∧
      r'.hit = true ∧ r'.cache.queue = r.cache.queue ∧
      (r.hit = true → (∃ k ∈ S, ∃ s, mapFind c.indexMap k = some s) ∧
        r.cache.queue = c.queue) ∧
      (r.hit = false → (∀ k ∈ S, mapFind c.indexMap k = none) ∧
        r.cache.queue = c.queue ++ [⟨r.index, r.cacheIndex, ev, buf⟩]) := by
  have hi := hc.inv hL
  obtain ⟨r, hr⟩ := getAny_isSome hL hi hS buf ev
  have hi' := inv_getAny hL hi hr
  obtain ⟨r', hr'⟩ := getAny_isSome hL hi' (List.cons_ne_nil r.index []) buf' ev'
  have hh := getAny_hit_of_bound hL hi' (getAny_bound hL hr).2 hr'
  refine ⟨r, r', hr, hr', hh.2.2.1, hh.2.2.2.1, ?_, ?_⟩
  · intro hhit
    rcases getAny_cases hr with ⟨hf, _, _, ht⟩ | ⟨_, hmiss, _, _, _, _⟩
    · have h := hL.findCommon_some _ _ _ _ hf
      exact ⟨⟨r.index, h.2, r.cacheIndex, mapFind_of_mem hi.index_nodup h.1⟩,
        (touch_fields ht).2.2.2.2.1⟩
    · rw [hhit] at hmiss; cases hmiss
  · intro hmiss
    rcases getAny_cases hr with ⟨_, hhit, _, _⟩ | ⟨hf, _, _, _, _, ht⟩
    · rw [hhit] at hmiss; cases hmiss
    · refine ⟨?_, ?_⟩
      · intro k hk
        cases hfk : mapFind c.indexMap k with
        | none => rfl
        | some s => exact absurd hk (hL.findCommon_none _ _ hf k s (mapFind_mem hfk))
      · rw [(touch_fields ht).2.2.2.2.1]; rfl

theorem repeated_request_one_fill_witness :
    stdLib.Ok ∧ Reachable stdLib solo2 ∧ [1] ≠ [] ∧
    ∃ r r', getAny stdLib solo2 [1] 3 3 = some r ∧
      getAny stdLib r.cache [r.index] 4 4 = some r' ∧
      r'.hit = true ∧ r'.cache.queue = r.cache.queue ∧
      (r.hit = true → (∃ k ∈ [1], ∃ s, mapFind solo2.indexMap k = some s) ∧
        r.cache.queue = solo2.queue) ∧
      (r.hit = false → (∀ k ∈ [1], mapFind solo2.indexMap k = none) ∧
        r.cache.queue = solo2.queue ++ [⟨r.index, r.cacheIndex, 3, 3⟩]) :=
  ⟨stdLib_ok, reachable_solo2, by decide,
    repeated_request_one_fill stdLib stdLib_ok solo2 reachable_solo2 [1] (by decide) 3 3 4 4⟩

/-! ## Hits and readiness (C6) -/

/-- C6, counterexample: in the one-slot cache `solo1` the load request for block 1 is
still in the loader queue and the loader has served nothing, yet `getAny({1}, 4, 4)`
takes the hit branch and enqueues the copy out of slot 0. -/
theorem hit_while_load_pending :
    GPUCache.create 256 64 31 4 1 = .ok solo0 ∧
    getAny stdLib solo0 [1] 1 1 = some ⟨1, 0, false, none, solo1⟩ ∧
    solo1.served = [] ∧
    (⟨1, 0, 1, 1⟩ : Request) ∈ solo1.queue ∧
    getAny stdLib solo1 [1] 4 4 = some ⟨1, 0, true, some ⟨0, 4, 4⟩, solo1⟩ :=
  ⟨rfl, by decide⟩

/-- C6, amended: a hit is reported for a block that is bound, whether or not its data
has been loaded.  Whenever `getAny` takes the hit branch for block `k`, `k` is a
candidate bound to the slot the copy is enqueued from, the queue is left as it is, and
a load request for `k` into this slot has been issued and is the latest request issued
for the slot; that request has been taken by the loader or is still in the queue. -/
theorem hit_is_bound (L : Lib) (hL : L.Ok) (c : GPUCache) (hc : Reachable L c)
    (S : List Int) (buf ev : Nat) (r : GetAnyResult)
    (hr : getAny L c S buf ev = some r) (hhit : r.hit = true) :
    r.index ∈ S ∧ mapFind c.indexMap r.index = some r.cacheIndex ∧
    r.copy = enqueuCopy r.cacheIndex buf ev ∧ r.cache.queue = c.queue ∧
    ∃ pre q post, c.served ++ c.queue = pre ++ q :: post ∧
      q.index = r.index ∧ q.cacheIndex = r.cacheIndex ∧
      ∀ q' ∈ post, q'.cacheIndex ≠ r.cacheIndex := by
  have hi := hc.inv hL
  rcases getAny_cases hr with ⟨hf, _, hcopy, ht⟩ | ⟨_, hmiss, _, _, _, _⟩
  · have h := hL.findCommon_some _ _ _ _ hf
    refine ⟨h.2, mapFind_of_mem hi.index_nodup h.1, hcopy, (touch_fields ht).2.2.2.2.1, ?_⟩
    rw [← hi.history]
    exact hi.requested _ _ h.1
  · rw [hhit] at hmiss; cases hmiss

theorem hit_is_bound_witness :
    stdLib.Ok ∧ Reachable stdLib solo1 ∧
    getAny stdLib solo1 [1] 4 4 = some ⟨1, 0, true, some ⟨0, 4, 4⟩, solo1⟩ ∧
    (⟨1, 0, true, some ⟨0, 4, 4⟩, solo1⟩ : GetAnyResult).hit = true ∧
    (1 : Int) ∈ [1] ∧ mapFind solo1.indexMap 1 = some 0 ∧
    some (⟨0, 4, 4⟩ : CopyCmd) = enqueuCopy 0 4 4 ∧ solo1.queue = solo1.queue ∧
    ∃ pre q post, solo1.served ++ solo1.queue = pre ++ q :: post ∧
      q.index = 1 ∧ q.cacheIndex = 0 ∧ ∀ q' ∈ post, q'.cacheIndex ≠ 0 :=
  ⟨stdLib_ok, reachable_solo1, by decide, rfl,
    hit_is_bound stdLib stdLib_ok solo1 reachable_solo1 [1] 4 4
      ⟨1, 0, true, some ⟨0, 4, 4⟩, solo1⟩ (by decide) rfl⟩

/-! ## The miss path (C7) -/

theorem mem_rebind_indexMap {c : GPUCache} (hc : Inv c) (m : Int) (v ev buf : Nat)
    (hm : ∀ s, (m, s) ∉ c.indexMap) (k : Int) (s : Nat) :
    (k, s) ∈ (rebind c m v ev buf).indexMap ↔
      (k = m ∧ s = v) ∨ ((k, s) ∈ c.indexMap ∧ s ≠ v) := by
  show (k, s) ∈ mapAssign _ m v ↔ _
  rw [mem_mapAssign, mem_unbind hc v]
  constructor
  · rintro (h | ⟨h, _⟩)
    · exact Or.inl h
    · exact Or.inr h
  · rintro (h | h)
    · exact Or.inl h
    · refine Or.inr ⟨h, ?_⟩
      rintro rfl
      exact hm s h.1

/-- C7: for every reachable state and non-empty candidate set `S` none of whose members
is bound, `getAny(S, buffer, readyEvent)` returns the least member `m` of `S`, takes the
slot `s = order.back()`, afterwards `m` is bound to `s` in both maps, the bindings of
`indexMap` are the former ones except that of the block `s` held, and the queue is the
former queue followed by the one request `(m, s, readyEvent, buffer)`.  A call that
takes the hit branch leaves the queue unchanged. -/
theorem miss_path (L : Lib) (hL : L.Ok) (c : GPUCache) (hc : Reachable L c)
    (S : List Int) (hS : S ≠ []) (buf ev : Nat) :
    ((∀ k ∈ S, mapFind c.indexMap k = none) →
      ∃ r m s, getAny L c S buf ev = some r ∧ r.hit = false ∧
        r.index = m ∧ m ∈ S ∧ (∀ x ∈ S, m ≤ x) ∧
        r.cacheIndex = s ∧ c.order.getLast? = some s ∧
        mapFind r.cache.indexMap m = some s ∧
        mapFind r.cache.reverseIndexMap s = some m ∧
        (∀ k s', mapFind r.cache.indexMap k = some s' ↔
          (k = m ∧ s' = s) ∨ (mapFind c.indexMap k = some s' ∧ s' ≠ s)) ∧
        r.cache.queue = c.queue ++ [⟨m, s, ev, buf⟩]) ∧
    (∀ r, getAny L c S buf ev = some r → r.hit = true → r.cache.queue = c.queue) := by
  have hi := hc.inv hL
  constructor
  · intro hun
    obtain ⟨r, hr⟩ := getAny_isSome hL hi hS buf ev
    have hi' := inv_getAny hL hi hr
    rcases getAny_cases hr with ⟨hf, _, _, _⟩ | ⟨hf, hmiss, _, hm, hv, ht⟩
    · have h := hL.findCommon_some _ _ _ _ hf
      have := mapFind_of_mem hi.index_nodup h.1
      rw [hun _ h.2] at this
      cases this
    · have hf' := touch_fields ht
      have hmem : ∀ k s', (k, s') ∈ r.cache.indexMap ↔
          (k = r.index ∧ s' = r.cacheIndex) ∨ ((k, s') ∈ c.indexMap ∧ s' ≠ r.cacheIndex) := by
        intro k s'
        rw [hf'.2.2.1]
        exact mem_rebind_indexMap hi _ _ _ _ (miss_unbound hL hf hm) k s'
      refine ⟨r, r.index, r.cacheIndex, hr, hmiss, rfl, setBegin_mem hm, setBegin_le hm, rfl,
        hv, ?_, ?_, ?_, ?_⟩
      · exact mapFind_of_mem hi'.index_nodup ((hmem _ _).2 (Or.inl ⟨rfl, rfl⟩))
      · rw [hf'.2.2.2.1]
        simp [rebind, mapAssign, mapFind]
      · intro k s'
        rw [mapFind_iff_mem hi'.index_nodup, mapFind_iff_mem hi.index_nodup]
        exact hmem k s'
      · rw [hf'.2.2.2.2.1]; rfl
  · intro r hr hhit
    rcases getAny_cases hr with ⟨_, _, _, ht⟩ | ⟨_, hmiss, _, _, _, _⟩
    · exact (touch_fields ht).2.2.2.2.1
    · rw [hhit] at hmiss; cases hmiss

theorem miss_path_witness :
    stdLib.Ok ∧ Reachable stdLib demo2 ∧ [9, 8] ≠ [] ∧
    ((∀ k ∈ [9, 8], mapFind demo2.indexMap k = none) →
      ∃ r m s, getAny stdLib demo2 [9, 8] 3 3 = some r ∧ r.hit = false ∧
        r.index = m ∧ m ∈ [9, 8] ∧ (∀ x ∈ [9, 8], m ≤ x) ∧
        r.cacheIndex = s ∧ demo2.order.getLast? = some s ∧
        mapFind r.cache.indexMap m = some s ∧
        mapFind r.cache.reverseIndexMap s = some m ∧
        (∀ k s', mapFind r.cache.indexMap k = some s' ↔
          (k = m ∧ s' = s) ∨ (mapFind demo2.indexMap k = some s' ∧ s' ≠ s)) ∧
        r.cache.queue = demo2.queue ++ [⟨m, s, 3, 3⟩]) ∧
    (∀ r, getAny stdLib demo2 [9, 8] 3 3 = some r → r.hit = true →
      r.cache.queue = demo2.queue) ∧
    (∀ k ∈ [9, 8], mapFind demo2.indexMap k = none) :=
  ⟨stdLib_ok, reachable_demo2, by decide,
    (miss_path stdLib stdLib_ok demo2 reachable_demo2 [9, 8] (by decide) 3 3).1,
    (miss_path stdLib stdLib_ok demo2 reachable_demo2 [9, 8] (by decide) 3 3).2,
    by decide⟩

/-! ## Touch on use (C8) -/

theorem getD_set_self {l : List Nat} {i : Nat} (h : i < l.length) (a d : Nat) :
    (l.set i a).getD i d = a := by
  simp [List.getD_eq_getElem?_getD, List.getElem?_set, h]

theorem getD_set_ne {l : List Nat} {i j : Nat} (h : i ≠ j) (a d : Nat) :
    (l.set i a).getD j d = l.getD j d := by
  simp [List.getD_eq_getElem?_getD, List.getElem?_set, h]

theorem getD_map_succ {l : List Nat} {j : Nat} (h : j < l.length) :
    (l.map (fun e => (e + 1) % UINT_RANGE)).getD j 0 = (l.getD j 0 + 1) % UINT_RANGE := by
  simp [List.getD_eq_getElem?_getD, List.getElem?_map, List.getElem?_eq_getElem h]

/-- What lines 106-116 do in every reachable state: the entry of the slot used becomes
0, every other entry becomes its successor modulo `2^32`, and `order` is a permutation
of the slot ids in non-decreasing `lastUsed` order. -/
theorem touch_on_use_mod (L : Lib) (hL : L.Ok) (c : GPUCache) (hc : Reachable L c)
    (S : List Int) (buf ev : Nat) (r : GetAnyResult) (hr : getAny L c S buf ev = some r) :
    r.cache.lastUsed.getD r.cacheIndex 0 = 0 ∧
    (∀ j, j < c.capacity → j ≠ r.cacheIndex →
      r.cache.lastUsed.getD j 0 = (c.lastUsed.getD j 0 + 1) % UINT_RANGE) ∧
    r.cache.order.Perm (List.range c.capacity) ∧
    r.cache.order.Pairwise
      (fun a b => r.cache.lastUsed.getD a 0 ≤ r.cache.lastUsed.getD b 0) := by
  have hi := hc.inv hL
  have hi' := inv_getAny hL hi hr
  have key : ∀ c0 : GPUCache, c0.lastUsed = c.lastUsed → c0.capacity = c.capacity →
      touch L c0 r.cacheIndex = some r.cache →
      r.cache.lastUsed.getD r.cacheIndex 0 = 0 ∧
      (∀ j, j < c.capacity → j ≠ r.cacheIndex →
        r.cache.lastUsed.getD j 0 = (c.lastUsed.getD j 0 + 1) % UINT_RANGE) ∧
      r.cache.capacity = c.capacity := by
    intro c0 hlu hcap ht
    have hf := touch_fields ht
    rw [hlu] at hf
    refine ⟨?_, ?_, hf.2.2.2.2.2.2.2.trans hcap⟩
    · rw [hf.2.1]
      exact getD_set_self (by simpa using hf.1) 0 0
    · intro j hj hne
      rw [hf.2.1, getD_set_ne (Ne.symm hne)]
      exact getD_map_succ (by rw [hi.lastUsed_length]; exact hj)
  have hk : r.cache.lastUsed.getD r.cacheIndex 0 = 0 ∧
      (∀ j, j < c.capacity → j ≠ r.cacheIndex →
        r.cache.lastUsed.getD j 0 = (c.lastUsed.getD j 0 + 1) % UINT_RANGE) ∧
      r.cache.capacity = c.capacity := by
    rcases getAny_cases hr with ⟨_, _, _, ht⟩ | ⟨_, _, _, _, _, ht⟩
    · exact key c rfl rfl ht
    · exact key (rebind c r.index r.cacheIndex ev buf) rfl rfl ht
  refine ⟨hk.1, hk.2.1, ?_, hi'.order_sorted⟩
  rw [← hk.2.2]
  exact hi'.order_perm

theorem getAny_aged (n : Nat) (h : n + 1 < UINT_RANGE) :
    getAny stdLib (aged n) [5] 7 7 = some ⟨5, 1, true, some ⟨1, 7, 7⟩, aged (n + 1)⟩ := by
  have h1 : (n + 1) % UINT_RANGE = n + 1 := Nat.mod_eq_of_lt h
  have h2 : (0 + 1) % UINT_RANGE = 1 := by decide
  simp [getAny, stdLib, findCommonFirst, aged, demo1, demo0, touch, enqueuCopy,
    insertionSortBy, insertSorted, h1, h2]

theorem reachable_aged (n : Nat) (h : n + 1 < UINT_RANGE) : Reachable stdLib (aged (n + 1)) := by
  induction n with
  | zero => exact reachable_demo1
  | succ k ih =>
    have hk : k + 1 < UINT_RANGE := by omega
    exact Reachable.getAny (ih hk) (List.cons_ne_nil 5 []) (getAny_aged (k + 1) h)

/-- C8, the failing input: on a new two-slot cache, `getAny({5, 6, 7}, 1, 1)` followed
by `2^32 - 2` calls `getAny({5}, 7, 7)` leads to the state `aged 4294967295`, in which
`lastUsed[0]` is `2^32 - 1`.  The next `getAny({5}, 7, 7)` uses slot 1 and leaves
`lastUsed[0] = 0`, not `2^32`. -/
theorem lastUsed_wraps :
    Reachable stdLib (aged 4294967295) ∧
    (aged 4294967295).lastUsed.getD 0 0 = 4294967295 ∧
    getAny stdLib (aged 4294967295) [5] 7 7 = some ⟨5, 1, true, some ⟨1, 7, 7⟩, aged 0⟩ ∧
    (aged 0).lastUsed.getD 0 0 = 0 ∧
    (aged 0).lastUsed.getD 0 0 ≠ (aged 4294967295).lastUsed.getD 0 0 + 1 :=
  ⟨reachable_aged 4294967294 (by decide), rfl, by decide, rfl, by decide⟩

/-! ## First-in first-out service of load requests (C9) -/

/-- C9: in every reachable state the requests the loader has dequeued are, in the same
order, the first of the requests `getAny` has enqueued: the `k`-th request dequeued is
the `k`-th request enqueued, and the request the loader dequeues next is the next one
in the order of enqueuing.  (`getAny` enqueues at the back, exactly on a miss; the
loader dequeues at the front.) -/
theorem fifo_service (L : Lib) (hL : L.Ok) (c : GPUCache) (hc : Reachable L c) :
    c.issued = c.served ++ c.queue ∧
    (∀ (k : Nat) (q : Request), c.served[k]? = some q → c.issued[k]? = some q) ∧
    (∀ l c', loaderThreadFunction c = some (l, c') →
      c.issued[c.served.length]? = some l.request ∧
      c.queue = l.request :: c'.queue ∧
      c'.served = c.served ++ [l.request] ∧ c'.issued = c.issued) ∧
    (∀ S buf ev r, getAny L c S buf ev = some r →
      r.cache.served = c.served ∧
      (r.hit = true → r.cache.issued = c.issued ∧ r.cache.queue = c.queue) ∧
      (r.hit = false →
        r.cache.issued = c.issued ++ [⟨r.index, r.cacheIndex, ev, buf⟩] ∧
        r.cache.queue = c.queue ++ [⟨r.index, r.cacheIndex, ev, buf⟩])) := by
  have hi := hc.inv hL
  refine ⟨hi.history, ?_, ?_, ?_⟩
  · intro k q hk
    rw [hi.history]
    have hlt : k < c.served.length := by
      by_contra hge
      rw [List.getElem?_eq_none (Nat.le_of_not_lt hge)] at hk
      cases hk
    rw [List.getElem?_append_left hlt]
    exact hk
  · intro l c' hl
    unfold loaderThreadFunction at hl
    split at hl
    · cases hl
    · next q rest hq =>
      cases hl
      refine ⟨?_, hq, rfl, rfl⟩
      rw [hi.history, hq, List.getElem?_append_right (Nat.le_refl _), Nat.sub_self]
      simp
  · intro S buf ev r hr
    rcases getAny_cases hr with ⟨_, hhit, _, ht⟩ | ⟨_, hmiss, _, _, _, ht⟩
    · have hf := touch_fields ht
      refine ⟨hf.2.2.2.2.2.2.1, fun _ => ⟨hf.2.2.2.2.2.1, hf.2.2.2.2.1⟩, ?_⟩
      intro h
      rw [hhit] at h
      cases h
    · have hf := touch_fields ht
      refine ⟨hf.2.2.2.2.2.2.1, ?_, fun _ => ⟨hf.2.2.2.2.2.1, hf.2.2.2.2.1⟩⟩
      intro h
      rw [hmiss] at h
      cases h

theorem fifo_service_witness :
    stdLib.Ok ∧ Reachable stdLib solo2 ∧
    solo2.issued = solo2.served ++ solo2.queue ∧
    (∀ (k : Nat) (q : Request), solo2.served[k]? = some q → solo2.issued[k]? = some q) ∧
    (∀ l c', loaderThreadFunction solo2 = some (l, c') →
      solo2.issued[solo2.served.length]? = some l.request ∧
      solo2.queue = l.request :: c'.queue ∧
      c'.served = solo2.served ++ [l.request] ∧ c'.issued = solo2.issued) ∧
    (∀ S buf ev r, getAny stdLib solo2 S buf ev = some r →
      r.cache.served = solo2.served ∧
      (r.hit = true → r.cache.issued = solo2.issued ∧ r.cache.queue = solo2.queue) ∧
      (r.hit = false →
        r.cache.issued = solo2.issued ++ [⟨r.index, r.cacheIndex, ev, buf⟩] ∧
        r.cache.queue = solo2.queue ++ [⟨r.index, r.cacheIndex, ev, buf⟩])) :=
  ⟨stdLib_ok, reachable_solo2, fifo_service stdLib stdLib_ok solo2 reachable_solo2⟩

/-! ## The sample range of a block (C10) -/

/-- The values the loader computes fit in 64 bits when the operands are 32-bit
quantities with `blockSize` and `offset` below `2^31`. -/
theorem read_range_fits (k delay : Int) (blockSize offset : Nat)
    (hk : -2 ^ 31 ≤ k ∧ k < 2 ^ 31) (hd : -2 ^ 31 ≤ delay ∧ delay < 2 ^ 31)
    (hb : blockSize < 2 ^ 31) (ho : offset < 2 ^ 31) :
    -2 ^ 63 ≤ (dataFileCacheFillerRange blockSize offset delay k).1 ∧
    (dataFileCacheFillerRange blockSize offset delay k).2 < 2 ^ 63 := by
  have hb' : (blockSize : Int) < 2 ^ 31 := by exact_mod_cast hb
  have ho' : (offset : Int) < 2 ^ 31 := by exact_mod_cast ho
  have hb0 : (0 : Int) ≤ blockSize := Int.natCast_nonneg _
  have ho0 : (0 : Int) ≤ offset := Int.natCast_nonneg _
  simp only [dataFileCacheFillerRange, blockIndexToSampleRange]
  constructor
  · nlinarith [mul_nonneg (by linarith : (0 : Int) ≤ k + 2 ^ 31) hb0,
      mul_nonneg (by linarith : (0 : Int) ≤ k + 2 ^ 31) (by linarith : (0 : Int) ≤ 2 ^ 31 - blockSize)]
  · nlinarith [mul_nonneg (by linarith : (0 : Int) ≤ 2 ^ 31 - (k + 1)) hb0,
      mul_nonneg (by linarith : (0 : Int) ≤ 2 ^ 31 - (k + 1)) (by linarith : (0 : Int) ≤ 2 ^ 31 - blockSize)]

/-- C10: for every block index `k`, negative ones included, the loader thread calls
`readData` with first sample `k*blockSize - offset + delay` and inclusive last sample
`k*blockSize + blockSize - 1 + delay`, that is, it reads the half-open range
`[k*blockSize - offset + delay, k*blockSize + blockSize + delay)`; the host-tier filler
of `SignalProcessor` passes the same two values. -/
theorem block_to_sample_range (c : GPUCache) (q : Request) (rest : List Request)
    (hq : c.queue = q :: rest) (k : Int) (blockSize offset : Nat) (delay : Int) :
    (∃ l c', loaderThreadFunction c = some (l, c') ∧ l.request = q ∧
      l.readFrom = q.index * c.blockSize - c.offset + c.delay ∧
      l.readTo = q.index * c.blockSize + c.blockSize - 1 + c.delay ∧
      l.readTo + 1 = q.index * c.blockSize + c.blockSize + c.delay) ∧
    dataFileCacheFillerRange blockSize offset delay k =
      (k * blockSize - offset + delay, k * blockSize + blockSize - 1 + delay) := by
  constructor
  · refine ⟨_, _, by rw [loaderThreadFunction, hq], rfl, ?_, ?_, ?_⟩
    · simp [blockIndexToSampleRange]
    · simp only [blockIndexToSampleRange]; ring
    · simp only [blockIndexToSampleRange]; ring
  · simp only [dataFileCacheFillerRange, blockIndexToSampleRange, Prod.mk.injEq]
    exact ⟨trivial, by ring⟩

theorem block_to_sample_range_witness :
    Reachable stdLib soloNeg ∧ soloNeg.queue = [⟨-3, 0, 1, 1⟩] ∧
    (∃ l c', loaderThreadFunction soloNeg = some (l, c') ∧ l.request = ⟨-3, 0, 1, 1⟩ ∧
      l.readFrom = (⟨-3, 0, 1, 1⟩ : Request).index * soloNeg.blockSize - soloNeg.offset
        + soloNeg.delay ∧
      l.readTo = (⟨-3, 0, 1, 1⟩ : Request).index * soloNeg.blockSize + soloNeg.blockSize - 1
        + soloNeg.delay ∧
      l.readTo + 1 = (⟨-3, 0, 1, 1⟩ : Request).index * soloNeg.blockSize + soloNeg.blockSize
        + soloNeg.delay) ∧
    dataFileCacheFillerRange 256 64 31 (-3) =
      ((-3 : Int) * (256 : Nat) - (64 : Nat) + 31,
        (-3 : Int) * (256 : Nat) + (256 : Nat) - 1 + 31) :=
  ⟨reachable_soloNeg, rfl, block_to_sample_range soloNeg ⟨-3, 0, 1, 1⟩ [] rfl (-3) 256 64 31⟩

/-! ## The constructor of `SignalProcessor` -/

theorem wrap32_of_lt {n : Nat} (h : n < UINT_RANGE) : wrap32 n = n :=
  Nat.mod_eq_of_lt h

theorem wrap32_mod_four (n : Nat) : wrap32 n % 4 = n % 4 := by
  unfold wrap32 UINT_RANGE
  omega

theorem hostBlockLength_of_lt {blockSize offset channelCount : Nat}
    (hsum : blockSize + offset < UINT_RANGE)
    (hsize : (blockSize + offset) * channelCount < UINT_RANGE) :
    hostBlockLength blockSize offset channelCount = (blockSize + offset) * channelCount := by
  unfold hostBlockLength
  rw [wrap32_of_lt hsum, wrap32_of_lt hsize]

/-- What a successful construction establishes. -/
theorem construct_ok {file : DataFile} {memory : Nat} {options : ProgramOptions}
    {sp : SignalProcessor}
    (h : SignalProcessor.construct file memory options = some (.ok sp)) :
    sp.M = wrap32 file.samplingFrequency ∧ sp.offset = sp.M ∧
    sp.blockSize = sub32 options.blockSize sp.M ∧
    sp.dataFileGpuCacheBlockSize = hostBlockLength sp.blockSize sp.offset file.channelCount ∧
    sp.dataFileCache = List.replicate
      (wrap32 (2 * memory) / sp.dataFileGpuCacheBlockSize / 4) sp.dataFileGpuCacheBlockSize ∧
    sp.gpuCache = List.replicate
      (wrap32 memory / sp.dataFileGpuCacheBlockSize / 4) (sp.dataFileGpuCacheBlockSize * 4) ∧
    wrap32 (2 * memory) / sp.dataFileGpuCacheBlockSize / 4 ≠ 0 ∧
    wrap32 memory / sp.dataFileGpuCacheBlockSize / 4 ≠ 0 ∧
    sp.processorCacheQueues = wrap32 options.processorQueues ∧
    sp.processorCacheCLBuffers.length = wrap32 options.processorQueues := by
  unfold SignalProcessor.construct at h
  simp only at h
  split at h
  · cases h
  · split at h
    · cases h
    · split at h
      · cases h
      · next h1 =>
        split at h
        · cases h
        · next h2 =>
          simp only [Option.some.injEq, Except.ok.injEq] at h
          subst h
          exact ⟨rfl, rfl, rfl, rfl, rfl, rfl, h1, h2, rfl, by simp⟩

/-! ## The length of the staging buffers (C11) -/

theorem fillerRange_count (blockSize offset : Nat) (delay k : Int) :
    (dataFileCacheFillerRange blockSize offset delay k).2 -
      (dataFileCacheFillerRange blockSize offset delay k).1 + 1 = blockSize + offset := by
  simp only [dataFileCacheFillerRange, blockIndexToSampleRange]
  ring

/-- C11, counterexample: a one-slot cache constructed with `blockSize = 4294966272` (the
`unsigned int` value of `1024 - 2048`), `offset = 2048` and 4 channels.  The sum
`blockSize + offset` wraps to 1024, so `tmpBuffer` has 4096 elements, while the loader
reads the samples -1025 .. 4294967294 of block 0, that is 4294968320 samples for each
of the 4 channels.  `SignalProcessor` reaches the same sizes from a file sampled at
2048 Hz and the option `blockSize = 1024`, which its validation accepts: its host
buffers have 4096 elements each. -/
theorem buffer_shorter_than_range :
    GPUCache.construct 4294966272 2048 1023 16448 demoFile = some (.ok wide0) ∧
    getAny stdLib wide0 [0] 1 1 = some ⟨0, 0, false, none, wide1⟩ ∧
    loaderThreadFunction wide1 =
      some (⟨⟨0, 0, 1, 1⟩, -1025, 4294967294, some ⟨0, 1, 1⟩⟩, wide2) ∧
    tmpBufferLength wide1 = some 4096 ∧
    (4294967294 - (-1025) + 1 : Int) = 4294968320 ∧
    (4096 : Int) < 4294968320 * 4 ∧
    ∃ sp, SignalProcessor.construct fastFile 32768 ⟨1024, 1⟩ = some (.ok sp) ∧
      sp.blockSize = 4294966272 ∧ sp.offset = 2048 ∧ sp.delay = 1023 ∧
      sp.dataFileCache = [4096, 4096, 4096, 4096] ∧
      dataFileCacheFillerRange sp.blockSize sp.offset sp.delay 0 = (-1025, 4294967294) :=
  ⟨rfl, by decide, by decide, by decide, by decide, by decide, _, rfl, rfl, rfl, rfl,
    by decide, by decide⟩

/-- C11, amended: when `blockSize + offset` and `(blockSize + offset)*channelCount` are
computed without overflow (the sum below `2^32`; the product below `2^31` for the
`int size` of the loader and below `2^32` for `dataFileGpuCacheBlockSize`), then for
every block index the inclusive range passed to `readData` has `blockSize + offset`
samples per channel, and this count times the channel count is the length of
`tmpBuffer` in `GPUCache` and of every buffer of `dataFileCache` in `SignalProcessor`. -/
theorem buffer_matches_range (c : GPUCache) (q : Request) (rest : List Request)
    (hq : c.queue = q :: rest)
    (hsum : c.blockSize + c.offset < UINT_RANGE)
    (hsize : (c.blockSize + c.offset) * c.channelCount < 2 ^ 31)
    (file : DataFile) (memory : Nat) (options : ProgramOptions) (sp : SignalProcessor)
    (hsp : SignalProcessor.construct file memory options = some (.ok sp))
    (hsum' : sp.blockSize + sp.offset < UINT_RANGE)
    (hsize' : (sp.blockSize + sp.offset) * file.channelCount < UINT_RANGE) (k : Int) :
    (∃ l c' n, loaderThreadFunction c = some (l, c') ∧ l.request = q ∧
      l.readTo - l.readFrom + 1 = c.blockSize + c.offset ∧
      tmpBufferLength c = some n ∧
      (l.readTo - l.readFrom + 1) * c.channelCount = n) ∧
    ((dataFileCacheFillerRange sp.blockSize sp.offset sp.delay k).2 -
        (dataFileCacheFillerRange sp.blockSize sp.offset sp.delay k).1 + 1 =
      sp.blockSize + sp.offset ∧
     sp.dataFileCache ≠ [] ∧
     ∀ b ∈ sp.dataFileCache,
      ((dataFileCacheFillerRange sp.blockSize sp.offset sp.delay k).2 -
        (dataFileCacheFillerRange sp.blockSize sp.offset sp.delay k).1 + 1) *
        file.channelCount = b) := by
  constructor
  · have hlen : hostBlockLength c.blockSize c.offset c.channelCount =
        (c.blockSize + c.offset) * c.channelCount :=
      hostBlockLength_of_lt hsum (lt_trans hsize (by decide))
    have hcount : (blockIndexToSampleRange q.index c.blockSize).2 + c.delay -
        ((blockIndexToSampleRange q.index c.blockSize).1 - c.offset + c.delay) + 1 =
        c.blockSize + c.offset := by
      simp only [blockIndexToSampleRange]; ring
    refine ⟨_, _, (c.blockSize + c.offset) * c.channelCount, by rw [loaderThreadFunction, hq],
      rfl, hcount, ?_, ?_⟩
    · unfold tmpBufferLength
      simp only [hlen, if_pos hsize]
    · simp only [hcount]
      push_cast
      ring
  · have h := construct_ok hsp
    have hlen : sp.dataFileGpuCacheBlockSize = (sp.blockSize + sp.offset) * file.channelCount := by
      rw [h.2.2.2.1]
      exact hostBlockLength_of_lt hsum' hsize'
    refine ⟨fillerRange_count _ _ _ _, ?_, ?_⟩
    · rw [h.2.2.2.2.1]
      intro hnil
      exact h.2.2.2.2.2.2.1 (by simpa using congrArg List.length hnil)
    · intro b hb
      rw [h.2.2.2.2.1] at hb
      rw [(List.mem_replicate.1 hb).2, fillerRange_count, hlen]
      push_cast
      ring

theorem buffer_matches_range_witness :
    soloNeg.queue = [⟨-3, 0, 1, 1⟩] ∧
    soloNeg.blockSize + soloNeg.offset < UINT_RANGE ∧
    (soloNeg.blockSize + soloNeg.offset) * soloNeg.channelCount < 2 ^ 31 ∧
    (∃ sp, SignalProcessor.construct demoFile 20480 ⟨320, 3⟩ = some (.ok sp) ∧
      sp.blockSize + sp.offset < UINT_RANGE ∧
      (sp.blockSize + sp.offset) * demoFile.channelCount < UINT_RANGE ∧
      (∃ l c' n, loaderThreadFunction soloNeg = some (l, c') ∧
        l.request = ⟨-3, 0, 1, 1⟩ ∧
        l.readTo - l.readFrom + 1 = soloNeg.blockSize + soloNeg.offset ∧
        tmpBufferLength soloNeg = some n ∧
        (l.readTo - l.readFrom + 1) * soloNeg.channelCount = n) ∧
      ((dataFileCacheFillerRange sp.blockSize sp.offset sp.delay 7).2 -
          (dataFileCacheFillerRange sp.blockSize sp.offset sp.delay 7).1 + 1 =
        sp.blockSize + sp.offset ∧
       sp.dataFileCache ≠ [] ∧
       ∀ b ∈ sp.dataFileCache,
        ((dataFileCacheFillerRange sp.blockSize sp.offset sp.delay 7).2 -
          (dataFileCacheFillerRange sp.blockSize sp.offset sp.delay 7).1 + 1) *
          demoFile.channelCount = b)) :=
  ⟨rfl, by decide, by decide, _, rfl, by decide, by decide,
    buffer_matches_range soloNeg ⟨-3, 0, 1, 1⟩ [] rfl (by decide) (by decide)
      demoFile 20480 ⟨320, 3⟩ _ rfl (by decide) (by decide) 7⟩

/-! ## Zero padding of out-of-range samples (C12) -/

theorem readData_ok {file : DataFile} {first last : Int} (h : first ≤ last) :
    readData file first last = .ok ((List.range
      ((last - first + 1).toNat * file.channelCount)).map fun p =>
        sampleAt file (p / (last - first + 1).toNat)
          (first + (p % (last - first + 1).toNat : Nat))) := by
  unfold readData
  rw [if_neg (not_lt.2 h)]

theorem row_index {rowLen count j i : Nat} (hj : j < count) (hi : i < rowLen) :
    rowLen * j + i < rowLen * count ∧ (rowLen * j + i) / rowLen = j ∧
    (rowLen * j + i) % rowLen = i := by
  have hpos : 0 < rowLen := Nat.lt_of_le_of_lt (Nat.zero_le i) hi
  refine ⟨?_, ?_, ?_⟩
  · calc rowLen * j + i < rowLen * j + rowLen := Nat.add_lt_add_left hi _
      _ = rowLen * (j + 1) := by ring
      _ ≤ rowLen * count := Nat.mul_le_mul_left _ hj
  · rw [Nat.mul_add_div hpos, Nat.div_eq_of_lt hi, Nat.add_zero]
  · rw [Nat.mul_add_mod, Nat.mod_eq_of_lt hi]

/-- The element of the buffer at position `i` of the row of channel `j`. -/
theorem readData_get {file : DataFile} {first last : Int} (h : first ≤ last)
    {j i : Nat} (hj : j < file.channelCount) (hi : i < (last - first + 1).toNat) :
    ∃ buf, readData file first last = .ok buf ∧
      buf.length = (last - first + 1).toNat * file.channelCount ∧
      buf[(last - first + 1).toNat * j + i]? = some (sampleAt file j (first + i)) := by
  obtain ⟨h1, h2, h3⟩ := row_index hj hi
  refine ⟨_, readData_ok h, by simp, ?_⟩
  rw [List.getElem?_map, List.getElem?_range h1]
  simp only [Option.map_some', h2, h3]

/-- C12: for every read range `[first, last]` with `first ≤ last`, `readData` returns
one row of `last - first + 1` values per channel; every position of a row that
corresponds to a sample before sample 0 or after the last recorded sample holds 0, and
the positions inside the recording hold the values that a read of the in-range part
`[max first 0, min last (samplesRecorded - 1)]` returns at the corresponding
positions. -/
theorem zero_padding (file : DataFile) (first last : Int) (h : first ≤ last) :
    ∃ buf, readData file first last = .ok buf ∧
      buf.length = (last - first + 1).toNat * file.channelCount ∧
      (∀ j i : Nat, j < file.channelCount → i < (last - first + 1).toNat →
        first + i < 0 ∨ (file.samplesRecorded : Int) ≤ first + i →
        buf[(last - first + 1).toNat * j + i]? = some 0) ∧
      (max first 0 ≤ min last (file.samplesRecorded - 1) →
        ∃ part, readData file (max first 0) (min last (file.samplesRecorded - 1)) = .ok part ∧
          ∀ j i : Nat, j < file.channelCount →
            i < (min last (file.samplesRecorded - 1) - max first 0 + 1).toNat →
            buf[(last - first + 1).toNat * j + ((max first 0 - first).toNat + i)]? =
              part[(min last (file.samplesRecorded - 1) - max first 0 + 1).toNat * j + i]? ∧
            part[(min last (file.samplesRecorded - 1) - max first 0 + 1).toNat * j + i]? =
              some (file.data j (max first 0 + i).toNat)) := by
  refine ⟨_, readData_ok h, by simp, ?_, ?_⟩
  · intro j i hj hi hout
    obtain ⟨buf, hb, _, hget⟩ := readData_get h hj hi
    rw [readData_ok h] at hb
    cases hb
    rw [hget]
    unfold sampleAt
    rw [if_neg (by omega)]
  · intro hin
    refine ⟨_, readData_ok hin, ?_⟩
    intro j i hj hi
    have hi' : (max first 0 - first).toNat + i < (last - first + 1).toNat := by omega
    obtain ⟨buf, hb, _, hget⟩ := readData_get h hj hi'
    rw [readData_ok h] at hb
    cases hb
    obtain ⟨part, hp, _, hget'⟩ := readData_get hin hj hi
    rw [readData_ok hin] at hp
    cases hp
    rw [hget, hget']
    have he : first + (((max first 0 - first).toNat + i : Nat) : Int) = max first 0 + i := by
      omega
    rw [he]
    refine ⟨rfl, ?_⟩
    unfold sampleAt
    rw [if_pos (by omega)]

theorem zero_padding_witness :
    (-100 : Int) ≤ 99 ∧
    ∃ buf, readData demoFile (-100) 99 = .ok buf ∧
      buf.length = (99 - (-100) + 1 : Int).toNat * demoFile.channelCount ∧
      (∀ j i : Nat, j < demoFile.channelCount → i < (99 - (-100) + 1 : Int).toNat →
        (-100 : Int) + i < 0 ∨ (demoFile.samplesRecorded : Int) ≤ -100 + i →
        buf[(99 - (-100) + 1 : Int).toNat * j + i]? = some 0) ∧
      (max (-100 : Int) 0 ≤ min 99 (demoFile.samplesRecorded - 1) →
        ∃ part, readData demoFile (max (-100) 0) (min 99 (demoFile.samplesRecorded - 1))
            = .ok part ∧
          ∀ j i : Nat, j < demoFile.channelCount →
            i < (min (99 : Int) (demoFile.samplesRecorded - 1) - max (-100) 0 + 1).toNat →
            buf[(99 - (-100) + 1 : Int).toNat * j + ((max (-100 : Int) 0 - (-100)).toNat + i)]? =
              part[(min (99 : Int) (demoFile.samplesRecorded - 1) - max (-100) 0 + 1).toNat * j
                + i]? ∧
            part[(min (99 : Int) (demoFile.samplesRecorded - 1) - max (-100) 0 + 1).toNat * j
                + i]? = some (demoFile.data j (max (-100 : Int) 0 + i).toNat)) :=
  ⟨by decide, zero_padding demoFile (-100) 99 (by decide)⟩

/-! ## Validation of the configuration (C13) -/

theorem sub32_add_mod_four (a b : Nat) (hb : b < UINT_RANGE) :
    (sub32 a b + b) % 4 = a % 4 := by
  unfold sub32 wrap32 UINT_RANGE at *
  omega

/-- C13: the constructor of `SignalProcessor` throws the `runtime_error` of line 27
exactly when the filter length `M` (the sampling frequency) is not a multiple of 4 or
the block length `blockSize + offset` is not a multiple of 4; in particular the check
does not reject when both are multiples of 4.  The block length is `blockSize + offset`
with `blockSize` the member computed in line 19 and `offset = M`; its remainder modulo
4 is that of the option `blockSize`. -/
theorem configuration_validation (file : DataFile) (memory : Nat) (options : ProgramOptions) :
    (SignalProcessor.construct file memory options = some (.error sizeError) ↔
      wrap32 file.samplingFrequency % 4 ≠ 0 ∨
      (sub32 options.blockSize (wrap32 file.samplingFrequency) +
        wrap32 file.samplingFrequency) % 4 ≠ 0) ∧
    (sub32 options.blockSize (wrap32 file.samplingFrequency) +
        wrap32 file.samplingFrequency) % 4 = options.blockSize % 4 := by
  have hM : wrap32 file.samplingFrequency < UINT_RANGE := Nat.mod_lt _ (by decide)
  refine ⟨?_, sub32_add_mod_four _ _ hM⟩
  rw [← wrap32_mod_four (sub32 options.blockSize (wrap32 file.samplingFrequency) +
    wrap32 file.samplingFrequency)]
  unfold SignalProcessor.construct
  simp only
  constructor
  · intro h
    split at h
    · next hc => exact hc
    · split at h
      · cases h
      · split at h
        · simp only [Option.some.injEq, Except.error.injEq] at h
          exact absurd h (by decide)
        · split at h
          · cases h
          · simp at h
  · intro h
    rw [if_pos h]

/-! ## Capacity errors (C14) -/

/-- The host tier and the device tier of a constructed `SignalProcessor` have at least
one buffer each: a count of 0 makes the constructor throw (lines 42-45 and 59-62), and
the second of these exceptions ends the process. -/
theorem host_and_device_nonempty {file : DataFile} {memory : Nat} {options : ProgramOptions}
    {sp : SignalProcessor}
    (h : SignalProcessor.construct file memory options = some (.ok sp)) :
    0 < sp.dataFileCache.length ∧ 0 < sp.gpuCache.length := by
  have hk := construct_ok h
  rw [hk.2.2.2.2.1, hk.2.2.2.2.2.1]
  simp only [List.length_replicate]
  exact ⟨Nat.pos_of_ne_zero hk.2.2.2.2.2.2.1, Nat.pos_of_ne_zero hk.2.2.2.2.2.2.2.1⟩

/-- C14, the failing input: with the option `processorQueues = 0` (file of 4 channels
at 64 Hz, `memory = 20480`, option `blockSize = 320`) the constructor returns an
object with 8 host buffers, 4 device buffers and a processing tier without any slot. -/
theorem processing_tier_empty :
    ∃ sp, SignalProcessor.construct demoFile 20480 ⟨320, 0⟩ = some (.ok sp) ∧
      sp.dataFileCache.length = 8 ∧ sp.gpuCache.length = 4 ∧
      sp.processorCacheQueues = 0 ∧ sp.processorCacheCLBuffers = [] ∧
      sp.processorCacheGLBuffers = 0 ∧ sp.processorCacheVertexArrays = 0 :=
  ⟨_, rfl, rfl, rfl, rfl, rfl, rfl, rfl⟩

/-! ## The number of slots (C15) -/

theorem bytesPerBlock_of_lt {blockSize offset channelCount : Nat}
    (hpos : 0 < (blockSize + offset + 4) * channelCount * 4)
    (hlt : (blockSize + offset + 4) * channelCount * 4 < UINT_RANGE) :
    bytesPerBlock blockSize offset channelCount = (blockSize + offset + 4) * channelCount * 4 := by
  have hch : 0 < channelCount := by
    rcases Nat.eq_zero_or_pos channelCount with h | h
    · rw [h] at hpos; simp at hpos
    · exact h
  have h1 : blockSize + offset + 4 ≤ (blockSize + offset + 4) * channelCount :=
    Nat.le_mul_of_pos_right _ hch
  unfold UINT_RANGE at hlt
  unfold bytesPerBlock
  have e1 : wrap32 (blockSize + offset) = blockSize + offset :=
    wrap32_of_lt (by unfold UINT_RANGE; omega)
  have e2 : wrap32 (blockSize + offset + 4) = blockSize + offset + 4 :=
    wrap32_of_lt (by unfold UINT_RANGE; omega)
  have e3 : wrap32 ((blockSize + offset + 4) * channelCount) =
      (blockSize + offset + 4) * channelCount :=
    wrap32_of_lt (by unfold UINT_RANGE; omega)
  rw [e1, e2, e3]
  exact wrap32_of_lt (by unfold UINT_RANGE; omega)

/-- C15, counterexample: with `blockSize = 256`, `offset = 64` and 4 channels,
`bytesPerBlock` is 5184 (non-zero, no overflow).  For
`availableMemory = 5184 * 2^32` the quotient `2^32` is stored in `capacity` as 0 and the
constructor throws, although `availableMemory` is not less than `bytesPerBlock`. -/
theorem capacity_truncated :
    bytesPerBlock 256 64 demoFile.channelCount = 5184 ∧
    (256 + 64 + 4) * demoFile.channelCount * 4 = 5184 ∧
    (5184 : Int) ≤ 22265110462464 ∧ (22265110462464 : Int) / 5184 = 4294967296 ∧
    GPUCache.construct 256 64 31 22265110462464 demoFile =
      some (.error "Not enough memory for the gpu cache.") :=
  ⟨by decide, by decide, by decide, by decide, rfl⟩

/-- C15, amended: with `bytesPerBlock = (blockSize + offset + 4) * channelCount *
sizeof(float)` non-zero and below `2^32`, `availableMemory ≥ 0` and the quotient
`availableMemory / bytesPerBlock` below `2^32`, the constructor throws "Not enough
memory for the gpu cache." if and only if `availableMemory < bytesPerBlock`, and
otherwise creates exactly `capacity = availableMemory / bytesPerBlock` slots, so that
`capacity * bytesPerBlock ≤ availableMemory`. -/
theorem gpuCache_sizing (blockSize offset : Nat) (delay : Int) (file : DataFile)
    (availableMemory : Nat)
    (hpos : 0 < (blockSize + offset + 4) * file.channelCount * 4)
    (hlt : (blockSize + offset + 4) * file.channelCount * 4 < UINT_RANGE)
    (hq : availableMemory / ((blockSize + offset + 4) * file.channelCount * 4) < UINT_RANGE) :
    (GPUCache.construct blockSize offset delay availableMemory file =
        some (.error "Not enough memory for the gpu cache.") ↔
      availableMemory < (blockSize + offset + 4) * file.channelCount * 4) ∧
    ((blockSize + offset + 4) * file.channelCount * 4 ≤ availableMemory →
      ∃ c, GPUCache.construct blockSize offset delay availableMemory file = some (.ok c) ∧
        c.capacity = availableMemory / ((blockSize + offset + 4) * file.channelCount * 4) ∧
        c.lastUsed.length = c.capacity ∧ c.order.length = c.capacity ∧
        c.capacity * ((blockSize + offset + 4) * file.channelCount * 4) ≤ availableMemory) := by
  have hb := bytesPerBlock_of_lt hpos hlt
  have hcap : (Int.tdiv (availableMemory : Int)
      ((bytesPerBlock blockSize offset file.channelCount : Nat) : Int) %
      (UINT_RANGE : Int)).toNat =
      availableMemory / ((blockSize + offset + 4) * file.channelCount * 4) := by
    rw [hb, Int.tdiv_eq_ediv (Int.natCast_nonneg _) (Int.natCast_nonneg _),
      ← Int.natCast_div, ← Int.natCast_mod, Int.toNat_natCast, Nat.mod_eq_of_lt hq]
  have hcons : GPUCache.construct blockSize offset delay availableMemory file =
      some (GPUCache.create blockSize offset delay file.channelCount
        (availableMemory / ((blockSize + offset + 4) * file.channelCount * 4))) := by
    unfold GPUCache.construct
    simp only
    rw [if_neg (by rw [hb]; exact Nat.pos_iff_ne_zero.1 hpos), hcap]
  rw [hcons]
  unfold GPUCache.create
  constructor
  · constructor
    · intro h
      split at h
      · next h0 => exact (Nat.div_eq_zero_iff hpos).1 h0
      · simp at h
    · intro h
      rw [if_pos ((Nat.div_eq_zero_iff hpos).2 h)]
  · intro h
    have hne : availableMemory / ((blockSize + offset + 4) * file.channelCount * 4) ≠ 0 := by
      intro h0
      exact absurd ((Nat.div_eq_zero_iff hpos).1 h0) (not_lt.2 h)
    rw [if_neg hne]
    exact ⟨_, rfl, rfl, by simp, by simp, Nat.div_mul_le_self _ _⟩

theorem gpuCache_sizing_witness :
    0 < (256 + 64 + 4) * demoFile.channelCount * 4 ∧
    (256 + 64 + 4) * demoFile.channelCount * 4 < UINT_RANGE ∧
    12000 / ((256 + 64 + 4) * demoFile.channelCount * 4) < UINT_RANGE ∧
    (GPUCache.construct 256 64 31 (12000 : Nat) demoFile =
        some (.error "Not enough memory for the gpu cache.") ↔
      12000 < (256 + 64 + 4) * demoFile.channelCount * 4) ∧
    ((256 + 64 + 4) * demoFile.channelCount * 4 ≤ 12000 →
      ∃ c, GPUCache.construct 256 64 31 (12000 : Nat) demoFile = some (.ok c) ∧
        c.capacity = 12000 / ((256 + 64 + 4) * demoFile.channelCount * 4) ∧
        c.lastUsed.length = c.capacity ∧ c.order.length = c.capacity ∧
        c.capacity * ((256 + 64 + 4) * demoFile.channelCount * 4) ≤ 12000) :=
  ⟨by decide, by decide, by decide,
    gpuCache_sizing 256 64 31 demoFile 12000 (by decide) (by decide) (by decide)⟩

/-! ## The strides of the transfers (C16) -/

/-- C16, counterexample: a cache of 1024 channels with `blockSize + offset = 2^20`.
The product `(blockSize + offset + 4) * 1024 * 4` is `2^32 + 16384`, so a slot buffer
has `bytesPerBlock = 16384` bytes, while the row pitch is 4194320: sample 0 of channel
1 is addressed at the bytes 4194320 .. 4194323, outside the buffer. -/
theorem stride_outside_buffer :
    GPUCache.construct 1048512 64 31 16384 manyChannels = some (.ok big0) ∧
    bytesPerBlock big0.blockSize big0.offset big0.channelCount = 16384 ∧
    (loaderWriteRect big0).cachePitch = 4194320 ∧
    (enqueuCopyRect big0).cachePitch = 4194320 ∧
    1 < big0.channelCount ∧ 0 < big0.blockSize + big0.offset ∧
    ¬ (1 * (loaderWriteRect big0).cachePitch + 4 * 0 + 3 <
      bytesPerBlock big0.blockSize big0.offset big0.channelCount) :=
  ⟨rfl, by decide, by decide, by decide, by decide, by decide, by decide⟩

/-- C16, amended: when `blockSize + offset` and
`(blockSize + offset + 4) * channelCount * sizeof(float)` are below `2^32`, the row
pitch on the side of the cache, in the write of the loader and in `enqueuCopy`, is
`(blockSize + offset + 4) * sizeof(float)`, each row transferred has
`(blockSize + offset) * sizeof(float)` bytes, and for every channel `ch < channelCount`
and sample position `i < blockSize + offset` the bytes `ch*pitch + 4*i` ..
`ch*pitch + 4*i + 3` lie within the `bytesPerBlock` bytes of a buffer. -/
theorem strides_inside_buffer (c : GPUCache)
    (hsum : c.blockSize + c.offset < UINT_RANGE)
    (hlt : (c.blockSize + c.offset + 4) * c.channelCount * 4 < UINT_RANGE) :
    (loaderWriteRect c).cachePitch = (c.blockSize + c.offset + 4) * 4 ∧
    (enqueuCopyRect c).cachePitch = (c.blockSize + c.offset + 4) * 4 ∧
    (loaderWriteRect c).rowBytes = (c.blockSize + c.offset) * 4 ∧
    (enqueuCopyRect c).rowBytes = (c.blockSize + c.offset) * 4 ∧
    ∀ ch i, ch < c.channelCount → i < c.blockSize + c.offset →
      4 * i + 3 < (loaderWriteRect c).rowBytes ∧
      ch * (loaderWriteRect c).cachePitch + 4 * i + 3 <
        bytesPerBlock c.blockSize c.offset c.channelCount := by
  have hrow : rowLen c = (c.blockSize + c.offset) * 4 := by
    unfold rowLen
    rw [wrap32_of_lt hsum]
  have hpitch : rowLen c + 4 * 4 = (c.blockSize + c.offset + 4) * 4 := by
    rw [hrow]; ring
  refine ⟨hpitch, hpitch, hrow, hrow, ?_⟩
  intro ch i hch hi
  have hpos : 0 < (c.blockSize + c.offset + 4) * c.channelCount * 4 :=
    Nat.mul_pos (Nat.mul_pos (by omega) (by omega)) (by decide)
  rw [bytesPerBlock_of_lt hpos hlt]
  show 4 * i + 3 < rowLen c ∧ ch * (rowLen c + 4 * 4) + 4 * i + 3 < _
  rw [hpitch, hrow]
  refine ⟨by omega, ?_⟩
  have h1 : (ch + 1) * ((c.blockSize + c.offset + 4) * 4) ≤
      c.channelCount * ((c.blockSize + c.offset + 4) * 4) :=
    Nat.mul_le_mul_right _ hch
  have h2 : (ch + 1) * ((c.blockSize + c.offset + 4) * 4) =
      ch * ((c.blockSize + c.offset + 4) * 4) + (c.blockSize + c.offset + 4) * 4 := by ring
  have h3 : c.channelCount * ((c.blockSize + c.offset + 4) * 4) =
      (c.blockSize + c.offset + 4) * c.channelCount * 4 := by ring
  omega

theorem strides_inside_buffer_witness :
    demo2.blockSize + demo2.offset < UINT_RANGE ∧
    (demo2.blockSize + demo2.offset + 4) * demo2.channelCount * 4 < UINT_RANGE ∧
    (loaderWriteRect demo2).cachePitch = (demo2.blockSize + demo2.offset + 4) * 4 ∧
    (enqueuCopyRect demo2).cachePitch = (demo2.blockSize + demo2.offset + 4) * 4 ∧
    (loaderWriteRect demo2).rowBytes = (demo2.blockSize + demo2.offset) * 4 ∧
    (enqueuCopyRect demo2).rowBytes = (demo2.blockSize + demo2.offset) * 4 ∧
    ∀ ch i, ch < demo2.channelCount → i < demo2.blockSize + demo2.offset →
      4 * i + 3 < (loaderWriteRect demo2).rowBytes ∧
      ch * (loaderWriteRect demo2).cachePitch + 4 * i + 3 <
        bytesPerBlock demo2.blockSize demo2.offset demo2.channelCount :=
  ⟨by decide, by decide, strides_inside_buffer demo2 (by decide) (by decide)⟩

/-! ## The order of teardown (C17) -/

theorem filterMap_const {α β γ : Type} (f : β → Option γ) (b : β) (c : γ) (h : f b = some c)
    (l : List α) : (l.map (fun _ => b)).filterMap f = List.replicate l.length c := by
  induction l with
  | nil => rfl
  | cons a l ih => simp [List.filterMap_cons, h, ih, List.replicate_succ]

theorem filterMap_replicate_none {β γ : Type} (f : β → Option γ) (b : β) (h : f b = none)
    (n : Nat) : (List.replicate n b).filterMap f = [] := by
  induction n with
  | zero => rfl
  | succ n ih => simp [List.replicate_succ, List.filterMap_cons, h, ih]

/-- C17, counterexample: for the object constructed from a file of 4 channels at 64 Hz
with `memory = 5120` and the options `blockSize = 320`, `processorQueues = 1`, the
destructor releases the two host buffers first, then the device buffer, then the
buffers of the processing tier. -/
theorem teardown_host_first :
    ∃ sp, SignalProcessor.construct demoFile 5120 ⟨320, 1⟩ = some (.ok sp) ∧
      sp.destroy.filterMap releasedTier =
        [.host, .host, .device, .processing, .processing] ∧
      sp.destroy.take 4 = [.stopThreads, .notifyAll, .notifyAll, .joinThreads] :=
  ⟨_, rfl, by decide, by decide⟩

/-- C17, amended: the destructor releases no buffer before the worker threads are
joined, and afterwards releases the buffers tier by tier in the order of their
creation: the host-tier buffers (`dataFileCache`) first, then the device-tier buffers
(`gpuCache`), then the buffers of the processing tier (`processorCacheCLBuffers`, then
the OpenGL buffers). -/
theorem teardown_order (sp : SignalProcessor) :
    ∃ before after, sp.destroy = before ++ .joinThreads :: after ∧
      before.filterMap releasedTier = [] ∧
      after.filterMap releasedTier =
        List.replicate sp.dataFileCache.length .host ++
        List.replicate sp.gpuCache.length .device ++
        List.replicate sp.processorCacheCLBuffers.length .processing ++ [.processing] := by
  refine ⟨[.stopThreads, .notifyAll, .notifyAll],
    [.deleteContext, .deleteLogic .host, .deleteLogic .device, .deleteLogic .processing,
      .releaseQueue .device]
    ++ List.replicate sp.processorCacheQueues (.releaseQueue .processing)
    ++ sp.dataFileCache.map (fun _ => .releaseBuffer .host)
    ++ sp.gpuCache.map (fun _ => .releaseBuffer .device)
    ++ sp.processorCacheCLBuffers.map (fun _ => .releaseBuffer .processing)
    ++ [.deleteGLBuffers, .deleteVertexArrays], ?_, rfl, ?_⟩
  · simp [SignalProcessor.destroy]
  · simp only [List.filterMap_append]
    rw [filterMap_replicate_none releasedTier (.releaseQueue .processing) rfl,
      filterMap_const releasedTier (.releaseBuffer .host) .host rfl,
      filterMap_const releasedTier (.releaseBuffer .device) .device rfl,
      filterMap_const releasedTier (.releaseBuffer .processing) .processing rfl]
    simp [List.filterMap_cons, releasedTier]

/-! ## Runs of the worker loops -/

theorem nestedLocks_append (held : List Tier) (xs ys : List Step) :
    nestedLocks held (xs ++ ys) =
      nestedLocks held xs ++ nestedLocks (xs.foldl heldAfter held) ys := by
  induction xs generalizing held with
  | nil => simp [nestedLocks]
  | cons x xs ih =>
    cases x <;> simp [nestedLocks, heldAfter, ih, List.append_assoc]

theorem heldAtReadData_append (held : List Tier) (xs ys : List Step) :
    heldAtReadData held (xs ++ ys) =
      heldAtReadData held xs ++ heldAtReadData (xs.foldl heldAfter held) ys := by
  induction xs generalizing held with
  | nil => simp [heldAtReadData]
  | cons x xs ih =>
    cases x with
    | op o => cases o <;> simp [heldAtReadData, heldAfter, ih]
    | lock m => simp [heldAtReadData, heldAfter, ih]
    | unlock m => simp [heldAtReadData, heldAfter, ih]
    | wait m => simp [heldAtReadData, heldAfter, ih]

/-- Two runs one after the other, neither of which acquires a mutex while another is
held. -/
theorem nested_seq {h1 h2 h3 : List Tier} {xs ys : List Step}
    (hx : nestedLocks h1 xs = [] ∧ xs.foldl heldAfter h1 = h2)
    (hy : nestedLocks h2 ys = [] ∧ ys.foldl heldAfter h2 = h3) :
    nestedLocks h1 (xs ++ ys) = [] ∧ (xs ++ ys).foldl heldAfter h1 = h3 := by
  rw [nestedLocks_append, List.foldl_append, hx.1, hx.2, hy.1, hy.2]
  exact ⟨rfl, rfl⟩

theorem nested_flatMap {α : Type} (held : List Tier) (f : α → List Step)
    (h : ∀ a, nestedLocks held (f a) = [] ∧ (f a).foldl heldAfter held = held)
    (l : List α) :
    nestedLocks held (l.flatMap f) = [] ∧ (l.flatMap f).foldl heldAfter held = held := by
  induction l with
  | nil => exact ⟨rfl, rfl⟩
  | cons a l ih =>
    rw [List.flatMap_cons]
    exact nested_seq (h a) ih

theorem nested_replicate (held : List Tier) (block : List Step)
    (h : nestedLocks held block = [] ∧ block.foldl heldAfter held = held) (n : Nat) :
    nestedLocks held (List.replicate n block).flatten = [] ∧
    (List.replicate n block).flatten.foldl heldAfter held = held := by
  induction n with
  | zero => exact ⟨rfl, rfl⟩
  | succ n ih =>
    rw [List.replicate_succ, List.flatten_cons]
    exact nested_seq h ih

theorem dataFileCacheFillerIteration_nested (notEmpty : Bool) :
    nestedLocks [Tier.host] (dataFileCacheFillerIteration notEmpty) = [] ∧
    (dataFileCacheFillerIteration notEmpty).foldl heldAfter [Tier.host] = [Tier.host] := by
  cases notEmpty <;> decide

theorem dataFileCacheFiller_nested (fills : List Bool) :
    nestedLocks [] (dataFileCacheFiller fills) = [] :=
  (@nested_seq [] [Tier.host] [] _ _
    (@nested_seq [] [Tier.host] [Tier.host] _ _ (by decide)
      (nested_flatMap [Tier.host] _ dataFileCacheFillerIteration_nested fills))
    (by decide)).1

theorem gpuCacheFillerIteration_nested (it : Option Nat) :
    nestedLocks [Tier.device] (gpuCacheFillerIteration it) = [] ∧
    (gpuCacheFillerIteration it).foldl heldAfter [Tier.device] = [Tier.device] := by
  cases it with
  | none => decide
  | some n =>
    exact @nested_seq [Tier.device] [Tier.host] [Tier.device] _ _
      (@nested_seq [Tier.device] [Tier.host] [Tier.host] _ _ (by decide)
        (nested_replicate [Tier.host] _ (by decide) n))
      (by decide)

theorem gpuCacheFiller_nested (iterations : List (Option Nat)) :
    nestedLocks [] (gpuCacheFiller iterations) = [] :=
  (@nested_seq [] [Tier.device] [] _ _
    (@nested_seq [] [Tier.device] [Tier.device] _ _ (by decide)
      (nested_flatMap [Tier.device] _ gpuCacheFillerIteration_nested iterations))
    (by decide)).1

theorem getAnyBlockFill_nested (n : Nat) :
    nestedLocks [Tier.processing] (getAnyBlockFill n) = [] ∧
    (getAnyBlockFill n).foldl heldAfter [Tier.processing] = [Tier.processing] :=
  @nested_seq [Tier.processing] [Tier.device] [Tier.processing] _ _
    (@nested_seq [Tier.processing] [Tier.device] [Tier.device] _ _ (by decide)
      (nested_replicate [Tier.device] _ (by decide) n))
    (by decide)

theorem getAnyBlock_nested (fills : List Nat) (waits : Nat) :
    nestedLocks [] (getAnyBlock fills waits) = [] :=
  (@nested_seq [] [Tier.processing] [] _ _
    (@nested_seq [] [Tier.processing] [Tier.processing] _ _
      (@nested_seq [] [Tier.processing] [Tier.processing] _ _
        (@nested_seq [] [Tier.processing] [Tier.processing] _ _ (by decide)
          (nested_flatMap [Tier.processing] _ getAnyBlockFill_nested fills))
        (by decide))
      (nested_replicate [Tier.processing] _ (by decide) waits))
    (by decide)).1

/-! ## The order of locking (C18) -/

/-- C18, counterexample: the callback of a device fill (tuple of line 289) locks the
device mutex and then, holding it, the host mutex; the callback of a processing fill
(tuple of line 202) locks the processing mutex and then the device mutex.  Neither is
the order host before device, device before processing. -/
theorem callback_locks_own_tier_first :
    cacheCallback gpuCacheFillerData =
      [.lock .device, .lock .host, .op (.release .host), .op (.release .device),
        .op .notify, .op .releaseEvent, .unlock .host, .unlock .device] ∧
    nestedLocks [] (cacheCallback gpuCacheFillerData) = [(.device, .host)] ∧
    cacheCallback getAnyBlockData =
      [.lock .processing, .lock .device, .op (.release .processing), .op (.release .device),
        .op .notify, .op .releaseEvent, .unlock .device, .unlock .processing] ∧
    nestedLocks [] (cacheCallback getAnyBlockData) = [(.processing, .device)] := by
  decide

/-- C18, amended: of the code paths of `SignalProcessor` in the available sources, only
`cacheCallback` holds two tier mutexes at the same time (the two workers and
`getAnyBlock` never acquire a mutex while they hold another), and in both of its
contexts it acquires them in the one fixed order processing before device, device
before host. -/
theorem lock_order (fills : List Bool) (iterations : List (Option Nat))
    (blockFills : List Nat) (waits : Nat) :
    nestedLocks [] (dataFileCacheFiller fills) = [] ∧
    nestedLocks [] (gpuCacheFiller iterations) = [] ∧
    nestedLocks [] (getAnyBlock blockFills waits) = [] ∧
    ∀ path ∈ [cacheCallback gpuCacheFillerData, cacheCallback getAnyBlockData,
        dataFileCacheFiller fills, gpuCacheFiller iterations, getAnyBlock blockFills waits],
      ∀ pair ∈ nestedLocks [] path, lockRank pair.1 < lockRank pair.2 := by
  refine ⟨dataFileCacheFiller_nested fills, gpuCacheFiller_nested iterations,
    getAnyBlock_nested blockFills waits, ?_⟩
  intro path hpath pair hpair
  simp only [List.mem_cons, List.mem_singleton, List.not_mem_nil, or_false] at hpath
  rcases hpath with h | h | h | h | h
  · subst h
    have : pair = (.device, .host) := by simpa using (show pair ∈ [(Tier.device, Tier.host)] from hpair)
    subst this
    decide
  · subst h
    have : pair = (.processing, .device) := by
      simpa using (show pair ∈ [(Tier.processing, Tier.device)] from hpair)
    subst this
    decide
  · subst h
    rw [dataFileCacheFiller_nested] at hpair
    cases hpair
  · subst h
    rw [gpuCacheFiller_nested] at hpair
    cases hpair
  · subst h
    rw [getAnyBlock_nested] at hpair
    cases hpair

/-! ## The host mutex during `readData` (C19) -/

/-- In every run of `dataFileCacheFiller` each call of `readData` is made while the
host mutex is held. -/
theorem readData_holds_host (fills : List Bool) :
    ∀ held ∈ heldAtReadData [] (dataFileCacheFiller fills), held = [Tier.host] := by
  have hit : ∀ b : Bool,
      (∀ held ∈ heldAtReadData [Tier.host] (dataFileCacheFillerIteration b),
        held = [Tier.host]) := by
    intro b; cases b <;> decide
  have hall : ∀ l : List Bool,
      ∀ held ∈ heldAtReadData [Tier.host] (l.flatMap dataFileCacheFillerIteration),
        held = [Tier.host] := by
    intro l
    induction l with
    | nil => intro held h; cases h
    | cons b l ih =>
      intro held h
      rw [List.flatMap_cons, heldAtReadData_append,
        (dataFileCacheFillerIteration_nested b).2] at h
      rcases List.mem_append.1 h with h | h
      · exact hit b held h
      · exact ih held h
  intro held h
  unfold dataFileCacheFiller at h
  rw [heldAtReadData_append, heldAtReadData_append] at h
  rcases List.mem_append.1 h with h | h
  · rcases List.mem_append.1 h with h | h
    · cases h
    · exact hall fills held h
  · simp [heldAtReadData] at h

/-- C19, the failing input: a run of `dataFileCacheFiller` in which `fill` returns a
request once.  The worker locks the host mutex, calls `fill`, `getBlockBoundaries` and
`readData` and only unlocks when it returns: `readData` is called with the host mutex
held.  The device worker, in the same situation, unlocks its mutex before it waits for
the host tier. -/
theorem readData_under_lock :
    dataFileCacheFiller [true] =
      [.lock .host, .op (.fill .host), .op .getBlockBoundaries, .op .readData,
        .op (.release .host), .op .notify, .unlock .host] ∧
    heldAtReadData [] (dataFileCacheFiller [true]) = [[.host]] ∧
    gpuCacheFiller [some 0] =
      [.lock .device, .op (.fill .device), .unlock .device, .lock .host, .op (.read .host),
        .unlock .host, .lock .device, .op .createUserEvent, .op .setEventCallback,
        .op .enqueueWriteBuffer, .unlock .device] := by
  decide

/-! ## Slots of equal age (C20) -/

theorem create_fields {blockSize offset channelCount capacity : Nat} {delay : Int}
    {c : GPUCache}
    (h : GPUCache.create blockSize offset delay channelCount capacity = .ok c) :
    0 < capacity ∧ c.capacity = capacity ∧ c.lastUsed = List.replicate capacity 0 ∧
    c.order = List.range capacity ∧ c.indexMap = [] ∧ c.queue = [] := by
  unfold GPUCache.create at h
  split at h
  · cases h
  · next hcap =>
    cases h
    exact ⟨Nat.pos_of_ne_zero hcap, rfl, rfl, rfl, rfl, rfl⟩

theorem getLast?_range {n : Nat} (h : 0 < n) : (List.range n).getLast? = some (n - 1) := by
  obtain ⟨m, rfl⟩ := Nat.exists_eq_succ_of_ne_zero (Nat.pos_iff_ne_zero.1 h)
  rw [List.range_succ, List.getLast?_append]
  rfl

/-- C20, counterexample: on a new cache of two slots both slots have `lastUsed` 0, and
the first miss, `getAny({5, 6, 7}, 1, 1)`, takes slot 1, not slot 0, the lowest slot id
among the tied slots. -/
theorem first_miss_not_lowest_slot :
    GPUCache.create 256 64 31 4 2 = .ok demo0 ∧
    demo0.lastUsed = [0, 0] ∧ demo0.order = [0, 1] ∧
    getAny stdLib demo0 [5, 6, 7] 1 1 = some ⟨5, 1, false, none, demo1⟩ ∧
    mapFind demo1.reverseIndexMap 1 = some 5 ∧ mapFind demo1.reverseIndexMap 0 = none :=
  ⟨rfl, by decide⟩

/-- C20, amended: among slots of equal age the slot a miss takes is the one that stands
last in `order`; slot ids are not compared.  On a new cache of capacity `N`, where all
ages are equal and `order` is 0, 1, ..., N-1, the first call of `getAny` is a miss and
takes slot `N - 1`, the highest slot id, whatever `findCommon` and `std::sort` do within
their contracts. -/
theorem first_miss_takes_last_slot (L : Lib) (hL : L.Ok)
    (blockSize offset channelCount capacity : Nat) (delay : Int) (c : GPUCache)
    (hc : GPUCache.create blockSize offset delay channelCount capacity = .ok c)
    (S : List Int) (hS : S ≠ []) (buf ev : Nat) :
    (∀ i j, i < capacity → j < capacity → c.lastUsed.getD i 0 = c.lastUsed.getD j 0) ∧
    ∃ r, getAny L c S buf ev = some r ∧ r.hit = false ∧
      c.order.getLast? = some r.cacheIndex ∧ r.cacheIndex = capacity - 1 ∧
      ∀ j, j < capacity → j ≤ r.cacheIndex := by
  have hf := create_fields hc
  constructor
  · intro i j hi hj
    rw [hf.2.2.1]
    simp [List.getD_eq_getElem?_getD, List.getElem?_replicate, hi, hj]
  · obtain ⟨r, hr⟩ := getAny_isSome hL (inv_create hc) hS buf ev
    rcases getAny_cases hr with ⟨hfc, _, _, _⟩ | ⟨_, hmiss, _, _, hv, _⟩
    · have := (hL.findCommon_some _ _ _ _ hfc).1
      rw [hf.2.2.2.2.1] at this
      cases this
    · have hlast : r.cacheIndex = capacity - 1 := by
        rw [hf.2.2.2.1, getLast?_range hf.1] at hv
        exact (Option.some.inj hv).symm
      refine ⟨r, hr, hmiss, hv, hlast, ?_⟩
      intro j hj
      omega

theorem first_miss_takes_last_slot_witness :
    stdLib.Ok ∧ GPUCache.create 256 64 31 4 2 = .ok demo0 ∧ [5, 6, 7] ≠ [] ∧
    (∀ i j, i < 2 → j < 2 → demo0.lastUsed.getD i 0 = demo0.lastUsed.getD j 0) ∧
    ∃ r, getAny stdLib demo0 [5, 6, 7] 1 1 = some r ∧ r.hit = false ∧
      demo0.order.getLast? = some r.cacheIndex ∧ r.cacheIndex = 2 - 1 ∧
      ∀ j, j < 2 → j ≤ r.cacheIndex :=
  ⟨stdLib_ok, rfl, by decide,
    first_miss_takes_last_slot stdLib stdLib_ok 256 64 4 2 31 demo0 rfl [5, 6, 7]
      (by decide) 1 1⟩

/-! ## The host cache and the device cache (C21) -/

theorem host_twice_device_of_lt (memory blockLength : Nat) (h : 2 * memory < UINT_RANGE) :
    2 * (wrap32 memory / blockLength / 4) ≤ wrap32 (2 * memory) / blockLength / 4 := by
  rw [wrap32_of_lt h, wrap32_of_lt (by omega : memory < UINT_RANGE), Nat.div_div_eq_div_mul,
    Nat.div_div_eq_div_mul]
  exact Nat.mul_div_le_mul_div_assoc 2 memory (blockLength * 4)

/-- C21, the failing input: with a file of 128 channels at 1024 Hz, the option
`blockSize = 32768` and `memory = 2^31 + 2^26`, the constructor succeeds,
`2*memory` wraps to `2^27`, and the host cache gets 8 blocks while the device cache gets
132. -/
theorem host_cache_smaller_than_device :
    ∃ sp, SignalProcessor.construct wideFile 2214592512 ⟨32768, 1⟩ = some (.ok sp) ∧
      sp.dataFileGpuCacheBlockSize = 4194304 ∧
      sp.dataFileCache.length = 8 ∧ sp.gpuCache.length = 132 ∧
      ¬ 2 * sp.gpuCache.length ≤ sp.dataFileCache.length := by
  refine ⟨_, rfl, ?_⟩
  simp only [List.length_replicate]
  decide

/-! ## The configurations accepted by the constructor (C29) -/

theorem construct_error_iff (file : DataFile) (memory : Nat) (options : ProgramOptions) :
    SignalProcessor.construct file memory options = some (.error sizeError) ↔
      wrap32 file.samplingFrequency % 4 ≠ 0 ∨ options.blockSize % 4 ≠ 0 := by
  have hM : wrap32 file.samplingFrequency < UINT_RANGE := Nat.mod_lt _ (by decide)
  rw [← sub32_add_mod_four options.blockSize _ hM,
    ← wrap32_mod_four (sub32 options.blockSize (wrap32 file.samplingFrequency) +
      wrap32 file.samplingFrequency)]
  unfold SignalProcessor.construct
  simp only
  constructor
  · intro h
    split at h
    · next hc => exact hc
    · split at h
      · cases h
      · split at h
        · simp only [Option.some.injEq, Except.error.injEq] at h
          exact absurd h (by decide)
        · split at h
          · cases h
          · simp at h
  · intro h
    rw [if_pos h]

/-- C29, counterexample: at 2048 Hz the option `blockSize = 1024` passes the validation
although it is smaller than `offset = 2048`; `blockSize` is the wrapped value
`2^32 - 1024`, which is not smaller than the option. -/
theorem accepted_with_wrapped_blockSize :
    ∃ sp, SignalProcessor.construct fastFile 32768 ⟨1024, 1⟩ = some (.ok sp) ∧
      sp.offset = 2048 ∧ ¬ sp.offset < 1024 ∧ sp.blockSize = 4294966272 ∧
      ¬ sp.blockSize < 1024 :=
  ⟨_, rfl, by decide⟩

/-- C29, amended: every configuration that passes the validation of lines 24-28 has a
filter length `M` and an option `blockSize` that are multiples of 4; the validation does
not compare the option with `offset`.  If the option is greater than `offset = M`, the
member `blockSize` is `option - offset` without wrap-around and it is positive; it is
smaller than the option when `offset` is positive. -/
theorem validation_and_blockSize (file : DataFile) (memory : Nat) (options : ProgramOptions)
    (sp : SignalProcessor) (hb : options.blockSize < UINT_RANGE)
    (h : SignalProcessor.construct file memory options = some (.ok sp)) :
    sp.offset = wrap32 file.samplingFrequency ∧
    sp.offset % 4 = 0 ∧ options.blockSize % 4 = 0 ∧
    (sp.offset < options.blockSize →
      sp.blockSize = options.blockSize - sp.offset ∧ 0 < sp.blockSize ∧
      sp.blockSize + sp.offset = options.blockSize ∧
      (0 < sp.offset → sp.blockSize < options.blockSize)) := by
  have hc := construct_ok h
  have hne : ¬ (wrap32 file.samplingFrequency % 4 ≠ 0 ∨ options.blockSize % 4 ≠ 0) := by
    rw [← construct_error_iff file memory options, h]
    simp
  have hM : wrap32 file.samplingFrequency < UINT_RANGE := Nat.mod_lt _ (by decide)
  rw [hc.2.1, hc.2.2.1, hc.1]
  refine ⟨rfl, by omega, by omega, ?_⟩
  intro hlt
  have hs : sub32 options.blockSize (wrap32 file.samplingFrequency) =
      options.blockSize - wrap32 file.samplingFrequency := by
    unfold sub32
    rw [wrap32_of_lt hM, show options.blockSize + UINT_RANGE - wrap32 file.samplingFrequency
      = (options.blockSize - wrap32 file.samplingFrequency) + UINT_RANGE by omega]
    unfold wrap32
    rw [Nat.add_mod_right]
    exact Nat.mod_eq_of_lt (by omega)
  rw [hs]
  omega

theorem validation_and_blockSize_witness :
    (320 : Nat) < UINT_RANGE ∧
    ∃ sp, SignalProcessor.construct demoFile 20480 ⟨320, 1⟩ = some (.ok sp) ∧
      sp.offset = wrap32 demoFile.samplingFrequency ∧
      sp.offset % 4 = 0 ∧ (320 : Nat) % 4 = 0 ∧
      (sp.offset < 320 →
        sp.blockSize = 320 - sp.offset ∧ 0 < sp.blockSize ∧
        sp.blockSize + sp.offset = 320 ∧
        (0 < sp.offset → sp.blockSize < 320)) :=
  ⟨by decide, _, rfl, validation_and_blockSize demoFile 20480 ⟨320, 1⟩ _ (by decide) rfl⟩

/-! ## Echo suppression of the view synchronisation (C30) -/

theorem sendSyncMessage_cases {w w1 : SyncWindow} {position fraction : Int}
    (hw : w.fileOpen = true ∧ w.synchronize = true)
    (h : sendSyncMessage w position fraction = some w1) :
    w1.fileOpen = true ∧ w1.synchronize = true ∧
    w1.lastPositionReceived = lastPositionReceivedDefault ∧
    ((w1.sent = w.sent ++ [position] ∧
        (position < w.lastPositionReceived - max 3 fraction ∨
          w.lastPositionReceived + max 3 fraction < position)) ∨
      (w1.sent = w.sent ∧
        w.lastPositionReceived - max 3 fraction ≤ position ∧
        position ≤ w.lastPositionReceived + max 3 fraction)) := by
  unfold sendSyncMessage at h
  simp only [hw.1, hw.2, Bool.and_self, if_true] at h
  split at h
  · cases h
  · split at h
    · next h2 =>
      cases h
      exact ⟨rfl, rfl, rfl, Or.inl ⟨rfl, Or.inl h2⟩⟩
    · split at h
      · cases h
      · split at h
        · next h4 =>
          cases h
          exact ⟨rfl, rfl, rfl, Or.inl ⟨rfl, Or.inr h4⟩⟩
        · next h2 _ h4 =>
          cases h
          exact ⟨rfl, rfl, rfl, Or.inr ⟨rfl, by omega, by omega⟩⟩

theorem sendSyncMessage_isSome (w : SyncWindow) (position fraction : Int)
    (hlo : INT_MIN ≤ w.lastPositionReceived - max 3 fraction)
    (hhi : w.lastPositionReceived + max 3 fraction ≤ INT_MAX) :
    ∃ w1, sendSyncMessage w position fraction = some w1 := by
  unfold sendSyncMessage
  simp only
  split
  · rw [if_neg (by omega)]
    split
    · exact ⟨_, rfl⟩
    · rw [if_neg (by omega)]
      split <;> exact ⟨_, rfl⟩
  · exact ⟨_, rfl⟩

theorem sendSyncMessages_default (calls : List (Int × Int)) (w : SyncWindow)
    (hw : w.fileOpen = true ∧ w.synchronize = true)
    (hd : w.lastPositionReceived = lastPositionReceivedDefault)
    (hfar : ∀ c ∈ calls, c.2 ≤ 1000000000 ∧
      (c.1 < lastPositionReceivedDefault - max 3 c.2 ∨
        lastPositionReceivedDefault + max 3 c.2 < c.1)) :
    ∃ w1, sendSyncMessages w calls = some w1 ∧
      w1.sent.length = w.sent.length + calls.length := by
  induction calls generalizing w with
  | nil => exact ⟨w, rfl, rfl⟩
  | cons c cs ih =>
    obtain ⟨p, e⟩ := c
    have hc := hfar (p, e) (List.mem_cons_self _ _)
    simp only at hc
    have hr : lastPositionReceivedDefault = -1000000000 := rfl
    obtain ⟨w1, h1⟩ := sendSyncMessage_isSome w p e
      (by rw [hd, hr]; unfold INT_MIN; omega) (by rw [hd, hr]; unfold INT_MAX; omega)
    obtain ⟨ho, hs, hl, hcase⟩ := sendSyncMessage_cases hw h1
    obtain ⟨w2, h2, hlen⟩ := ih w1 ⟨ho, hs⟩ hl
      (fun c hc => hfar c (List.mem_cons_of_mem _ hc))
    refine ⟨w2, ?_, ?_⟩
    · simp only [sendSyncMessages, h1, Option.bind]
      exact h2
    · rcases hcase with ⟨hsent, _⟩ | ⟨_, h3, h4⟩
      · rw [hlen, hsent]
        simp only [List.length_append, List.length_cons, List.length_nil]
        omega
      · rw [hd] at h3 h4
        omega

/-- The bound on the later positions is needed: after `receiveSyncMessage` with position
5, the call of `sendSyncMessage` at position 5 is skipped, and so would be a later call at
the position `-1000000000`, the default value of `lastPositionReceived`, which is not a
position on the canvas. -/
theorem two_messages_skipped :
    sendSyncMessages (receiveSyncMessage syncIdle 5) [(5, 3), (-1000000000, 3)] =
      some syncIdle ∧ syncIdle.sent = [] :=
  ⟨by decide, rfl⟩

/-- With a file open and synchronisation enabled, a call of `sendSyncMessage` that
returns sends nothing exactly when the current position lies within
`epsilon = max(3, fraction)` of `lastPositionReceived`, and it always leaves
`lastPositionReceived` at the default value.  After one `receiveSyncMessage`, a sequence
of calls of `sendSyncMessage` returns and skips at most one message, provided that the
first call does not overflow and that every later call has `fraction <= 1000000000` and a
position farther than `epsilon` from the default value `-1000000000`. -/
theorem echo_skipped_at_most_once (w : SyncWindow) (received : Int)
    (calls : List (Int × Int))
    (hw : w.fileOpen = true ∧ w.synchronize = true)
    (hfirst : ∀ c ∈ calls.head?, INT_MIN ≤ received - max 3 c.2 ∧
      received + max 3 c.2 ≤ INT_MAX)
    (hfar : ∀ c ∈ calls.tail, c.2 ≤ 1000000000 ∧
      (c.1 < lastPositionReceivedDefault - max 3 c.2 ∨
        lastPositionReceivedDefault + max 3 c.2 < c.1)) :
    (∀ position fraction w1, sendSyncMessage w position fraction = some w1 →
      w1.lastPositionReceived = lastPositionReceivedDefault ∧
      (w1.sent = w.sent ∨ w1.sent = w.sent ++ [position]) ∧
      (w1.sent = w.sent ↔
        w.lastPositionReceived - max 3 fraction ≤ position ∧
        position ≤ w.lastPositionReceived + max 3 fraction)) ∧
    ∃ w1, sendSyncMessages (receiveSyncMessage w received) calls = some w1 ∧
      w.sent.length + calls.length ≤ w1.sent.length + 1 := by
  constructor
  · intro position fraction w1 h
    obtain ⟨_, _, hl, hcase⟩ := sendSyncMessage_cases hw h
    refine ⟨hl, ?_, ?_⟩
    · rcases hcase with ⟨hs, _⟩ | ⟨hs, _⟩
      · exact Or.inr hs
      · exact Or.inl hs
    · rcases hcase with ⟨hs, hout⟩ | ⟨hs, hin⟩
      · constructor
        · intro heq
          rw [heq] at hs
          simp at hs
        · intro hin
          omega
      · exact ⟨fun _ => hin, fun _ => hs⟩
  · have hrecv : receiveSyncMessage w received =
        { w with lastPositionReceived := received } := by
      unfold receiveSyncMessage
      simp [hw.1, hw.2]
    cases calls with
    | nil => exact ⟨_, rfl, by rw [hrecv]; simp⟩
    | cons c cs =>
      obtain ⟨p, e⟩ := c
      have hf := hfirst (p, e) (by simp)
      simp only at hf
      obtain ⟨w1, h1⟩ := sendSyncMessage_isSome (receiveSyncMessage w received) p e
        (by rw [hrecv]; exact hf.1) (by rw [hrecv]; exact hf.2)
      obtain ⟨ho, hs, hl, hcase⟩ := sendSyncMessage_cases
        (by rw [hrecv]; exact hw) h1
      obtain ⟨w2, h2, hlen⟩ := sendSyncMessages_default cs w1 ⟨ho, hs⟩ hl hfar
      refine ⟨w2, ?_, ?_⟩
      · simp only [sendSyncMessages, h1, Option.bind]
        exact h2
      · have hsent : w.sent.length ≤ w1.sent.length := by
          rcases hcase with ⟨hsent, _⟩ | ⟨hsent, _⟩
          · rw [hsent, hrecv]
            simp
          · rw [hsent, hrecv]
        rw [hlen]
        simp only [List.length_cons]
        omega

theorem echo_skipped_at_most_once_witness :
    (syncIdle.fileOpen = true ∧ syncIdle.synchronize = true) ∧
    (∀ position fraction w1, sendSyncMessage syncIdle position fraction = some w1 →
      w1.lastPositionReceived = lastPositionReceivedDefault ∧
      (w1.sent = syncIdle.sent ∨ w1.sent = syncIdle.sent ++ [position]) ∧
      (w1.sent = syncIdle.sent ↔
        syncIdle.lastPositionReceived - max 3 fraction ≤ position ∧
        position ≤ syncIdle.lastPositionReceived + max 3 fraction)) ∧
    ∃ w1, sendSyncMessages (receiveSyncMessage syncIdle 5) [(5, 3), (6, 3), (7, 1)] =
        some w1 ∧
      syncIdle.sent.length + [((5 : Int), (3 : Int)), (6, 3), (7, 1)].length ≤
        w1.sent.length + 1 :=
  ⟨⟨rfl, rfl⟩,
    echo_skipped_at_most_once syncIdle 5 [(5, 3), (6, 3), (7, 1)] ⟨rfl, rfl⟩
      (by decide) (by decide)⟩

/-! ## Parsing of the labels (C22) -/

theorem digit_eq_true_iff (c : Char) : digit c = true ↔ isdigit c = false := by
  unfold digit
  cases isdigit c <;> simp

theorem takeWhile_head_false {α : Type} (p : α → Bool) (l : List α) (hl : l ≠ [])
    (h : ∀ a ∈ l, p a = false) : l.takeWhile p = [] ∧ l.dropWhile p = l := by
  cases l with
  | nil => exact absurd rfl hl
  | cons a l =>
    have ha := h a (List.mem_cons_self _ _)
    simp [List.takeWhile, List.dropWhile, ha]

theorem takeWhile_all {α : Type} (p : α → Bool) (l : List α) (h : ∀ a ∈ l, p a = true) :
    l.takeWhile p = l ∧ l.dropWhile p = [] :=
  ⟨List.takeWhile_eq_self_iff.2 h, List.dropWhile_eq_nil_iff.2 h⟩

/-- A label that is a non-empty run of non-digits followed by a non-empty run of digits
is parsed into the run of non-digits and the result of `stoi` on the digits. -/
theorem parseLabel_wellFormed (p d : List Char) (hp : p ≠ [])
    (hpn : ∀ c ∈ p, isdigit c = false) (hd : d ≠ []) (hdd : ∀ c ∈ d, isdigit c = true) :
    parseLabel (p ++ d) = (stoi d).map (fun value => (p, value)) := by
  have hp1 : ∀ c ∈ p, digit c = true := fun c hc => (digit_eq_true_iff c).2 (hpn c hc)
  have hd1 : ∀ c ∈ d, digit c = false := fun c hc => by
    unfold digit
    rw [hdd c hc]
    rfl
  have hd2 : ∀ c ∈ d, (!digit c) = true := fun c hc => by rw [hd1 c hc]; rfl
  have h1 := takeWhile_head_false digit d hd hd1
  have h2 := takeWhile_all (fun c => !digit c) d hd2
  unfold parseLabel
  simp only [List.takeWhile_append_of_pos hp1, List.dropWhile_append_of_pos hp1, h1.1, h1.2,
    h2.1, h2.2, List.append_nil]
  rw [if_neg]
  simp [hp, hd]

/-- Every other label is parsed into the empty string and -1. -/
theorem parseLabel_other (label : List Char)
    (h : ¬ ∃ p d, label = p ++ d ∧ p ≠ [] ∧ (∀ c ∈ p, isdigit c = false) ∧ d ≠ [] ∧
      ∀ c ∈ d, isdigit c = true) :
    parseLabel label = .ok ([], -1) := by
  unfold parseLabel
  simp only
  split
  · rfl
  · next hc =>
    exfalso
    apply h
    simp only [not_or, ne_eq, not_not] at hc
    refine ⟨label.takeWhile digit, label.dropWhile digit,
      (List.takeWhile_append_dropWhile digit label).symm, hc.2.1, ?_, ?_, ?_⟩
    · intro c hc1
      exact (digit_eq_true_iff c).1 (List.mem_takeWhile_imp hc1)
    · intro h0
      rw [h0] at hc
      exact hc.2.2 rfl
    · intro c hc1
      have h3 := List.takeWhile_append_dropWhile (fun c => !digit c) (label.dropWhile digit)
      rw [hc.1, List.append_nil] at h3
      rw [← h3] at hc1
      have := List.mem_takeWhile_imp hc1
      unfold digit at this
      simpa using this

theorem stoi_of_le (d : List Char) (h : (decimalValue d : Int) ≤ INT_MAX) :
    stoi d = .ok (decimalValue d) := by
  unfold stoi
  rw [if_pos h]

theorem stoi_of_gt (d : List Char) (h : INT_MAX < (decimalValue d : Int)) :
    stoi d = .error "stoi" := by
  unfold stoi
  rw [if_neg (by omega)]

/-- The vectors after `parseLabels`: the vectors on entry followed by one pair for each
row, in row order. -/
theorem parseLabels_ok {source prefixes : List (List Char)} {indexes : List Int}
    {prefixes1 : List (List Char)} {indexes1 : List Int}
    (h : parseLabels source prefixes indexes = .ok (prefixes1, indexes1)) :
    ∃ rows : List (List Char × Int),
      List.Forall₂ (fun label row => parseLabel label = .ok row) source rows ∧
      prefixes1 = prefixes ++ rows.map Prod.fst ∧ indexes1 = indexes ++ rows.map Prod.snd := by
  induction source generalizing prefixes indexes with
  | nil =>
    simp only [parseLabels, Except.ok.injEq, Prod.mk.injEq] at h
    exact ⟨[], List.Forall₂.nil, by simp [h.1], by simp [h.2]⟩
  | cons label source ih =>
    simp only [parseLabels] at h
    split at h
    · cases h
    · next stem value hl =>
      obtain ⟨rows, hf, hp, hi⟩ := ih h
      exact ⟨(stem, value) :: rows, List.Forall₂.cons hl hf, by simp [hp], by simp [hi]⟩

/-- The function `parseLabels` returns normally when every row can be parsed. -/
theorem parseLabels_isOk (source prefixes : List (List Char)) (indexes : List Int)
    (h : ∀ label ∈ source, ∃ row, parseLabel label = .ok row) :
    ∃ r, parseLabels source prefixes indexes = .ok r := by
  induction source generalizing prefixes indexes with
  | nil => exact ⟨_, rfl⟩
  | cons label source ih =>
    obtain ⟨⟨stem, value⟩, hl⟩ := h label (List.mem_cons_self _ _)
    simp only [parseLabels, hl]
    exact ih _ _ (fun l hl1 => h l (List.mem_cons_of_mem _ hl1))

/-- The result of `parseLabel`, when there is one, is the empty string with -1 or a
non-empty string without digits with an index from 0 to `INT_MAX`. -/
theorem parseLabel_result {label stem : List Char} {value : Int}
    (h : parseLabel label = .ok (stem, value)) :
    (stem = [] ∧ value = -1) ∨ (stem ≠ [] ∧ 0 ≤ value ∧ value ≤ INT_MAX ∧
      ∃ d, label = stem ++ d ∧ d ≠ [] ∧ (∀ c ∈ stem, isdigit c = false) ∧
        (∀ c ∈ d, isdigit c = true) ∧ value = decimalValue d) := by
  by_cases hw : ∃ p d, label = p ++ d ∧ p ≠ [] ∧ (∀ c ∈ p, isdigit c = false) ∧ d ≠ [] ∧
      ∀ c ∈ d, isdigit c = true
  · obtain ⟨p, d, hl, hp, hpn, hd, hdd⟩ := hw
    rw [hl, parseLabel_wellFormed p d hp hpn hd hdd] at h
    unfold stoi at h
    split at h
    · next hle =>
      simp only [Except.map, Except.ok.injEq, Prod.mk.injEq] at h
      right
      rw [← h.1, ← h.2]
      exact ⟨hp, by omega, hle, d, hl, hd, hpn, hdd, rfl⟩
    · simp [Except.map] at h
  · rw [parseLabel_other label hw] at h
    simp only [Except.ok.injEq, Prod.mk.injEq] at h
    left
    exact ⟨h.1.symm, h.2.symm⟩

/-- C22, the failing input: the label `A2147483648` is a non-empty run of non-digits
followed by a non-empty run of digits, and `parseLabels` does not return for a table with
this one row: `stoi` throws `std::out_of_range`, also out of `fillTrackTable`. -/
theorem parseLabels_throws :
    (∃ p d, "A2147483648".toList = p ++ d ∧ p ≠ [] ∧ (∀ c ∈ p, isdigit c = false) ∧
      d ≠ [] ∧ (∀ c ∈ d, isdigit c = true) ∧ (decimalValue d : Int) = INT_MAX + 1) ∧
    parseLabels ["A2147483648".toList] [] [] = .error "stoi" ∧
    fillTrackTable BipolarMontage.matchPair ["A2147483648".toList] = some (.error "stoi") :=
  ⟨⟨['A'], "2147483648".toList, by decide⟩, rfl, rfl⟩

/-- When the digits of every label that has the form of C22 have a value of at most
`INT_MAX`, `parseLabels` returns one prefix and one index per row: the run of non-digits
and the decimal value for a label of that form, the empty string and -1 otherwise. -/
theorem parseLabels_in_range (source : List (List Char))
    (hr : ∀ label ∈ source, ∀ p d, label = p ++ d → p ≠ [] → (∀ c ∈ p, isdigit c = false) →
      d ≠ [] → (∀ c ∈ d, isdigit c = true) → (decimalValue d : Int) ≤ INT_MAX) :
    ∃ prefixes indexes, parseLabels source [] [] = .ok (prefixes, indexes) ∧
      prefixes.length = source.length ∧ indexes.length = source.length ∧
      ∀ k, k < source.length →
        (∀ p d, source.getD k [] = p ++ d → p ≠ [] → (∀ c ∈ p, isdigit c = false) →
          d ≠ [] → (∀ c ∈ d, isdigit c = true) →
          prefixes.getD k [] = p ∧ indexes.getD k 0 = decimalValue d) ∧
        ((¬ ∃ p d, source.getD k [] = p ++ d ∧ p ≠ [] ∧ (∀ c ∈ p, isdigit c = false) ∧
            d ≠ [] ∧ ∀ c ∈ d, isdigit c = true) →
          prefixes.getD k [] = [] ∧ indexes.getD k 0 = -1) := by
  have hok : ∀ label ∈ source, ∃ row, parseLabel label = .ok row := by
    intro label hl
    by_cases hw : ∃ p d, label = p ++ d ∧ p ≠ [] ∧ (∀ c ∈ p, isdigit c = false) ∧ d ≠ [] ∧
        ∀ c ∈ d, isdigit c = true
    · obtain ⟨p, d, hl1, hp, hpn, hd, hdd⟩ := hw
      rw [hl1, parseLabel_wellFormed p d hp hpn hd hdd,
        stoi_of_le d (hr label hl p d hl1 hp hpn hd hdd)]
      exact ⟨_, rfl⟩
    · exact ⟨_, parseLabel_other label hw⟩
  obtain ⟨⟨prefixes, indexes⟩, h⟩ := parseLabels_isOk source [] [] hok
  obtain ⟨rows, hf, hp, hi⟩ := parseLabels_ok h
  simp only [List.nil_append] at hp hi
  have hlen := hf.length_eq
  refine ⟨prefixes, indexes, h, by rw [hp, List.length_map, hlen],
    by rw [hi, List.length_map, hlen], ?_⟩
  intro k hk
  have hk2 : k < rows.length := hlen ▸ hk
  have hrow : parseLabel (source.getD k []) = .ok (rows.get ⟨k, hk2⟩) := by
    have := List.Forall₂.get hf hk hk2
    rw [List.getD_eq_getElem _ _ hk]
    exact this
  have hpk : prefixes.getD k [] = (rows.get ⟨k, hk2⟩).1 := by
    rw [hp, List.getD_eq_getElem _ _ (by rw [List.length_map]; exact hk2)]
    simp
  have hik : indexes.getD k 0 = (rows.get ⟨k, hk2⟩).2 := by
    rw [hi, List.getD_eq_getElem _ _ (by rw [List.length_map]; exact hk2)]
    simp
  constructor
  · intro p d hl1 hp1 hpn hd hdd
    have hmem : source.getD k [] ∈ source := by
      rw [List.getD_eq_getElem _ _ hk]
      exact List.getElem_mem _
    rw [hl1, parseLabel_wellFormed p d hp1 hpn hd hdd,
      stoi_of_le d (hr _ hmem p d hl1 hp1 hpn hd hdd)] at hrow
    simp only [Except.map, Except.ok.injEq] at hrow
    rw [hpk, hik, ← hrow]
    exact ⟨rfl, rfl⟩
  · intro hw
    rw [parseLabel_other _ hw] at hrow
    simp only [Except.ok.injEq] at hrow
    rw [hpk, hik, ← hrow]
    exact ⟨rfl, rfl⟩

/-! ## The pairing of the rows (C23, C24) -/

theorem getElem?_eq_some_getD {α : Type} (l : List α) (j : Nat) (d : α) (h : j < l.length) :
    l[j]? = some (l.getD j d) := by
  rw [List.getD_eq_getElem _ _ h, List.getElem?_eq_getElem h]

theorem matchStep_inv {prefixes : List (List Char)} {indexes : List Int} {i t : Nat}
    {m : Int} (hlen : prefixes.length = indexes.length) (ht : t < prefixes.length)
    (h : MatchInv prefixes indexes i t m) :
    ∃ m1, matchStep (prefixes.getD i []) (indexes.getD i 0) prefixes indexes m t = some m1 ∧
      MatchInv prefixes indexes i (t + 1) m1 := by
  unfold matchStep
  rw [getElem?_eq_some_getD prefixes t [] ht]
  simp only
  by_cases hp : prefixes.getD i [] = prefixes.getD t []
  · rw [if_neg (by simpa using hp), getElem?_eq_some_getD indexes t 0 (hlen ▸ ht)]
    simp only
    by_cases hlt : indexes.getD i 0 < indexes.getD t 0
    · rw [if_pos hlt]
      rcases h with ⟨hm, hno⟩ | ⟨k, hm, hk, hpk, hik, hmin⟩
      · rw [if_pos hm]
        refine ⟨_, rfl, Or.inr ⟨t, rfl, Nat.lt_succ_self _, hp.symm, hlt, ?_⟩⟩
        intro j hj hpj hij
        rcases Nat.lt_succ_iff_lt_or_eq.1 hj with hj1 | hj1
        · exact absurd hij (hno j hj1 hpj)
        · subst hj1
          exact ⟨le_refl _, fun h => absurd h (Nat.lt_irrefl _)⟩
      · rw [if_neg (by omega), if_neg (by omega), hm, Int.toNat_ofNat,
          getElem?_eq_some_getD indexes k 0 (by omega)]
        simp only
        by_cases hnew : indexes.getD t 0 < indexes.getD k 0
        · rw [if_pos hnew]
          refine ⟨_, rfl, Or.inr ⟨t, rfl, Nat.lt_succ_self _, hp.symm, hlt, ?_⟩⟩
          intro j hj hpj hij
          rcases Nat.lt_succ_iff_lt_or_eq.1 hj with hj1 | hj1
          · have := (hmin j hj1 hpj hij).1
            exact ⟨by omega, fun _ => by omega⟩
          · subst hj1
            exact ⟨le_refl _, fun h => absurd h (Nat.lt_irrefl _)⟩
        · rw [if_neg hnew]
          refine ⟨_, rfl, Or.inr ⟨k, rfl, by omega, hpk, hik, ?_⟩⟩
          intro j hj hpj hij
          rcases Nat.lt_succ_iff_lt_or_eq.1 hj with hj1 | hj1
          · exact hmin j hj1 hpj hij
          · subst hj1
            exact ⟨by omega, fun h => by omega⟩
    · rw [if_neg hlt]
      refine ⟨m, rfl, ?_⟩
      rcases h with ⟨hm, hno⟩ | ⟨k, hm, hk, hpk, hik, hmin⟩
      · refine Or.inl ⟨hm, ?_⟩
        intro j hj hpj
        rcases Nat.lt_succ_iff_lt_or_eq.1 hj with hj1 | hj1
        · exact hno j hj1 hpj
        · subst hj1
          exact hlt
      · refine Or.inr ⟨k, hm, by omega, hpk, hik, ?_⟩
        intro j hj hpj hij
        rcases Nat.lt_succ_iff_lt_or_eq.1 hj with hj1 | hj1
        · exact hmin j hj1 hpj hij
        · subst hj1
          exact absurd hij hlt
  · rw [if_pos (by simpa using hp)]
    refine ⟨m, rfl, ?_⟩
    rcases h with ⟨hm, hno⟩ | ⟨k, hm, hk, hpk, hik, hmin⟩
    · refine Or.inl ⟨hm, ?_⟩
      intro j hj hpj
      rcases Nat.lt_succ_iff_lt_or_eq.1 hj with hj1 | hj1
      · exact hno j hj1 hpj
      · subst hj1
        exact absurd hpj.symm hp
    · refine Or.inr ⟨k, hm, by omega, hpk, hik, ?_⟩
      intro j hj hpj hij
      rcases Nat.lt_succ_iff_lt_or_eq.1 hj with hj1 | hj1
      · exact hmin j hj1 hpj hij
      · subst hj1
        exact absurd hpj.symm hp

theorem matchLoop_inv {prefixes : List (List Char)} {indexes : List Int} {i : Nat}
    (hlen : prefixes.length = indexes.length) (t : Nat) (ht : t ≤ prefixes.length) :
    ∃ m, (List.range t).foldl
        (fun minMatch j => minMatch.bind (fun m =>
          matchStep (prefixes.getD i []) (indexes.getD i 0) prefixes indexes m j))
        (some (-1)) = some m ∧
      MatchInv prefixes indexes i t m := by
  induction t with
  | zero => exact ⟨-1, rfl, Or.inl ⟨rfl, fun j hj => absurd hj (Nat.not_lt_zero _)⟩⟩
  | succ t ih =>
    obtain ⟨m, hm, hinv⟩ := ih (by omega)
    obtain ⟨m1, hs, hinv1⟩ := matchStep_inv hlen (by omega : t < prefixes.length) hinv
    refine ⟨m1, ?_, hinv1⟩
    rw [List.range_succ, List.foldl_append, hm]
    simpa using hs

/-- The result of `BipolarMontage::matchPair` for vectors of equal length and a valid
row. -/
theorem matchPair_spec (prefixes : List (List Char)) (indexes : List Int) (i : Nat)
    (hlen : prefixes.length = indexes.length) (hi : i < prefixes.length) :
    ∃ m, BipolarMontage.matchPair i prefixes indexes = some m ∧
      MatchInv prefixes indexes i prefixes.length m := by
  unfold BipolarMontage.matchPair
  rw [if_neg (by omega), Int.toNat_ofNat, getElem?_eq_some_getD prefixes i [] hi,
    getElem?_eq_some_getD indexes i 0 (hlen ▸ hi)]
  exact matchLoop_inv hlen _ (le_refl _)

/-- C23: for vectors of equal length and a valid row `i`, `BipolarMontage::matchPair`
returns; the result is -1 exactly when no position has the prefix of row `i` and a
greater index; otherwise it is a position `k` with that prefix whose index is the least
of the indexes greater than that of row `i` among the positions with that prefix, and no
earlier position with that prefix has the same index.  The result is never `i`. -/
theorem nearest_greater_pairing (prefixes : List (List Char)) (indexes : List Int) (i : Nat)
    (hlen : prefixes.length = indexes.length) (hi : i < prefixes.length) :
    ∃ m, BipolarMontage.matchPair i prefixes indexes = some m ∧
      (m = -1 ↔ ∀ j, j < prefixes.length → prefixes.getD j [] = prefixes.getD i [] →
        ¬ indexes.getD i 0 < indexes.getD j 0) ∧
      (m ≠ -1 → ∃ k : Nat, m = k ∧ k < prefixes.length ∧
        prefixes.getD k [] = prefixes.getD i [] ∧ indexes.getD i 0 < indexes.getD k 0 ∧
        (∀ j, j < prefixes.length → prefixes.getD j [] = prefixes.getD i [] →
          indexes.getD i 0 < indexes.getD j 0 → indexes.getD k 0 ≤ indexes.getD j 0) ∧
        (∀ j, j < k → prefixes.getD j [] = prefixes.getD i [] →
          indexes.getD j 0 ≠ indexes.getD k 0)) ∧
      m ≠ i := by
  obtain ⟨m, hm, hinv⟩ := matchPair_spec prefixes indexes i hlen hi
  refine ⟨m, hm, ?_⟩
  rcases hinv with ⟨h1, hno⟩ | ⟨k, hk, hkn, hpk, hik, hmin⟩
  · refine ⟨⟨fun _ => hno, fun _ => h1⟩, fun h => absurd h1 h, by omega⟩
  · refine ⟨⟨fun h => by omega, fun h => absurd hik (h k hkn hpk)⟩, fun _ => ?_, ?_⟩
    · refine ⟨k, hk, hkn, hpk, hik, fun j hj hpj hij => (hmin j hj hpj hij).1, ?_⟩
      intro j hj hpj
      by_cases hij : indexes.getD i 0 < indexes.getD j 0
      · have := (hmin j (by omega) hpj hij).2 hj
        omega
      · omega
    · intro h
      have hki : k = i := by omega
      rw [hki] at hik
      exact absurd hik (lt_irrefl _)

theorem nearest_greater_pairing_witness :
    demoPrefixes.length = demoIndexes.length ∧ 1 < demoPrefixes.length ∧
    ∃ m, BipolarMontage.matchPair (1 : Nat) demoPrefixes demoIndexes = some m ∧
      (m = -1 ↔ ∀ j, j < demoPrefixes.length →
        demoPrefixes.getD j [] = demoPrefixes.getD 1 [] →
        ¬ demoIndexes.getD 1 0 < demoIndexes.getD j 0) ∧
      (m ≠ -1 → ∃ k : Nat, m = k ∧ k < demoPrefixes.length ∧
        demoPrefixes.getD k [] = demoPrefixes.getD 1 [] ∧
        demoIndexes.getD 1 0 < demoIndexes.getD k 0 ∧
        (∀ j, j < demoPrefixes.length → demoPrefixes.getD j [] = demoPrefixes.getD 1 [] →
          demoIndexes.getD 1 0 < demoIndexes.getD j 0 →
          demoIndexes.getD k 0 ≤ demoIndexes.getD j 0) ∧
        (∀ j, j < k → demoPrefixes.getD j [] = demoPrefixes.getD 1 [] →
          demoIndexes.getD j 0 ≠ demoIndexes.getD k 0)) ∧
      m ≠ (1 : Nat) :=
  ⟨by decide, by decide,
    nearest_greater_pairing demoPrefixes demoIndexes 1 (by decide) (by decide)⟩

/-- C24: for vectors of equal length and a valid row `i` with `indexes[i] < INT_MAX`,
`BipolarNeighboursMontage::matchPair` returns; the result is not negative exactly when
some position has the prefix of row `i` and the index `indexes[i] + 1`, and it is then the
first such position; otherwise the result is -1. -/
theorem neighbour_pairing (prefixes : List (List Char)) (indexes : List Int) (i : Nat)
    (hlen : prefixes.length = indexes.length) (hi : i < prefixes.length)
    (hmax : indexes.getD i 0 < INT_MAX) :
    ∃ m, BipolarNeighboursMontage.matchPair i prefixes indexes = some m ∧
      (0 ≤ m ↔ ∃ j, j < prefixes.length ∧ prefixes.getD j [] = prefixes.getD i [] ∧
        indexes.getD j 0 = indexes.getD i 0 + 1) ∧
      (0 ≤ m → ∃ k : Nat, m = k ∧ k < prefixes.length ∧
        prefixes.getD k [] = prefixes.getD i [] ∧
        indexes.getD k 0 = indexes.getD i 0 + 1 ∧
        ∀ j, j < k → ¬ (prefixes.getD j [] = prefixes.getD i [] ∧
          indexes.getD j 0 = indexes.getD i 0 + 1)) ∧
      (¬ 0 ≤ m → m = -1) := by
  obtain ⟨m, hm, hinv⟩ := matchPair_spec prefixes indexes i hlen hi
  unfold BipolarNeighboursMontage.matchPair
  rw [hm]
  simp only
  rcases hinv with ⟨h1, hno⟩ | ⟨k, hk, hkn, hpk, hik, hmin⟩
  · rw [if_neg (by omega)]
    refine ⟨m, rfl, ⟨fun h => by omega, ?_⟩, fun h => by omega, fun _ => h1⟩
    rintro ⟨j, hj, hpj, hij⟩
    exact absurd (by omega) (hno j hj hpj)
  · rw [if_pos (by omega), hk, Int.toNat_ofNat, Int.toNat_ofNat,
      getElem?_eq_some_getD indexes i 0 (hlen ▸ hi),
      getElem?_eq_some_getD indexes k 0 (hlen ▸ hkn)]
    simp only
    rw [if_neg (by omega)]
    by_cases hnb : indexes.getD i 0 + 1 = indexes.getD k 0
    · rw [if_neg (by simpa using hnb)]
      refine ⟨k, rfl, ⟨fun _ => ⟨k, hkn, hpk, hnb.symm⟩, fun _ => by omega⟩, ?_,
        fun h => by omega⟩
      intro _
      refine ⟨k, rfl, hkn, hpk, hnb.symm, ?_⟩
      rintro j hj ⟨hpj, hij⟩
      have := (hmin j (by omega) hpj (by omega)).2 hj
      omega
    · rw [if_pos (by simpa using hnb)]
      refine ⟨-1, rfl, ⟨fun h => by omega, ?_⟩, fun h => by omega, fun _ => rfl⟩
      rintro ⟨j, hj, hpj, hij⟩
      have := (hmin j hj hpj (by omega)).1
      omega

theorem neighbour_pairing_witness :
    demoPrefixes.length = demoIndexes.length ∧ 0 < demoPrefixes.length ∧
    demoIndexes.getD 0 0 < INT_MAX ∧
    ∃ m, BipolarNeighboursMontage.matchPair (0 : Nat) demoPrefixes demoIndexes = some m ∧
      (0 ≤ m ↔ ∃ j, j < demoPrefixes.length ∧
        demoPrefixes.getD j [] = demoPrefixes.getD 0 [] ∧
        demoIndexes.getD j 0 = demoIndexes.getD 0 0 + 1) ∧
      (0 ≤ m → ∃ k : Nat, m = k ∧ k < demoPrefixes.length ∧
        demoPrefixes.getD k [] = demoPrefixes.getD 0 [] ∧
        demoIndexes.getD k 0 = demoIndexes.getD 0 0 + 1 ∧
        ∀ j, j < k → ¬ (demoPrefixes.getD j [] = demoPrefixes.getD 0 [] ∧
          demoIndexes.getD j 0 = demoIndexes.getD 0 0 + 1)) ∧
      (¬ 0 ≤ m → m = -1) :=
  ⟨by decide, by decide, by decide,
    neighbour_pairing demoPrefixes demoIndexes 0 (by decide) (by decide) (by decide)⟩

/-! ## Rows that cannot be parsed (C25) -/

/-- After `parseLabels` on empty vectors, position `k` of the vectors holds the pair
parsed from row `k`. -/
theorem parsed_rows {source prefixes : List (List Char)} {indexes : List Int}
    (h : parseLabels source [] [] = .ok (prefixes, indexes)) :
    prefixes.length = source.length ∧ indexes.length = source.length ∧
    ∀ k, k < source.length →
      parseLabel (source.getD k []) = .ok (prefixes.getD k [], indexes.getD k 0) := by
  obtain ⟨rows, hf, hp, hi⟩ := parseLabels_ok h
  simp only [List.nil_append] at hp hi
  have hlen := hf.length_eq
  refine ⟨by rw [hp, List.length_map, hlen], by rw [hi, List.length_map, hlen], ?_⟩
  intro k hk
  have hk2 : k < rows.length := hlen ▸ hk
  have hrow : parseLabel (source.getD k []) = .ok (rows.get ⟨k, hk2⟩) := by
    have := List.Forall₂.get hf hk hk2
    rw [List.getD_eq_getElem _ _ hk]
    exact this
  have hpk : prefixes.getD k [] = (rows.get ⟨k, hk2⟩).1 := by
    rw [hp, List.getD_eq_getElem _ _ (by rw [List.length_map]; exact hk2)]
    simp
  have hik : indexes.getD k 0 = (rows.get ⟨k, hk2⟩).2 := by
    rw [hi, List.getD_eq_getElem _ _ (by rw [List.length_map]; exact hk2)]
    simp
  rw [hrow, hpk, hik]

/-- On the vectors of `parseLabels`, `BipolarMontage::matchPair` returns -1 for a row with
the empty prefix, and a result that is not negative is a row with the same, non-empty
prefix and a greater index. -/
theorem matchPair_parsed {source prefixes : List (List Char)} {indexes : List Int}
    (h : parseLabels source [] [] = .ok (prefixes, indexes)) (i : Nat)
    (hi : i < source.length) :
    ∃ m, BipolarMontage.matchPair i prefixes indexes = some m ∧
      (prefixes.getD i [] = [] → m = -1) ∧
      (0 ≤ m → m.toNat < source.length ∧ prefixes.getD i [] ≠ [] ∧
        prefixes.getD m.toNat [] = prefixes.getD i [] ∧
        indexes.getD i 0 < indexes.getD m.toNat 0 ∧ indexes.getD m.toNat 0 ≤ INT_MAX) := by
  obtain ⟨hlp, hli, hrows⟩ := parsed_rows h
  obtain ⟨m, hm, hinv⟩ := matchPair_spec prefixes indexes i (hlp.trans hli.symm) (hlp ▸ hi)
  refine ⟨m, hm, ?_⟩
  rcases hinv with ⟨h1, _⟩ | ⟨k, hk, hkn, hpk, hik, _⟩
  · exact ⟨fun _ => h1, fun h0 => by omega⟩
  · have hkn1 : k < source.length := hlp ▸ hkn
    have hne : prefixes.getD i [] ≠ [] := by
      intro he
      rcases parseLabel_result (hrows i hi) with ⟨_, hv⟩ | ⟨hp, _⟩
      · rcases parseLabel_result (hrows k hkn1) with ⟨_, hvk⟩ | ⟨hpk1, _⟩
        · omega
        · exact hpk1 (hpk.trans he)
      · exact hp he
    have hmax : indexes.getD k 0 ≤ INT_MAX := by
      rcases parseLabel_result (hrows k hkn1) with ⟨_, hvk⟩ | ⟨_, _, hle, _⟩
      · rw [hvk]
        decide
      · exact hle
    refine ⟨fun he => absurd he hne, fun _ => ?_⟩
    rw [hk, Int.toNat_ofNat]
    exact ⟨hkn1, hne, hpk, hik, hmax⟩

/-- On the vectors of `parseLabels`, `BipolarNeighboursMontage::matchPair` returns -1 or
the result of `BipolarMontage::matchPair`. -/
theorem neighbours_parsed {source prefixes : List (List Char)} {indexes : List Int}
    (h : parseLabels source [] [] = .ok (prefixes, indexes)) (i : Nat)
    (hi : i < source.length) :
    ∃ m, BipolarNeighboursMontage.matchPair i prefixes indexes = some m ∧
      (m = -1 ∨ BipolarMontage.matchPair i prefixes indexes = some m) := by
  obtain ⟨hlp, hli, _⟩ := parsed_rows h
  obtain ⟨m, hm, _, hpos⟩ := matchPair_parsed h i hi
  unfold BipolarNeighboursMontage.matchPair
  rw [hm]
  simp only
  by_cases h0 : 0 ≤ m
  · obtain ⟨hmn, _, _, hlt, hmax⟩ := hpos h0
    rw [if_pos h0, Int.toNat_ofNat, getElem?_eq_some_getD indexes i 0 (hli ▸ hi),
      getElem?_eq_some_getD indexes m.toNat 0 (hli ▸ hmn)]
    simp only
    rw [if_neg (by omega)]
    split
    · exact ⟨-1, rfl, Or.inl rfl⟩
    · exact ⟨m, rfl, Or.inr rfl⟩
  · rw [if_neg h0]
    exact ⟨m, rfl, Or.inr rfl⟩

/-- The loop of `fillTrackTable` returns when `matchPair` returns valid rows, and each of
its entries comes from a row `i` of the loop with `0 <= match`. -/
theorem fillLoop_spec (matchPair : Int → List (List Char) → List Int → Option Int)
    (prefixes : List (List Char)) (indexes : List Int) (rows : List Nat)
    (hall : ∀ i ∈ rows, ∃ m, matchPair (i : Nat) prefixes indexes = some m ∧
      (0 ≤ m → i < prefixes.length ∧ i < indexes.length ∧ m.toNat < indexes.length)) :
    ∃ tracks, fillLoop matchPair prefixes indexes rows = some tracks ∧
      ∀ d ∈ tracks, d.i ∈ rows ∧ matchPair (d.i : Nat) prefixes indexes = some d.matched ∧
        0 ≤ d.matched ∧
        d.lA = prefixes.getD d.i [] ++ to_string (indexes.getD d.i 0) ∧
        d.lB = prefixes.getD d.i [] ++ to_string (indexes.getD d.matched.toNat 0) ∧
        d.code = trackCode d.lA d.lB := by
  induction rows with
  | nil => exact ⟨[], rfl, fun d hd => absurd hd (List.not_mem_nil _)⟩
  | cons i rows ih =>
    obtain ⟨tracks, ht, hd⟩ := ih (fun j hj => hall j (List.mem_cons_of_mem _ hj))
    obtain ⟨m, hm, hpos⟩ := hall i (List.mem_cons_self _ _)
    simp only [fillLoop, hm]
    by_cases h0 : 0 ≤ m
    · obtain ⟨h1, h2, h3⟩ := hpos h0
      rw [if_pos h0, getElem?_eq_some_getD prefixes i [] h1,
        getElem?_eq_some_getD indexes i 0 h2, getElem?_eq_some_getD indexes m.toNat 0 h3, ht]
      refine ⟨_, rfl, ?_⟩
      intro d hmem
      rcases List.mem_cons.1 hmem with hd1 | hd1
      · subst hd1
        exact ⟨List.mem_cons_self _ _, hm, h0, rfl, rfl, rfl⟩
      · obtain ⟨ha, hb⟩ := hd d hd1
        exact ⟨List.mem_cons_of_mem _ ha, hb⟩
    · rw [if_neg h0]
      refine ⟨tracks, ht, ?_⟩
      intro d hd1
      obtain ⟨ha, hb⟩ := hd d hd1
      exact ⟨List.mem_cons_of_mem _ ha, hb⟩

/-- C25: on the vectors that `parseLabels` produces from a track table, a row that could
not be parsed (prefix `""` and index -1) gets -1 from `matchPair`, and the match of any
row is a row with a non-empty prefix, for `BipolarMontage` and for
`BipolarNeighboursMontage`; `fillTrackTable` returns, and each derived track comes from
two rows whose labels are a non-empty run of non-digits followed by a non-empty run of
digits. -/
theorem unparsable_rows_unpaired (source prefixes : List (List Char)) (indexes : List Int)
    (matchPair : Int → List (List Char) → List Int → Option Int)
    (h : parseLabels source [] [] = .ok (prefixes, indexes))
    (hv : matchPair = BipolarMontage.matchPair ∨
      matchPair = BipolarNeighboursMontage.matchPair) :
    (∀ i, i < source.length → ∃ m, matchPair (i : Nat) prefixes indexes = some m ∧
      (prefixes.getD i [] = [] ∧ indexes.getD i 0 = -1 → m = -1) ∧
      (0 ≤ m → m.toNat < source.length ∧
        ¬ (prefixes.getD m.toNat [] = [] ∧ indexes.getD m.toNat 0 = -1))) ∧
    ∃ tracks, fillTrackTable matchPair source = some (.ok tracks) ∧
      ∀ d ∈ tracks, d.i < source.length ∧ 0 ≤ d.matched ∧ d.matched.toNat < source.length ∧
        matchPair (d.i : Nat) prefixes indexes = some d.matched ∧
        (∃ p q, source.getD d.i [] = p ++ q ∧ p ≠ [] ∧ (∀ c ∈ p, isdigit c = false) ∧
          q ≠ [] ∧ ∀ c ∈ q, isdigit c = true) ∧
        (∃ p q, source.getD d.matched.toNat [] = p ++ q ∧ p ≠ [] ∧
          (∀ c ∈ p, isdigit c = false) ∧ q ≠ [] ∧ ∀ c ∈ q, isdigit c = true) := by
  obtain ⟨hlp, hli, hrows⟩ := parsed_rows h
  have key : ∀ i, i < source.length → ∃ m, matchPair (i : Nat) prefixes indexes = some m ∧
      (prefixes.getD i [] = [] → m = -1) ∧
      (0 ≤ m → m.toNat < source.length ∧ prefixes.getD i [] ≠ [] ∧
        prefixes.getD m.toNat [] = prefixes.getD i []) := by
    intro i hi
    obtain ⟨m, hm, hu, hpos⟩ := matchPair_parsed h i hi
    rcases hv with hv | hv
    · rw [hv]
      exact ⟨m, hm, hu, fun h0 => ⟨(hpos h0).1, (hpos h0).2.1, (hpos h0).2.2.1⟩⟩
    · obtain ⟨m1, hm1, hor⟩ := neighbours_parsed h i hi
      rw [hv]
      refine ⟨m1, hm1, ?_⟩
      rcases hor with h1 | h1
      · exact ⟨fun _ => h1, fun h0 => by omega⟩
      · rw [hm] at h1
        cases h1
        exact ⟨hu, fun h0 => ⟨(hpos h0).1, (hpos h0).2.1, (hpos h0).2.2.1⟩⟩
  have wf : ∀ k, k < source.length → prefixes.getD k [] ≠ [] →
      ∃ p q, source.getD k [] = p ++ q ∧ p ≠ [] ∧ (∀ c ∈ p, isdigit c = false) ∧
        q ≠ [] ∧ ∀ c ∈ q, isdigit c = true := by
    intro k hk hne
    rcases parseLabel_result (hrows k hk) with ⟨he, _⟩ | ⟨hp, _, _, q, hl, hq, hpn, hqd, _⟩
    · exact absurd he hne
    · exact ⟨_, q, hl, hp, hpn, hq, hqd⟩
  constructor
  · intro i hi
    obtain ⟨m, hm, hu, hpos⟩ := key i hi
    refine ⟨m, hm, fun hun => hu hun.1, fun h0 => ⟨(hpos h0).1, ?_⟩⟩
    rintro ⟨he, _⟩
    exact (hpos h0).2.1 ((hpos h0).2.2.symm.trans he)
  · obtain ⟨tracks, ht, hd⟩ := fillLoop_spec matchPair prefixes indexes
      (List.range prefixes.length) (by
        intro i hi
        have hi1 : i < source.length := hlp ▸ List.mem_range.1 hi
        obtain ⟨m, hm, _, hpos⟩ := key i hi1
        exact ⟨m, hm, fun h0 => ⟨hlp ▸ hi1, hli ▸ hi1, hli ▸ (hpos h0).1⟩⟩)
    refine ⟨tracks, ?_, ?_⟩
    · unfold fillTrackTable
      rw [h]
      simp only
      rw [if_neg (by omega), ht]
      rfl
    · intro d hmem
      obtain ⟨hin, hm, h0, _⟩ := hd d hmem
      have hi1 : d.i < source.length := hlp ▸ List.mem_range.1 hin
      obtain ⟨m, hm1, _, hpos⟩ := key d.i hi1
      rw [hm] at hm1
      cases hm1
      obtain ⟨hmn, hne, hsame⟩ := hpos h0
      exact ⟨hi1, h0, hmn, hm, wf d.i hi1 hne, wf _ hmn (hsame ▸ hne)⟩

theorem unparsable_rows_unpaired_witness :
    parseLabels demoLabels [] [] = .ok (demoPrefixes, demoIndexes) ∧
    (BipolarNeighboursMontage.matchPair = BipolarMontage.matchPair ∨
      BipolarNeighboursMontage.matchPair = BipolarNeighboursMontage.matchPair) ∧
    (∀ i, i < demoLabels.length →
      ∃ m, BipolarNeighboursMontage.matchPair (i : Nat) demoPrefixes demoIndexes = some m ∧
      (demoPrefixes.getD i [] = [] ∧ demoIndexes.getD i 0 = -1 → m = -1) ∧
      (0 ≤ m → m.toNat < demoLabels.length ∧
        ¬ (demoPrefixes.getD m.toNat [] = [] ∧ demoIndexes.getD m.toNat 0 = -1))) ∧
    ∃ tracks, fillTrackTable BipolarNeighboursMontage.matchPair demoLabels =
        some (.ok tracks) ∧
      ∀ d ∈ tracks, d.i < demoLabels.length ∧ 0 ≤ d.matched ∧
        d.matched.toNat < demoLabels.length ∧
        BipolarNeighboursMontage.matchPair (d.i : Nat) demoPrefixes demoIndexes =
          some d.matched ∧
        (∃ p q, demoLabels.getD d.i [] = p ++ q ∧ p ≠ [] ∧ (∀ c ∈ p, isdigit c = false) ∧
          q ≠ [] ∧ ∀ c ∈ q, isdigit c = true) ∧
        (∃ p q, demoLabels.getD d.matched.toNat [] = p ++ q ∧ p ≠ [] ∧
          (∀ c ∈ p, isdigit c = false) ∧ q ≠ [] ∧ ∀ c ∈ q, isdigit c = true) :=
  ⟨rfl, Or.inr rfl,
    unparsable_rows_unpaired demoLabels demoPrefixes demoIndexes
      BipolarNeighboursMontage.matchPair rfl (Or.inr rfl)⟩

/-! ## The labels in the generated code (C26) -/

/-- C26, the failing input: for a source table with the rows `A01` and `A02`,
`fillTrackTable` pairs row 0 with row 1 and generates the code
`out = in("A1") - in("A2");`: the strings `lA = A1` and `lB = A2` are not the labels
`A01` and `A02` of the two rows, and no row of the table has the label `A1` or `A2`. -/
theorem generated_labels_differ :
    fillTrackTable BipolarMontage.matchPair paddedLabels =
      some (.ok [{ i := 0, matched := 1, label := "A1-2".toList, lA := "A1".toList,
                   lB := "A2".toList,
                   code := trackCode "A1".toList "A2".toList }]) ∧
    paddedLabels.getD 0 [] = "A01".toList ∧ paddedLabels.getD 1 [] = "A02".toList ∧
    "A1".toList ≠ paddedLabels.getD 0 [] ∧ "A2".toList ≠ paddedLabels.getD 1 [] ∧
    "A1".toList ∉ paddedLabels ∧ "A2".toList ∉ paddedLabels :=
  ⟨rfl, by decide⟩

/-! ## Slots that have never been bound (C27) -/

theorem reachable_tri1 : Reachable stdLib tri1 :=
  Reachable.getAny (@Reachable.create stdLib 256 64 4 3 31 tri0 rfl)
    (List.cons_ne_nil 8 []) (by decide : getAny stdLib tri0 [8] 1 1 = some ⟨8, 2, false, none, tri1⟩)

theorem getAny_tri1 :
    getAny stdLib tri1 [9] 2 2 = some ⟨9, 1, false, none, triAged 1⟩ := by decide

theorem getAny_triAged (n : Nat) (h : n + 2 < UINT_RANGE) :
    getAny stdLib (triAged n) [9] 3 3 =
      some ⟨9, 1, true, some ⟨1, 3, 3⟩, triAged (n + 1)⟩ := by
  have h1 : (n + 1 + 1) % UINT_RANGE = n + 1 + 1 := Nat.mod_eq_of_lt h
  have h2 : (n + 1) % UINT_RANGE = n + 1 := Nat.mod_eq_of_lt (by omega)
  have h3 : (0 + 1) % UINT_RANGE = 1 := by decide
  simp [getAny, stdLib, findCommonFirst, triAged, tri0, touch, enqueuCopy,
    insertionSortBy, insertSorted, h1, h2, h3]

theorem reachable_triAged (n : Nat) (h : n + 2 < UINT_RANGE) :
    Reachable stdLib (triAged (n + 1)) := by
  induction n with
  | zero => exact Reachable.getAny reachable_tri1 (List.cons_ne_nil 9 []) getAny_tri1
  | succ k ih =>
    exact Reachable.getAny (ih (by omega)) (List.cons_ne_nil 9 []) (getAny_triAged (k + 1) h)

theorem getAny_triAged_last :
    getAny stdLib (triAged 4294967294) [9] 3 3 =
      some ⟨9, 1, true, some ⟨1, 3, 3⟩, triWrapped⟩ := by decide

theorem reachable_triWrapped : Reachable stdLib triWrapped :=
  Reachable.getAny (reachable_triAged 4294967293 (by decide)) (List.cons_ne_nil 9 [])
    getAny_triAged_last

/-- In a state in which every slot that is bound has a smaller `lastUsed` entry than
every slot that is not, and some slot is not bound, a miss binds a slot that is not bound
and keeps every binding. -/
theorem miss_takes_unbound_of_ages (L : Lib) (hL : L.Ok) (c : GPUCache) (hc : Inv c)
    (hage : ∀ u b, u < c.capacity → (∀ k, (u, k) ∉ c.reverseIndexMap) →
      (∃ k, (b, k) ∈ c.reverseIndexMap) → c.lastUsed.getD b 0 < c.lastUsed.getD u 0)
    (hex : ∃ u, u < c.capacity ∧ ∀ k, (u, k) ∉ c.reverseIndexMap)
    (S : List Int) (buf ev : Nat) (r : GetAnyResult)
    (hr : getAny L c S buf ev = some r) (hmiss : r.hit = false) :
    (∀ k, (r.cacheIndex, k) ∉ c.reverseIndexMap) ∧
    ∀ k s, (k, s) ∈ c.indexMap → (k, s) ∈ r.cache.indexMap := by
  rcases getAny_cases hr with ⟨_, hhit, _, _⟩ | ⟨hf, _, _, hS, hv, ht⟩
  · rw [hhit] at hmiss
    cases hmiss
  · obtain ⟨u, hu, hun⟩ := hex
    have hback : ∀ k, (r.cacheIndex, k) ∉ c.reverseIndexMap := by
      intro k hk
      have h1 := hage u r.cacheIndex hu hun ⟨k, hk⟩
      have h2 := @sorted_le_back (fun a => c.lastUsed.getD a 0) c.order r.cacheIndex
        hc.order_sorted hv u (hc.order_perm.symm.subset (List.mem_range.2 hu))
      simp only at h2
      omega
    refine ⟨hback, ?_⟩
    intro k s hks
    rw [(touch_fields ht).2.2.1]
    rw [mem_rebind_indexMap hc r.index r.cacheIndex ev buf (miss_unbound hL hf hS)]
    right
    refine ⟨hks, ?_⟩
    intro hsv
    rw [hsv] at hks
    exact hback k ((hc.inverse _ _).1 hks)

/-- C27, the failing input: on a new cache of three slots, `getAny({8}, 1, 1)` (miss,
slot 2), `getAny({9}, 2, 2)` (miss, slot 1) and `2^32 - 2` calls `getAny({9}, 3, 3)`
(hits) lead to the state `triWrapped`, in which slot 0 has never been bound and its
`lastUsed` entry has wrapped to 0.  The miss `getAny({10}, 4, 4)` then takes slot 2 and
unbinds block 8, although slot 0 is free. -/
theorem bound_slot_taken_before_unbound :
    Reachable stdLib triWrapped ∧
    mapFind triWrapped.reverseIndexMap 0 = none ∧
    (∀ q ∈ triWrapped.issued, q.cacheIndex ≠ 0) ∧
    mapFind triWrapped.indexMap 8 = some 2 ∧
    triWrapped.lastUsed = [0, 0, 4294967295] ∧
    getAny stdLib triWrapped [10] 4 4 = some ⟨10, 2, false, none, triEvicted⟩ ∧
    mapFind triEvicted.indexMap 8 = none ∧
    mapFind triEvicted.reverseIndexMap 0 = none :=
  ⟨reachable_triWrapped, by decide⟩

/-! ## The block returned last and the next miss (C28) -/

theorem tieLib_ok : tieLib.Ok where
  findCommon_some := stdLib_ok.findCommon_some
  findCommon_none := stdLib_ok.findCommon_none
  sort_perm := fun _ l => (insertionSortBy_perm _ l.reverse).trans (List.reverse_perm l)
  sort_sorted := fun key l => insertionSortBy_sorted key l.reverse

theorem getAny_aged_tie (n : Nat) (h : n + 1 < UINT_RANGE) :
    getAny tieLib (aged n) [5] 7 7 = some ⟨5, 1, true, some ⟨1, 7, 7⟩, aged (n + 1)⟩ := by
  have h1 : (n + 1) % UINT_RANGE = n + 1 := Nat.mod_eq_of_lt h
  have h2 : (0 + 1) % UINT_RANGE = 1 := by decide
  simp [getAny, tieLib, reverseSortBy, findCommonFirst, aged, demo1, demo0, touch, enqueuCopy,
    insertionSortBy, insertSorted, h1, h2]

theorem reachable_aged_tie (n : Nat) (h : n + 1 < UINT_RANGE) :
    Reachable tieLib (aged (n + 1)) := by
  induction n with
  | zero =>
    exact Reachable.getAny (@Reachable.create tieLib 256 64 4 2 31 demo0 rfl)
      (List.cons_ne_nil 5 [6, 7])
      (by decide : getAny tieLib demo0 [5, 6, 7] 1 1 = some ⟨5, 1, false, none, demo1⟩)
  | succ k ih =>
    have hk : k + 1 < UINT_RANGE := by omega
    exact Reachable.getAny (ih hk) (List.cons_ne_nil 5 []) (getAny_aged_tie (k + 1) h)

/-- Every `lastUsed` entry of a reachable state is an `unsigned int` value. -/
theorem lastUsed_lt {L : Lib} {c : GPUCache} (hc : Reachable L c) :
    ∀ e ∈ c.lastUsed, e < UINT_RANGE := by
  induction hc with
  | create h =>
    intro e he
    rw [(create_fields h).2.2.1] at he
    rw [List.eq_of_mem_replicate he]
    decide
  | @getAny c S buf ev r _ _ hr ih =>
    have key : ∀ (c1 : GPUCache) (s : Nat), touch L c1 s = some r.cache →
        ∀ e ∈ r.cache.lastUsed, e < UINT_RANGE := by
      intro c1 s ht e he
      rw [(touch_fields ht).2.1] at he
      rcases List.mem_or_eq_of_mem_set he with h1 | h1
      · obtain ⟨a, _, ha⟩ := List.mem_map.1 h1
        rw [← ha]
        exact Nat.mod_lt _ (by decide)
      · rw [h1]
        decide
    rcases getAny_cases hr with ⟨_, _, _, ht⟩ | ⟨_, _, _, _, _, ht⟩
    · exact key _ _ ht
    · exact key _ _ ht
  | @load c c1 l _ hl ih =>
    unfold loaderThreadFunction at hl
    split at hl
    · cases hl
    · simp only [Option.some.injEq, Prod.mk.injEq] at hl
      rw [← hl.2]
      exact ih

/-- The assumption on equal keys is needed: with a sort that meets the contract of
`std::sort` but reverses equal keys, the two-slot state `aged 4294967295` is reachable;
`getAny({5}, 7, 7)` returns block 5 in slot 1 and wraps the other `lastUsed` entry to 0,
so that both entries are 0 and the sort leaves slot 1 at the back of `order`.  The miss
`getAny({6}, 8, 8)` that follows takes slot 1 and unbinds block 5, the block returned by
the call before. -/
theorem returned_block_evicted :
    tieLib.Ok ∧ Reachable tieLib (aged 4294967295) ∧ 2 ≤ (aged 4294967295).capacity ∧
    getAny tieLib (aged 4294967295) [5] 7 7 = some ⟨5, 1, true, some ⟨1, 7, 7⟩, agedTie⟩ ∧
    agedTie.order.getLast? = some 1 ∧
    getAny tieLib agedTie [6] 8 8 = some ⟨6, 1, false, none, agedTieEvicted⟩ ∧
    mapFind agedTieEvicted.indexMap 5 = none :=
  ⟨tieLib_ok, reachable_aged_tie 4294967294 (by decide), by decide⟩

/-- For every sort within the contract: let `getAny` return block `i` in slot `s` in a
reachable state, and let the next call of `getAny` be a miss.  If the cache has one slot,
the miss takes slot `s` and unbinds block `i`.  If some other slot had a `lastUsed` entry
different from `2^32 - 1` before the first call, slot `s` is not at the back of `order`
after it, and the miss takes another slot and leaves block `i` bound to slot `s`. -/
theorem returned_block_survives (L : Lib) (hL : L.Ok) (c : GPUCache) (hc : Reachable L c)
    (S : List Int) (buf ev : Nat) (r : GetAnyResult) (hr : getAny L c S buf ev = some r)
    (S1 : List Int) (buf1 ev1 : Nat) (r1 : GetAnyResult)
    (hr1 : getAny L r.cache S1 buf1 ev1 = some r1) (hmiss : r1.hit = false) :
    (c.capacity = 1 → r1.cacheIndex = r.cacheIndex ∧ ∀ s, (r.index, s) ∉ r1.cache.indexMap) ∧
    ((∃ j, j < c.capacity ∧ j ≠ r.cacheIndex ∧ c.lastUsed.getD j 0 ≠ UINT_RANGE - 1) →
      r.cache.order.getLast? ≠ some r.cacheIndex ∧ r1.cacheIndex ≠ r.cacheIndex ∧
      (r.index, r.cacheIndex) ∈ r1.cache.indexMap) := by
  have hi := hc.inv hL
  have hi1 := inv_getAny hL hi hr
  have hb := (getAny_bound hL hr).2
  have hcap : r.cache.capacity = c.capacity := by
    rcases getAny_cases hr with ⟨_, _, _, ht⟩ | ⟨_, _, _, _, _, ht⟩
    · exact (touch_fields ht).2.2.2.2.2.2.2
    · exact (touch_fields ht).2.2.2.2.2.2.2
  have hs : r.cacheIndex < c.capacity := hcap ▸ hi1.slot_lt _ _ hb
  rcases getAny_cases hr1 with ⟨_, hhit, _, _⟩ | ⟨hf, _, _, hS, hv, ht⟩
  · rw [hhit] at hmiss
    cases hmiss
  have hv1 : r1.cacheIndex < c.capacity := hcap ▸ order_back_lt hi1 hv
  have hmem : ∀ k s, (k, s) ∈ r1.cache.indexMap ↔
      (k = r1.index ∧ s = r1.cacheIndex) ∨ ((k, s) ∈ r.cache.indexMap ∧ s ≠ r1.cacheIndex) := by
    intro k s
    rw [(touch_fields ht).2.2.1]
    exact mem_rebind_indexMap hi1 r1.index r1.cacheIndex ev1 buf1 (miss_unbound hL hf hS) k s
  constructor
  · intro h1
    refine ⟨by omega, ?_⟩
    intro s hs1
    rcases (hmem _ _).1 hs1 with ⟨hk, _⟩ | ⟨hin, hne⟩
    · exact miss_unbound hL hf hS r.cacheIndex (hk ▸ hb)
    · have := hcap ▸ hi1.slot_lt _ _ hin
      omega
  · rintro ⟨j, hj, hjs, hjl⟩
    obtain ⟨h0, hothers, hperm, hsorted⟩ := touch_on_use_mod L hL c hc S buf ev r hr
    have hjlt : c.lastUsed.getD j 0 < UINT_RANGE := by
      rw [List.getD_eq_getElem _ _ (by rw [hi.lastUsed_length]; exact hj)]
      exact lastUsed_lt hc _ (List.getElem_mem _)
    have hjpos : 0 < r.cache.lastUsed.getD j 0 := by
      rw [hothers j hj hjs, Nat.mod_eq_of_lt (by omega)]
      omega
    have hback : r.cache.order.getLast? ≠ some r.cacheIndex := by
      intro hlast
      have := @sorted_le_back (fun a => r.cache.lastUsed.getD a 0) r.cache.order r.cacheIndex
        hsorted hlast j (hperm.symm.subset (List.mem_range.2 hj))
      simp only at this
      omega
    have hne : r1.cacheIndex ≠ r.cacheIndex := by
      intro he
      rw [he] at hv
      exact hback hv
    exact ⟨hback, hne, (hmem _ _).2 (Or.inr ⟨hb, fun h => hne h.symm⟩)⟩

theorem returned_block_survives_witness :
    stdLib.Ok ∧ Reachable stdLib demo0 ∧
    getAny stdLib demo0 [5, 6, 7] 1 1 = some ⟨5, 1, false, none, demo1⟩ ∧
    getAny stdLib demo1 [6] 2 2 = some ⟨6, 0, false, none, demo2⟩ ∧
    (demo0.capacity = 1 → (0 : Nat) = 1 ∧ ∀ s, ((5 : Int), s) ∉ demo2.indexMap) ∧
    ((∃ j, j < demo0.capacity ∧ j ≠ 1 ∧ demo0.lastUsed.getD j 0 ≠ UINT_RANGE - 1) →
      demo1.order.getLast? ≠ some 1 ∧ (0 : Nat) ≠ 1 ∧ ((5 : Int), 1) ∈ demo2.indexMap) :=
  ⟨stdLib_ok, reachable_demo0, getAny_demo0, getAny_demo1,
    returned_block_survives stdLib stdLib_ok demo0 reachable_demo0 [5, 6, 7] 1 1
      ⟨5, 1, false, none, demo1⟩ getAny_demo0 [6] 2 2 ⟨6, 0, false, none, demo2⟩
      getAny_demo1 rfl⟩

/-! ## Labels without leading zeros (C26) -/

theorem toDigitsCore_fuel (f1 : Nat) :
    ∀ (f2 n : Nat) (ds : List Char), n < f1 → n < f2 →
      Nat.toDigitsCore 10 f1 n ds = Nat.toDigitsCore 10 f2 n ds := by
  induction f1 with
  | zero => intro f2 n ds h1; omega
  | succ a ih =>
    intro f2 n ds h1 h2
    cases f2 with
    | zero => omega
    | succ b =>
      simp only [Nat.toDigitsCore]
      split
      · rfl
      · next hne =>
        exact ih b (n / 10) _ (by omega) (by omega)

theorem toDigitsCore_append (f : Nat) :
    ∀ (n : Nat) (ds : List Char),
      Nat.toDigitsCore 10 f n ds = Nat.toDigitsCore 10 f n [] ++ ds := by
  induction f with
  | zero => intro n ds; rfl
  | succ a ih =>
    intro n ds
    simp only [Nat.toDigitsCore]
    split
    · rfl
    · rw [ih (n / 10) (_ :: ds), ih (n / 10) [_], List.append_assoc]
      rfl

theorem toDigits_small (r : Nat) (h : r < 10) : Nat.toDigits 10 r = [Nat.digitChar r] := by
  unfold Nat.toDigits
  simp only [Nat.toDigitsCore]
  rw [Nat.mod_eq_of_lt h, if_pos (Nat.div_eq_of_lt h)]

theorem toDigits_step (v r : Nat) (hv : 0 < v) (h : r < 10) :
    Nat.toDigits 10 (10 * v + r) = Nat.toDigits 10 v ++ [Nat.digitChar r] := by
  have hdiv : (10 * v + r) / 10 = v := by omega
  have hmod : (10 * v + r) % 10 = r := by omega
  unfold Nat.toDigits
  rw [Nat.toDigitsCore]
  simp only [hdiv, hmod]
  rw [if_neg (by omega), toDigitsCore_append,
    toDigitsCore_fuel (10 * v + r) (v + 1) v [] (by omega) (by omega)]

theorem to_string_natCast (v : Nat) : to_string (v : Int) = Nat.toDigits 10 v := rfl

theorem digitChar_of_isdigit (c : Char) (h : isdigit c = true) :
    c.toNat - 48 < 10 ∧ Nat.digitChar (c.toNat - 48) = c := by
  unfold isdigit at h
  have h1 : 48 ≤ c.toNat ∧ c.toNat ≤ 57 := by simpa using h
  have hc : c = Char.ofNat c.toNat := (Char.ofNat_toNat c).symm
  refine ⟨by omega, ?_⟩
  have hcases : c.toNat = 48 ∨ c.toNat = 49 ∨ c.toNat = 50 ∨ c.toNat = 51 ∨ c.toNat = 52 ∨
      c.toNat = 53 ∨ c.toNat = 54 ∨ c.toNat = 55 ∨ c.toNat = 56 ∨ c.toNat = 57 := by omega
  rcases hcases with h2 | h2 | h2 | h2 | h2 | h2 | h2 | h2 | h2 | h2 <;>
    · rw [h2]
      rw [hc, h2]
      rfl

theorem decimalValue_append (d : List Char) (c : Char) :
    decimalValue (d ++ [c]) = 10 * decimalValue d + (c.toNat - 48) := by
  unfold decimalValue
  rw [List.foldl_append]
  rfl

/-- The function `to_string` gives back a run of digits without a leading zero from its
decimal value. -/
theorem to_string_decimalValue (d : List Char) :
    d ≠ [] → (∀ c ∈ d, isdigit c = true) → (d = ['0'] ∨ d.head? ≠ some '0') →
    to_string (decimalValue d : Int) = d := by
  induction d using List.reverseRecOn with
  | nil => intro h; exact absurd rfl h
  | append_singleton initial c ih =>
    intro _ hdig hz
    obtain ⟨hlt, hch⟩ := digitChar_of_isdigit c (hdig c (by simp))
    rw [to_string_natCast, decimalValue_append]
    cases initial with
    | nil =>
      have : decimalValue [] = 0 := rfl
      rw [this, Nat.mul_zero, Nat.zero_add, toDigits_small _ hlt, hch]
      rfl
    | cons a rest =>
      have hhead : a ≠ '0' := by
        rcases hz with hz | hz
        · have := congrArg List.length hz
          simp at this
        · intro ha
          apply hz
          simp [ha]
      have ih1 := ih (List.cons_ne_nil a rest)
        (fun x hx => hdig x (List.mem_append_left _ hx))
        (Or.inr (by simpa using hhead))
      rw [to_string_natCast] at ih1
      have hpos : 0 < decimalValue (a :: rest) := by
        rcases Nat.eq_zero_or_pos (decimalValue (a :: rest)) with h0 | h0
        · rw [h0] at ih1
          have hzero : Nat.toDigits 10 0 = ['0'] := rfl
          rw [hzero] at ih1
          have : a = '0' := (List.cons.inj ih1).1.symm
          exact absurd this hhead
        · exact h0
      rw [toDigits_step _ _ hpos hlt, ih1, hch]

/-- When no label of the table has a leading zero in its run of digits, the strings `lA`
and `lB` of every derived track are the labels of the rows `i` and `match`. -/
theorem generated_labels_canonical (source prefixes : List (List Char)) (indexes : List Int)
    (matchPair : Int → List (List Char) → List Int → Option Int)
    (h : parseLabels source [] [] = .ok (prefixes, indexes))
    (hv : matchPair = BipolarMontage.matchPair ∨
      matchPair = BipolarNeighboursMontage.matchPair)
    (hz : ∀ label ∈ source, ∀ p q, label = p ++ q → p ≠ [] → (∀ c ∈ p, isdigit c = false) →
      q ≠ [] → (∀ c ∈ q, isdigit c = true) → (q = ['0'] ∨ q.head? ≠ some '0')) :
    ∃ tracks, fillTrackTable matchPair source = some (.ok tracks) ∧
      ∀ d ∈ tracks, d.lA = source.getD d.i [] ∧ d.lB = source.getD d.matched.toNat [] ∧
        d.code = trackCode (source.getD d.i []) (source.getD d.matched.toNat []) := by
  obtain ⟨hlp, hli, hrows⟩ := parsed_rows h
  have key : ∀ i, i < source.length → ∃ m, matchPair (i : Nat) prefixes indexes = some m ∧
      (0 ≤ m → m.toNat < source.length ∧ prefixes.getD i [] ≠ [] ∧
        prefixes.getD m.toNat [] = prefixes.getD i []) := by
    intro i hi
    obtain ⟨m, hm, _, hpos⟩ := matchPair_parsed h i hi
    rcases hv with hv | hv
    · rw [hv]
      exact ⟨m, hm, fun h0 => ⟨(hpos h0).1, (hpos h0).2.1, (hpos h0).2.2.1⟩⟩
    · obtain ⟨m1, hm1, hor⟩ := neighbours_parsed h i hi
      rw [hv]
      refine ⟨m1, hm1, ?_⟩
      rcases hor with h1 | h1
      · exact fun h0 => by omega
      · rw [hm] at h1
        cases h1
        exact fun h0 => ⟨(hpos h0).1, (hpos h0).2.1, (hpos h0).2.2.1⟩
  have back : ∀ k, k < source.length → prefixes.getD k [] ≠ [] →
      prefixes.getD k [] ++ to_string (indexes.getD k 0) = source.getD k [] := by
    intro k hk hne
    rcases parseLabel_result (hrows k hk) with ⟨he, _⟩ | ⟨hp, _, _, q, hl, hq, hpn, hqd, hval⟩
    · exact absurd he hne
    · have hmem : source.getD k [] ∈ source := by
        rw [List.getD_eq_getElem _ _ hk]
        exact List.getElem_mem _
      rw [hval, to_string_decimalValue q hq hqd (hz _ hmem _ q hl hp hpn hq hqd)]
      exact hl.symm
  obtain ⟨tracks, ht, hd⟩ := fillLoop_spec matchPair prefixes indexes
    (List.range prefixes.length) (by
      intro i hi
      have hi1 : i < source.length := hlp ▸ List.mem_range.1 hi
      obtain ⟨m, hm, hpos⟩ := key i hi1
      exact ⟨m, hm, fun h0 => ⟨hlp ▸ hi1, hli ▸ hi1, hli ▸ (hpos h0).1⟩⟩)
  refine ⟨tracks, ?_, ?_⟩
  · unfold fillTrackTable
    rw [h]
    simp only
    rw [if_neg (by omega), ht]
    rfl
  · intro d hmem
    obtain ⟨hin, hm, h0, hA, hB, hcode⟩ := hd d hmem
    have hi1 : d.i < source.length := hlp ▸ List.mem_range.1 hin
    obtain ⟨m, hm1, hpos⟩ := key d.i hi1
    rw [hm] at hm1
    cases hm1
    obtain ⟨hmn, hne, hsame⟩ := hpos h0
    have hA1 : d.lA = source.getD d.i [] := by rw [hA, back d.i hi1 hne]
    have hB1 : d.lB = source.getD d.matched.toNat [] := by
      rw [hB, ← hsame, back _ hmn (hsame ▸ hne)]
    exact ⟨hA1, hB1, by rw [hcode, hA1, hB1]⟩

/-! ## Slots that have never been bound, before the counters wrap (C27) -/

theorem ReachableIn.reachable {L : Lib} {n : Nat} {c : GPUCache} (h : ReachableIn L n c) :
    Reachable L c := by
  induction h with
  | create h => exact Reachable.create h
  | getAny _ hS hr ih => exact Reachable.getAny ih hS hr
  | load _ hl ih => exact Reachable.load ih hl

/-- After `n < 2^32` calls of `getAny`, the `lastUsed` entry of a slot that is bound is
smaller than `n`, and that of a slot that is not bound is `n`. -/
theorem ages_of_calls {L : Lib} (hL : L.Ok) {n : Nat} {c : GPUCache}
    (h : ReachableIn L n c) (hn : n < UINT_RANGE) :
    ∀ s, s < c.capacity →
      ((∃ k, (s, k) ∈ c.reverseIndexMap) → c.lastUsed.getD s 0 < n) ∧
      ((∀ k, (s, k) ∉ c.reverseIndexMap) → c.lastUsed.getD s 0 = n) := by
  induction h with
  | create hc =>
    intro s hs
    have hf := create_fields hc
    have hi := inv_create hc
    constructor
    · rintro ⟨k, hk⟩
      have := (hi.inverse k s).2 hk
      rw [hf.2.2.2.2.1] at this
      cases this
    · intro _
      rw [hf.2.2.1]
      rw [List.getD_eq_getElem?_getD, List.getElem?_replicate]
      split <;> rfl
  | @getAny n c S buf ev r hc hS hr ih =>
    intro s hs
    have hreach := hc.reachable
    have hi := hreach.inv hL
    have hi1 := inv_getAny hL hi hr
    have hb := (getAny_bound hL hr).2
    obtain ⟨h0, hothers, _, _⟩ := touch_on_use_mod L hL c hreach S buf ev r hr
    have hcap : r.cache.capacity = c.capacity := by
      rcases getAny_cases hr with ⟨_, _, _, ht⟩ | ⟨_, _, _, _, _, ht⟩
      · exact (touch_fields ht).2.2.2.2.2.2.2
      · exact (touch_fields ht).2.2.2.2.2.2.2
    rw [hcap] at hs
    by_cases hs0 : s = r.cacheIndex
    · subst hs0
      constructor
      · intro _
        rw [h0]
        omega
      · intro hun
        exact absurd ((hi1.inverse _ _).1 hb) (hun _)
    · have hold := ih (by omega) s hs
      have hbound : (∃ k, (s, k) ∈ r.cache.reverseIndexMap) ↔
          (∃ k, (s, k) ∈ c.reverseIndexMap) := by
        rcases getAny_cases hr with ⟨_, _, _, ht⟩ | ⟨hf, _, _, hS1, _, ht⟩
        · rw [(touch_fields ht).2.2.2.1]
        · constructor
          · rintro ⟨k, hk⟩
            have h1 := (hi1.inverse k s).2 hk
            rw [(touch_fields ht).2.2.1,
              mem_rebind_indexMap hi r.index r.cacheIndex ev buf (miss_unbound hL hf hS1)] at h1
            rcases h1 with ⟨_, h2⟩ | ⟨h2, _⟩
            · exact absurd h2 hs0
            · exact ⟨k, (hi.inverse k s).1 h2⟩
          · rintro ⟨k, hk⟩
            refine ⟨k, (hi1.inverse k s).1 ?_⟩
            rw [(touch_fields ht).2.2.1,
              mem_rebind_indexMap hi r.index r.cacheIndex ev buf (miss_unbound hL hf hS1)]
            exact Or.inr ⟨(hi.inverse k s).2 hk, hs0⟩
      have hle : c.lastUsed.getD s 0 ≤ n := by
        by_cases hbd : ∃ k, (s, k) ∈ c.reverseIndexMap
        · exact le_of_lt (hold.1 hbd)
        · exact le_of_eq (hold.2 (fun k hk => hbd ⟨k, hk⟩))
      rw [hothers s hs hs0, Nat.mod_eq_of_lt (by omega)]
      constructor
      · intro hbd
        have := hold.1 (hbound.1 hbd)
        omega
      · intro hun
        have := hold.2 (fun k hk => hun k (by
          obtain ⟨k1, hk1⟩ := hbound.2 ⟨k, hk⟩
          exact absurd hk1 (hun k1)))
        omega
  | @load n c c1 l _ hl ih =>
    unfold loaderThreadFunction at hl
    split at hl
    · cases hl
    · simp only [Option.some.injEq, Prod.mk.injEq] at hl
      rw [← hl.2]
      exact ih hn

/-- In a state reached with fewer than `2^32` calls of `getAny` in which some slot is not
bound, a miss binds a slot that is not bound and keeps every binding. -/
theorem miss_takes_unbound_before_wrap (L : Lib) (hL : L.Ok) (n : Nat) (c : GPUCache)
    (hc : ReachableIn L n c) (hn : n < UINT_RANGE)
    (hex : ∃ u, u < c.capacity ∧ ∀ k, (u, k) ∉ c.reverseIndexMap)
    (S : List Int) (buf ev : Nat) (r : GetAnyResult)
    (hr : getAny L c S buf ev = some r) (hmiss : r.hit = false) :
    (∀ k, (r.cacheIndex, k) ∉ c.reverseIndexMap) ∧
    (∀ q ∈ c.issued, q.cacheIndex ≠ r.cacheIndex) ∧
    ∀ k s, (k, s) ∈ c.indexMap → (k, s) ∈ r.cache.indexMap := by
  have hi := hc.reachable.inv hL
  have hages := ages_of_calls hL hc hn
  have hmain := miss_takes_unbound_of_ages L hL c hi
    (by
      intro u b hu hun hbd
      obtain ⟨k, hk⟩ := hbd
      have hb : b < c.capacity := hi.slot_lt k b ((hi.inverse k b).2 hk)
      have h1 := (hages b hb).1 ⟨k, hk⟩
      have h2 := (hages u hu).2 hun
      omega)
    hex S buf ev r hr hmiss
  refine ⟨hmain.1, ?_, hmain.2⟩
  intro q hq he
  obtain ⟨k, hk⟩ := hi.issued_bound q hq
  rw [he] at hk
  exact hmain.1 k hk

/-! ## The victim of a miss and the order of use (C2) -/

theorem reachable_of_reachableBy {L : Lib} {t : List Nat} {c : GPUCache}
    (h : ReachableBy L t c) : Reachable L c := by
  induction h with
  | create h => exact Reachable.create h
  | getAny _ hS hr ih => exact Reachable.getAny ih hS hr
  | load _ hl ih => exact Reachable.load ih hl

/-- After fewer than `2^32` calls of `getAny`, the `lastUsed` entry of a slot is the
number of calls made since the slot was last used. -/
theorem lastUsed_counts_calls {L : Lib} (hL : L.Ok) {t : List Nat} {c : GPUCache}
    (h : ReachableBy L t c) (ht : t.length < UINT_RANGE) :
    ∀ s, s < c.capacity → c.lastUsed.getD s 0 = callsSince t s := by
  induction h with
  | create hc =>
    intro s hs
    rw [(create_fields hc).2.2.1, List.getD_eq_getElem?_getD, List.getElem?_replicate]
    split <;> rfl
  | @getAny t c S buf ev r hc hS hr ih =>
    intro s hs
    have hreach := reachable_of_reachableBy hc
    obtain ⟨h0, hothers, _, _⟩ := touch_on_use_mod L hL c hreach S buf ev r hr
    have hcap : r.cache.capacity = c.capacity := by
      rcases getAny_cases hr with ⟨_, _, _, ht1⟩ | ⟨_, _, _, _, _, ht1⟩
      · exact (touch_fields ht1).2.2.2.2.2.2.2
      · exact (touch_fields ht1).2.2.2.2.2.2.2
    rw [hcap] at hs
    simp only [List.length_cons] at ht
    unfold callsSince
    by_cases hs0 : s = r.cacheIndex
    · rw [hs0, h0, List.indexOf_cons_self]
    · have hold := ih (by omega) s hs
      unfold callsSince at hold
      have hle : t.indexOf s ≤ t.length := List.indexOf_le_length
      rw [hothers s hs hs0, hold, Nat.mod_eq_of_lt (by omega),
        List.indexOf_cons_ne _ (fun h => hs0 h.symm)]
  | @load t c c1 l _ hl ih =>
    unfold loaderThreadFunction at hl
    split at hl
    · cases hl
    · simp only [Option.some.injEq, Prod.mk.injEq] at hl
      rw [← hl.2]
      exact ih ht

/-- In a state reached with fewer than `2^32` calls of `getAny`, no slot was used less
recently than the slot a miss rebinds. -/
theorem lru_before_wrap (L : Lib) (hL : L.Ok) (t : List Nat) (c : GPUCache)
    (hc : ReachableBy L t c) (ht : t.length < UINT_RANGE)
    (S : List Int) (buf ev : Nat) (r : GetAnyResult)
    (hr : getAny L c S buf ev = some r) (hmiss : r.hit = false) :
    c.order.getLast? = some r.cacheIndex ∧ r.cacheIndex < c.capacity ∧
    ∀ j, j < c.capacity → callsSince t j ≤ callsSince t r.cacheIndex := by
  have hi := (reachable_of_reachableBy hc).inv hL
  rcases getAny_cases hr with ⟨_, hhit, _, _⟩ | ⟨_, _, _, _, hv, _⟩
  · rw [hhit] at hmiss
    cases hmiss
  · have hlt := order_back_lt hi hv
    refine ⟨hv, hlt, ?_⟩
    intro j hj
    rw [← lastUsed_counts_calls hL hc ht j hj, ← lastUsed_counts_calls hL hc ht _ hlt]
    exact sorted_le_back hi.order_sorted hv j
      (hi.order_perm.symm.subset (List.mem_range.2 hj))

theorem reachableBy_lruAged_zero : ReachableBy stdLib [0, 1, 2] (lruAged 0) :=
  ReachableBy.getAny
    (ReachableBy.getAny
      (ReachableBy.getAny (@ReachableBy.create stdLib 256 64 4 3 31 tri0 rfl)
        (List.cons_ne_nil 8 [])
        (by decide : getAny stdLib tri0 [8] 1 1 = some ⟨8, 2, false, none, tri1⟩))
      (List.cons_ne_nil 9 [])
      (by decide : getAny stdLib tri1 [9] 2 2 = some ⟨9, 1, false, none, triAged 1⟩))
    (List.cons_ne_nil 10 [])
    (by decide : getAny stdLib (triAged 1) [10] 3 3 = some ⟨10, 0, false, none, lruAged 0⟩)

theorem getAny_lruAged (n : Nat) (h : n + 3 < UINT_RANGE) :
    getAny stdLib (lruAged n) [10] 4 4 =
      some ⟨10, 0, true, some ⟨0, 4, 4⟩, lruAged (n + 1)⟩ := by
  have h1 : (n + 1 + 1) % UINT_RANGE = n + 1 + 1 := Nat.mod_eq_of_lt (by omega)
  have h2 : (n + 2 + 1) % UINT_RANGE = n + 2 + 1 := Nat.mod_eq_of_lt h
  have h3 : (0 + 1) % UINT_RANGE = 1 := by decide
  simp [getAny, stdLib, findCommonFirst, lruAged, tri0, touch, enqueuCopy,
    insertionSortBy, insertSorted, h1, h2, h3]

theorem reachableBy_lruAged (n : Nat) (h : n + 2 < UINT_RANGE) :
    ReachableBy stdLib (List.replicate n 0 ++ [0, 1, 2]) (lruAged n) := by
  induction n with
  | zero => exact reachableBy_lruAged_zero
  | succ k ih =>
    exact ReachableBy.getAny (ih (by omega)) (List.cons_ne_nil 10 []) (getAny_lruAged k h)

theorem getAny_lruAged_last :
    getAny stdLib (lruAged 4294967293) [10] 4 4 =
      some ⟨10, 0, true, some ⟨0, 4, 4⟩, lruWrapped⟩ := by decide

theorem reachableBy_lruWrapped :
    ReachableBy stdLib (List.replicate 4294967294 0 ++ [0, 1, 2]) lruWrapped :=
  ReachableBy.getAny (reachableBy_lruAged 4294967293 (by decide)) (List.cons_ne_nil 10 [])
    getAny_lruAged_last

theorem callsSince_replicate (n s : Nat) (t : List Nat) (hs : s ≠ 0) :
    callsSince (List.replicate n 0 ++ t) s = n + callsSince t s := by
  unfold callsSince
  induction n with
  | zero => simp
  | succ k ih =>
    rw [List.replicate_succ, List.cons_append, List.indexOf_cons_ne _ (fun h => hs h.symm), ih]
    omega

/-- C2, the failing input: on a new cache of three slots, the misses `getAny({8}, 1, 1)`,
`getAny({9}, 2, 2)` and `getAny({10}, 3, 3)` bind the blocks 8, 9 and 10 to the slots 2,
1 and 0, and `2^32 - 2` hits `getAny({10}, 4, 4)` lead to the state `lruWrapped`.  Slot 2
was used less recently than slot 1 (`2^32` against `2^32 - 1` calls ago), but its
`lastUsed` entry has wrapped to 0.  The miss `getAny({11}, 5, 5)` then rebinds slot 1 and
unbinds block 9, while block 8, which was used less recently, stays. -/
theorem older_block_kept :
    ReachableBy stdLib (List.replicate 4294967294 0 ++ [0, 1, 2]) lruWrapped ∧
    callsSince (List.replicate 4294967294 0 ++ [0, 1, 2]) 1 = 4294967295 ∧
    callsSince (List.replicate 4294967294 0 ++ [0, 1, 2]) 2 = 4294967296 ∧
    lruWrapped.lastUsed = [0, 4294967295, 0] ∧
    mapFind lruWrapped.reverseIndexMap 1 = some 9 ∧
    mapFind lruWrapped.reverseIndexMap 2 = some 8 ∧
    getAny stdLib lruWrapped [11] 5 5 = some ⟨11, 1, false, none, lruEvicted⟩ ∧
    lruWrapped.order.getLast? = some 1 ∧
    ¬ callsSince (List.replicate 4294967294 0 ++ [0, 1, 2]) 2 ≤
      callsSince (List.replicate 4294967294 0 ++ [0, 1, 2]) 1 ∧
    mapFind lruEvicted.indexMap 9 = none ∧ mapFind lruEvicted.indexMap 8 = some 2 := by
  have h1 := callsSince_replicate 4294967294 1 [0, 1, 2] (by decide)
  have h2 := callsSince_replicate 4294967294 2 [0, 1, 2] (by decide)
  have e1 : callsSince [0, 1, 2] 1 = 1 := by decide
  have e2 : callsSince [0, 1, 2] 2 = 2 := by decide
  rw [e1] at h1
  rw [e2] at h2
  refine ⟨reachableBy_lruWrapped, h1, h2, rfl, by decide, by decide, by decide, by decide,
    ?_, by decide, by decide⟩
  rw [h1, h2]
  decide

/-! ## The block returned last and the next miss, for a sort that keeps equal keys (C28) -/

/-- C30: with a file open and synchronisation enabled, a call of `sendSyncMessage` that
returns sends nothing exactly when the current position lies within
`epsilon = max(3, fraction)` of `lastPositionReceived`, and it always leaves
`lastPositionReceived` at the default value.  After one `receiveSyncMessage`, every
sequence of calls of `sendSyncMessage` returns and skips at most one message.  The
current position is a coordinate on the canvas, which is not negative, and `epsilon` is
below `1000000000`, so that no position lies within `epsilon` of the default value
`-1000000000`; the first call is taken not to overflow `int`. -/
theorem echo_suppressed_once (w : SyncWindow) (received : Int)
    (calls : List (Int × Int))
    (hw : w.fileOpen = true ∧ w.synchronize = true)
    (hfirst : ∀ c ∈ calls.head?, INT_MIN ≤ received - max 3 c.2 ∧
      received + max 3 c.2 ≤ INT_MAX)
    (hlater : ∀ c ∈ calls.tail, 0 ≤ c.1 ∧ c.2 < 1000000000) :
    (∀ position fraction w1, sendSyncMessage w position fraction = some w1 →
      3 ≤ max 3 fraction ∧
      w1.lastPositionReceived = lastPositionReceivedDefault ∧
      (w1.sent = w.sent ∨ w1.sent = w.sent ++ [position]) ∧
      (w1.sent = w.sent ↔
        w.lastPositionReceived - max 3 fraction ≤ position ∧
        position ≤ w.lastPositionReceived + max 3 fraction)) ∧
    ∃ w1, sendSyncMessages (receiveSyncMessage w received) calls = some w1 ∧
      w.sent.length + calls.length ≤ w1.sent.length + 1 := by
  have hfar : ∀ c ∈ calls.tail, c.2 ≤ 1000000000 ∧
      (c.1 < lastPositionReceivedDefault - max 3 c.2 ∨
        lastPositionReceivedDefault + max 3 c.2 < c.1) := by
    intro c hc
    obtain ⟨h0, h1⟩ := hlater c hc
    have hd : lastPositionReceivedDefault = -1000000000 := rfl
    refine ⟨by omega, Or.inr ?_⟩
    rw [hd]
    omega
  obtain ⟨hone, hall⟩ := echo_skipped_at_most_once w received calls hw hfirst hfar
  refine ⟨?_, hall⟩
  intro position fraction w1 h
  exact ⟨le_max_left 3 fraction, hone position fraction w1 h⟩

theorem echo_suppressed_once_witness :
    (syncIdle.fileOpen = true ∧ syncIdle.synchronize = true) ∧
    (∀ c ∈ [((5 : Int), (3 : Int)), (6, 3), (400, 1)].head?,
      INT_MIN ≤ 5 - max 3 c.2 ∧ 5 + max 3 c.2 ≤ INT_MAX) ∧
    (∀ c ∈ [((5 : Int), (3 : Int)), (6, 3), (400, 1)].tail, 0 ≤ c.1 ∧ c.2 < 1000000000) ∧
    (∀ position fraction w1, sendSyncMessage syncIdle position fraction = some w1 →
      3 ≤ max 3 fraction ∧
      w1.lastPositionReceived = lastPositionReceivedDefault ∧
      (w1.sent = syncIdle.sent ∨ w1.sent = syncIdle.sent ++ [position]) ∧
      (w1.sent = syncIdle.sent ↔
        syncIdle.lastPositionReceived - max 3 fraction ≤ position ∧
        position ≤ syncIdle.lastPositionReceived + max 3 fraction)) ∧
    ∃ w1, sendSyncMessages (receiveSyncMessage syncIdle 5) [(5, 3), (6, 3), (400, 1)] =
        some w1 ∧
      syncIdle.sent.length + [((5 : Int), (3 : Int)), (6, 3), (400, 1)].length ≤
        w1.sent.length + 1 :=
  ⟨⟨rfl, rfl⟩, by decide, by decide,
    echo_suppressed_once syncIdle 5 [(5, 3), (6, 3), (400, 1)] ⟨rfl, rfl⟩
      (by decide) (by decide)⟩

end Alenka
